import Mathlib

/-!
The chunked output writer and the sampling heap profiler.

A shallow embedding of `OutputStreamWriter` (`src/profiler/heap-profiler.h`) and of
`SamplingHeapProfiler` (`src/profiler/sampling-heap-profiler.cc`).

* The writer is a record of its member variables; the sink (`stream_`) is a function
  answering each `WriteAsciiChunk` call, and the calls it has received are logged in
  the field `events`, oldest first.
* The C `int`s `chunk_size_` and `chunk_pos_` are never negative and are natural
  numbers here; `chunk_pos_` does not exceed `chunk_size_` in any state a run reaches
  (`runOps_invariant`), so that `chunk_size_ - chunk_pos_` is the subtraction of
  natural numbers. The release build is modelled, where `DCHECK` is empty.
* The `while` loop of `AddSubstring` takes a fuel: the number of iterations it may run.
  An operation that is still looping when the fuel is used up ends as `outOfFuel`;
  a loop that ends as `outOfFuel` for every fuel does not terminate.
-/

namespace V8

/-! ## The sink -/

/-- The answer of `v8::OutputStream::WriteAsciiChunk`. -/
inductive WriteResult where
  | kContinue
  | kAbort
  deriving DecidableEq, Repr

/-- One call received by the sink: `WriteAsciiChunk(data, size)` with the `size` bytes it
was given and the answer it gave, or `EndOfStream()`. -/
inductive SinkEvent where
  | write (bytes : List Char) (r : WriteResult)
  | endOfStream
  deriving DecidableEq, Repr

/-- A sink behaviour: the answer to a `WriteAsciiChunk` call, which may depend on the
calls received so far and on the bytes of this call. -/
abbrev Sink := List SinkEvent → List Char → WriteResult

/-- The sink that answers `kContinue` to every write. -/
def continuingSink : Sink := fun _ _ => WriteResult.kContinue

/-- The sink that answers `kAbort` to every write. -/
def abortingSink : Sink := fun _ _ => WriteResult.kAbort

/-- The write calls of a log, as the byte chunks they carried, in call order. -/
def writesOf : List SinkEvent → List (List Char)
  | [] => []
  | SinkEvent.write bytes _ :: es => bytes :: writesOf es
  | SinkEvent.endOfStream :: es => writesOf es

/-- The sink that answers `kAbort` to its `k`-th write (counting from 1) and `kContinue`
to the others. -/
def abortAt (k : Nat) : Sink := fun log _ =>
  if (writesOf log).length + 1 = k then WriteResult.kAbort else WriteResult.kContinue

/-! ## Helpers that are not part of the source files -/

/-- Modelled from the spec: `MemCopy(dest + pos, src, n)` is the C `memcpy`, not part of the
source files: it overwrites the bytes of the buffer `buf` from position `pos` on with
the bytes `src`. -/
def MemCopy (buf : List Char) (pos : Nat) (src : List Char) : List Char :=
  buf.take pos ++ src ++ buf.drop (pos + src.length)

/-- Modelled from the spec: `StrLength(s)` is the C `strlen`, not part of the source files:
the number of bytes before the first NUL. The list `s` is the memory the pointer
addresses; a list without NUL is a string whose terminator directly follows it. -/
def StrLength (s : List Char) : Nat :=
  (s.takeWhile (fun c => c != '\x00')).length

/-- Modelled from the spec: the text `snprintf` produces for the format `%u`, the decimal
representation of `n` (the formatting function is not part of the source files). -/
def decimal (n : Nat) : List Char := Nat.toDigits 10 n

/-- Modelled from the spec: `SNPrintF(buf, "%u", n)`, not part of the source files: like the C
`snprintf` it stores the text and a terminating NUL at the start of `buf` and returns
the length of the text; when the text and the NUL do not fit, it stores what fits,
ends it with NUL and returns `-1`. -/
def SNPrintF (buf : List Char) (n : Nat) : List Char × Int :=
  if (decimal n).length < buf.length then
    (MemCopy buf 0 (decimal n ++ ['\x00']), ((decimal n).length : Int))
  else
    (MemCopy buf 0 ((decimal n).take (buf.length - 1) ++ (['\x00'].take buf.length)), -1)

/-- The constants `MaxDecimalDigitsIn<4>::kSigned` and `kUnsigned`. -/
def MaxDecimalDigitsIn4_kSigned : Nat := 11
def MaxDecimalDigitsIn4_kUnsigned : Nat := 10
/-- The constants `MaxDecimalDigitsIn<8>::kSigned` and `kUnsigned`. -/
def MaxDecimalDigitsIn8_kSigned : Nat := 20
def MaxDecimalDigitsIn8_kUnsigned : Nat := 20

/-- The constant `kMaxNumberSize` of `AddNumberImpl<unsigned>`: the longest value plus
the trailing NUL, `MaxDecimalDigitsIn<sizeof(unsigned)>::kUnsigned + 1`. -/
def kMaxNumberSize : Nat := MaxDecimalDigitsIn4_kUnsigned + 1

/-! ## The writer -/

/-- The member variables of `OutputStreamWriter`, and the log of the calls its sink
`stream_` has received. `chunk` is the buffer `chunk_`, of `chunk_size` bytes. -/
structure OutputStreamWriter where
  chunk_size : Nat
  chunk : List Char
  chunk_pos : Nat
  aborted : Bool
  events : List SinkEvent
  deriving DecidableEq, Repr

/-- How a writer operation ends: it returns (`done`); or its loop is still running when
the fuel is used up (`outOfFuel`); or it stores past the end of the chunk buffer
(`outOfBounds`), which the source excludes only by a `DCHECK`. Each carries the state
of the writer reached. -/
inductive Outcome where
  | done (w : OutputStreamWriter)
  | outOfFuel (w : OutputStreamWriter)
  | outOfBounds (w : OutputStreamWriter)
  deriving DecidableEq, Repr

/-- The writer state an outcome carries. -/
def Outcome.writer : Outcome → OutputStreamWriter
  | Outcome.done w => w
  | Outcome.outOfFuel w => w
  | Outcome.outOfBounds w => w

/-- The operation returned. -/
def Outcome.returned : Outcome → Bool
  | Outcome.done _ => true
  | _ => false

/-- Sequencing: the next operation runs when the one before has returned. -/
def Outcome.bind (o : Outcome) (f : OutputStreamWriter → Outcome) : Outcome :=
  match o with
  | Outcome.done w => f w
  | Outcome.outOfFuel w => Outcome.outOfFuel w
  | Outcome.outOfBounds w => Outcome.outOfBounds w

/-- The constructor `OutputStreamWriter(stream)`, for a stream whose `GetChunkSize()` is
`chunk_size`. The buffer is allocated uninitialised; its bytes are NUL here, and no
operation passes a byte to the sink that it has not stored before. -/
def OutputStreamWriter.new (chunk_size : Nat) : OutputStreamWriter :=
  { chunk_size := chunk_size
    chunk := List.replicate chunk_size '\x00'
    chunk_pos := 0
    aborted := false
    events := [] }

/-- The private `WriteChunk()`. -/
def WriteChunk (sink : Sink) (w : OutputStreamWriter) : OutputStreamWriter :=
  if w.aborted then w
  else
    let bytes := w.chunk.take w.chunk_pos
    let r := sink w.events bytes
    { w with
      events := w.events ++ [SinkEvent.write bytes r]
      aborted := if r = WriteResult.kAbort then true else w.aborted
      chunk_pos := 0 }

/-- The private `MaybeWriteChunk()`. -/
def MaybeWriteChunk (sink : Sink) (w : OutputStreamWriter) : OutputStreamWriter :=
  if w.chunk_pos = w.chunk_size then WriteChunk sink w else w

/-- The operation `AddCharacter(c)`: the store `chunk_[chunk_pos_++] = c` is in bounds when
`chunk_pos_ < chunk_size_`, which the source asserts by `DCHECK`. -/
def AddCharacter (sink : Sink) (c : Char) (w : OutputStreamWriter) : Outcome :=
  if w.chunk_pos < w.chunk_size then
    Outcome.done (MaybeWriteChunk sink
      { w with chunk := w.chunk.set w.chunk_pos c, chunk_pos := w.chunk_pos + 1 })
  else Outcome.outOfBounds w

/-- The body of the loop of `AddSubstring`, run on a state where the bytes from `s` up to
`s_end` are the list `s`: it gives the writer and the bytes left after the iteration. -/
def AddSubstringBody (sink : Sink) (w : OutputStreamWriter) (s : List Char) :
    OutputStreamWriter × List Char :=
  let s_chunk_size := min (w.chunk_size - w.chunk_pos) s.length
  (MaybeWriteChunk sink
    { w with
      chunk := MemCopy w.chunk w.chunk_pos (s.take s_chunk_size)
      chunk_pos := w.chunk_pos + s_chunk_size },
   s.drop s_chunk_size)

/-- The loop `while (s < s_end)` of `AddSubstring`; the list holds the bytes from `s` up to
`s_end`, so that the loop ends when it is empty. The first argument is the fuel. -/
def AddSubstringLoop (sink : Sink) : Nat → OutputStreamWriter → List Char → Outcome
  | _, w, [] => Outcome.done w
  | 0, w, _ :: _ => Outcome.outOfFuel w
  | fuel + 1, w, c :: cs =>
    AddSubstringLoop sink fuel (AddSubstringBody sink w (c :: cs)).1
      (AddSubstringBody sink w (c :: cs)).2

/-- The operation `AddSubstring(s, n)`; `n` is at most the length of the string (asserted by
the source). -/
def AddSubstring (sink : Sink) (fuel : Nat) (s : List Char) (n : Int)
    (w : OutputStreamWriter) : Outcome :=
  if n ≤ 0 then Outcome.done w
  else AddSubstringLoop sink fuel w (s.take n.toNat)

/-- The operation `AddString(s)`. -/
def AddString (sink : Sink) (fuel : Nat) (s : List Char) (w : OutputStreamWriter) : Outcome :=
  AddSubstring sink fuel s (StrLength s) w

/-- The private `AddNumberImpl<unsigned>(n, "%u")`. The first branch formats into
`chunk_.SubVector(chunk_pos_, chunk_size_)`, the second into a scratch buffer of
`kMaxNumberSize` bytes. -/
def AddNumberImpl (sink : Sink) (fuel : Nat) (n : Nat) (w : OutputStreamWriter) : Outcome :=
  if w.chunk_size - w.chunk_pos ≥ kMaxNumberSize then
    let sub := (w.chunk.take w.chunk_size).drop w.chunk_pos
    let r := SNPrintF sub n
    Outcome.done (MaybeWriteChunk sink
      { w with
        chunk := w.chunk.take w.chunk_pos ++ r.1 ++ w.chunk.drop w.chunk_size
        chunk_pos := ((w.chunk_pos : Int) + r.2).toNat })
  else
    let buffer := List.replicate kMaxNumberSize '\x00'
    let r := SNPrintF buffer n
    AddString sink fuel r.1 w

/-- The operation `AddNumber(n)`; its parameter is an `unsigned`, a value below `2 ^ 32`. -/
def AddNumber (sink : Sink) (fuel : Nat) (n : Nat) (w : OutputStreamWriter) : Outcome :=
  AddNumberImpl sink fuel (n % 2 ^ 32) w

/-- The operation `Finalize()`. -/
def Finalize (sink : Sink) (w : OutputStreamWriter) : OutputStreamWriter :=
  if w.aborted then w
  else
    let w1 := if w.chunk_pos ≠ 0 then WriteChunk sink w else w
    { w1 with events := w1.events ++ [SinkEvent.endOfStream] }

/-- An append operation of the writer, as a value. -/
inductive WriterOp where
  | addCharacter (c : Char)
  | addString (s : List Char)
  | addSubstring (s : List Char) (n : Int)
  | addNumber (n : Nat)
  deriving DecidableEq, Repr

/-- Runs one append operation. -/
def WriterOp.apply (sink : Sink) (fuel : Nat) : WriterOp → OutputStreamWriter → Outcome
  | WriterOp.addCharacter c, w => AddCharacter sink c w
  | WriterOp.addString s, w => AddString sink fuel s w
  | WriterOp.addSubstring s n, w => AddSubstring sink fuel s n w
  | WriterOp.addNumber n, w => AddNumber sink fuel n w

/-- Runs a sequence of append operations, in order. -/
def runOps (sink : Sink) (fuel : Nat) : List WriterOp → OutputStreamWriter → Outcome
  | [], w => Outcome.done w
  | op :: ops, w => (op.apply sink fuel w).bind (runOps sink fuel ops)

/-- The life of a writer: construction for chunk size `chunk_size`, a sequence of append
operations, then `Finalize`. -/
def writerLife (sink : Sink) (fuel : Nat) (chunk_size : Nat) (ops : List WriterOp) : Outcome :=
  (runOps sink fuel ops (OutputStreamWriter.new chunk_size)).bind
    (fun w => Outcome.done (Finalize sink w))

/-- The bytes the writer has accepted for the sink and not dropped: the chunks written so
far, followed by the bytes buffered. -/
def OutputStreamWriter.stream (w : OutputStreamWriter) : List Char :=
  (writesOf w.events).flatten ++ w.chunk.take w.chunk_pos

/-- The structural condition of a writer object: the buffer `chunk_` has `chunk_size_`
bytes, as allocated by the constructor. -/
@[reducible] def OutputStreamWriter.wellFormed (w : OutputStreamWriter) : Prop :=
  w.chunk.length = w.chunk_size

/-- The invariant of the writer between operations: the buffer has `chunk_size_` bytes, the
position is within the buffer and, unless the writer has aborted, strictly so; and
every write call made so far carried between 1 and `chunk_size_` bytes. -/
def OutputStreamWriter.invariant (w : OutputStreamWriter) : Prop :=
  w.chunk.length = w.chunk_size ∧ w.chunk_pos ≤ w.chunk_size ∧
  (w.aborted = false → w.chunk_pos < w.chunk_size) ∧
  ∀ b ∈ writesOf w.events, 1 ≤ b.length ∧ b.length ≤ w.chunk_size

/-- The state a writer is in after the sink has answered `kAbort` to the chunk `ab`, for
chunk size 2: the position is back at 0 and the flag is set. -/
def abortedWriter : OutputStreamWriter :=
  (AddString abortingSink 2 "ab".toList (OutputStreamWriter.new 2)).writer

/-! ## The sampling heap profiler: report generation -/

/-- The class `SamplingHeapProfiler::FunctionInfo`: two C strings. -/
structure FunctionInfo where
  name : List Char
  script_name : List Char
  deriving DecidableEq, Repr

/-- The class `SamplingHeapProfiler::Sample`: the address of the object its weak handle
`global_` refers to, the captured stack `stack_` and the size `size_`. -/
structure Sample where
  global : Nat
  stack : List FunctionInfo
  size : Nat
  deriving DecidableEq, Repr

/-- The loop over the frames of one sample in `GetHeapSample`: `i` is the loop index,
`length` is `stack.length()` and the list holds the frames from index `i` on. -/
def GetHeapSample.frames (sink : Sink) (fuel : Nat) (length : Int) :
    Nat → List FunctionInfo → OutputStreamWriter → Outcome
  | _, [], w => Outcome.done w
  | i, info :: rest, w =>
    (AddString sink fuel "\t\x7b\"name\": \"".toList w).bind fun w =>
    (AddString sink fuel info.name w).bind fun w =>
    (AddString sink fuel "\", \"scriptName\": \"".toList w).bind fun w =>
    (AddString sink fuel info.script_name w).bind fun w =>
    (if (i : Int) < length - 1 then AddString sink fuel "\"\x7d,\n".toList w
     else AddString sink fuel "\"\x7d\n".toList w).bind fun w =>
    GetHeapSample.frames sink fuel length (i + 1) rest w

/-- The loop over the live samples in `GetHeapSample`: `i` counts the samples before this
one, so that `it != samples_.begin()` is `i ≠ 0`; the list holds the samples from the
iterator on. -/
def GetHeapSample.samples (sink : Sink) (fuel : Nat) :
    Nat → List Sample → OutputStreamWriter → Outcome
  | _, [], w => Outcome.done w
  | i, sample :: rest, w =>
    (if i ≠ 0 then AddString sink fuel ",".toList w else Outcome.done w).bind fun w =>
    (AddString sink fuel " \x7b\"size\": ".toList w).bind fun w =>
    (AddNumber sink fuel (sample.size % 2 ^ 32) w).bind fun w =>
    (AddString sink fuel ", \"stack\": [\n".toList w).bind fun w =>
    (GetHeapSample.frames sink fuel sample.stack.length 0 sample.stack w).bind fun w =>
    (AddString sink fuel " ]\x7d\n".toList w).bind fun w =>
    GetHeapSample.samples sink fuel (i + 1) rest w

/-- The function `SamplingHeapProfiler::GetHeapSample(stream)`, for a stream with chunk size
`chunk_size`; `samples` is the live set `samples_` in its iteration order. -/
def GetHeapSample (sink : Sink) (fuel : Nat) (chunk_size : Nat) (samples : List Sample) :
    Outcome :=
  (AddString sink fuel "[\n".toList (OutputStreamWriter.new chunk_size)).bind fun w =>
  (GetHeapSample.samples sink fuel 0 samples w).bind fun w =>
  (AddString sink fuel "]\n".toList w).bind fun w =>
  Outcome.done (Finalize sink w)

/-! ## The sampling heap profiler: the sampling interval -/

/-- The conversion `static_cast<intptr_t>(x)` of a `double`: truncation toward zero. The
type `intptr_t` has `8 * kPointerSize` bits; when the truncated value is outside its
range the conversion is undefined in C++, and `undefinedCast` stands for what it
yields. -/
def toIntptr {α : Type} [LinearOrderedField α] [FloorRing α]
    (kPointerSize : Nat) (undefinedCast : Int) (x : α) : Int :=
  let t : Int := if 0 ≤ x then Int.floor x else Int.ceil x
  if -(2 ^ (8 * kPointerSize - 1)) ≤ t ∧ t < 2 ^ (8 * kPointerSize - 1) then t
  else undefinedCast

/-- The function `SamplingHeapProfiler::GetNextSampleInterval(random, rate)`. The value `u`
is the one `random->NextDouble()` draws. The finite values of the type `double` are
elements of an ordered field `α` (they are rationals). The constant `kPointerSize` and
the operations on doubles are not part of the source files and are parameters: `log` is
`std::log`; `mul` is the multiplication of two doubles, which rounds its result;
`toDouble` is the conversion of the `uint64_t` rate to `double`, which rounds from
`2 ^ 53` on. The negation of a double is exact. -/
def GetNextSampleInterval {α : Type} [LinearOrderedField α] [FloorRing α]
    (kPointerSize : Nat) (undefinedCast : Int) (log : α → α) (mul : α → α → α)
    (toDouble : Nat → α) (u : α) (rate : Nat) : Int :=
  let next : α := mul (-log u) (toDouble rate)
  max (kPointerSize : Int) (toIntptr kPointerSize undefinedCast next)

/-- The interval formula in the words of the specification:
`max(pointer_size, round(-ln(u) * rate))`, with rounding to the nearest integer. -/
def specNextSampleInterval {α : Type} [LinearOrderedField α] [FloorRing α]
    (kPointerSize : Nat) (log : α → α) (u : α) (rate : Nat) : Int :=
  max (kPointerSize : Int) (round ((-log u) * (rate : α)))

/-! ## The sampling heap profiler: the text of the report -/

/-- The content of a C string: the bytes before its first NUL, which `AddString` copies. -/
def cString (s : List Char) : List Char := s.takeWhile (fun c => c != '\x00')

/-- The text the frame loop of `GetHeapSample` appends, read off the loop: for the frame of
index `i` the opening, the name, the middle, the script name and the closing, which
carries a comma when `i < length - 1`. -/
def emittedFrames (length : Int) : Nat → List FunctionInfo → List Char
  | _, [] => []
  | i, info :: rest =>
    "\t\x7b\"name\": \"".toList ++ cString info.name ++
      "\", \"scriptName\": \"".toList ++ cString info.script_name ++
      (if (i : Int) < length - 1 then "\"\x7d,\n".toList else "\"\x7d\n".toList) ++
      emittedFrames length (i + 1) rest

/-- The text one iteration of the sample loop of `GetHeapSample` appends, read off the loop:
for the sample of index `i` a comma when `i ≠ 0`, then the record with the size field
`num size` and the frames. The function `num` is the text of the size field for a
recorded size. -/
def emittedRecord (num : Nat → List Char) (i : Nat) (sample : Sample) : List Char :=
  (if i ≠ 0 then ",".toList else []) ++
    " \x7b\"size\": ".toList ++ num sample.size ++ ", \"stack\": [\n".toList ++
    emittedFrames sample.stack.length 0 sample.stack ++ " ]\x7d\n".toList

/-- The text the sample loop of `GetHeapSample` appends: the records of the samples, the
first one with the index `i`. -/
def emittedSamples (num : Nat → List Char) : Nat → List Sample → List Char
  | _, [] => []
  | i, sample :: rest => emittedRecord num i sample ++ emittedSamples num (i + 1) rest

/-- The text of the whole report, read off `GetHeapSample`. -/
def emittedReport (num : Nat → List Char) (samples : List Sample) : List Char :=
  "[\n".toList ++ emittedSamples num 0 samples ++ "]\n".toList

/-- The size field as `GetHeapSample` prints it: the decimal text of
`static_cast<unsigned>(size)`. -/
def emittedSize (size : Nat) : List Char := decimal (size % 2 ^ 32)

/-- One frame of the report in the words of the wire format:
`{"name": "<str>", "scriptName": "<str>"}`, after a tab. -/
def frameRecord (info : FunctionInfo) : List Char :=
  "\t\x7b\"name\": \"".toList ++ cString info.name ++
    "\", \"scriptName\": \"".toList ++ cString info.script_name ++ "\"\x7d".toList

/-- The frames of one record in the words of the wire format: the frame records separated
by a comma and a newline, and a newline after the last one. -/
def stackRecords (stack : List FunctionInfo) : List Char :=
  if stack = [] then []
  else List.intercalate ",\n".toList (stack.map frameRecord) ++ "\n".toList

/-- One sample of the report in the words of the wire format:
`{ "size": <uint>, "stack": [` ... `]}`, with `num size` as the size field. -/
def sampleRecord (num : Nat → List Char) (sample : Sample) : List Char :=
  " \x7b\"size\": ".toList ++ num sample.size ++ ", \"stack\": [\n".toList ++
    stackRecords sample.stack ++ " ]\x7d\n".toList

/-- The report in the words of the wire format: the sample records separated by commas,
between `[` and `]`. -/
def reportText (num : Nat → List Char) (samples : List Sample) : List Char :=
  "[\n".toList ++ List.intercalate ",".toList (samples.map (sampleRecord num)) ++ "]\n".toList

/-! ## The sampling heap profiler: capturing a sample -/

/-- Modelled from the spec: the string-interning collaborator `StringsStorage`, not part of
the source files: `GetFunctionName` and `GetName` give the stable copy of a name. -/
structure StringsStorage where
  GetFunctionName : List Char → List Char
  GetName : List Char → List Char

/-- A `Script` object as `FunctionInfo` reads it: `name` is `some n` when
`script->name()->IsName()`, with `n` the name. -/
structure Script where
  name : Option (List Char)
  deriving DecidableEq, Repr

/-- A `SharedFunctionInfo` object as `FunctionInfo` reads it: its `DebugName()`, and its
`script()`, which is `some s` when `shared->script()->IsScript()`. -/
structure SharedFunctionInfo where
  DebugName : List Char
  script : Option Script
  deriving DecidableEq, Repr

/-- The constructor `FunctionInfo(shared, names)`. -/
def FunctionInfo.new (shared : SharedFunctionInfo) (names : StringsStorage) : FunctionInfo :=
  let name_ := names.GetFunctionName shared.DebugName
  match shared.script with
  | some script =>
    match script.name with
    | some name => { name := name_, script_name := names.GetName name }
    | none => { name := name_, script_name := [] }
  | none => { name := name_, script_name := [] }

/-- The loop of the constructor of `Sample` that walks the call stack:
`while (!it.done() && frames_captured < limit)` with `limit = 10`. The first argument is
`frames_captured`, the list holds the frames the iterator has not visited yet (the
iterator starts at the innermost frame), and the last argument is `stack_`. -/
def Sample.captureLoop (names : StringsStorage) :
    Nat → List SharedFunctionInfo → List FunctionInfo → List FunctionInfo
  | _, [], stack_ => stack_
  | frames_captured, shared :: rest, stack_ =>
    if frames_captured < 10 then
      Sample.captureLoop names (frames_captured + 1) rest
        (stack_ ++ [FunctionInfo.new shared names])
    else stack_

/-- The constructor `Sample(shp, isolate, local, size)`, for the call stack `frames`
(innermost frame first) and the object at the address `object`. Making the handle
weak is an effect on the runtime, see `SampleObject`. -/
def Sample.new (names : StringsStorage) (frames : List SharedFunctionInfo)
    (object : Nat) (size : Nat) : Sample :=
  { global := object
    stack := Sample.captureLoop names 0 frames []
    size := size }

/-- The conversion `static_cast<int>(size)` of a `size_t` to a 32-bit `int`. -/
def toInt32 (size : Nat) : Int :=
  if size % 2 ^ 32 < 2 ^ 31 then ((size % 2 ^ 32 : Nat) : Int)
  else ((size % 2 ^ 32 : Nat) : Int) - 2 ^ 32

/-- Insertion into a `std::set<Sample*>`, kept as the list of its elements in ascending
order: an element already present is not inserted again. -/
def stdSetInsert (p : Nat) (s : List Nat) : List Nat :=
  if p ∈ s then s else s.orderedInsert (fun a b => a ≤ b) p

/-- The state the profiler lives in. `alive`: the `SamplingHeapProfiler` object exists.
`observing`: it is registered with the new space as inline allocation observer.
`samples_`: its member, the set of `Sample*` in ascending order. `sampleObjects`: the
`Sample` objects made by `new` and not deleted, by address. `weakHandles`: the addresses
of the samples whose handle `global_` is weak and not reset, so that the collector may
invoke the weak callback for them. `fillers`: the calls `CreateFillerObjectAt(addr, size)`
made on the heap, in order. -/
structure Runtime where
  alive : Bool
  observing : Bool
  samples_ : List Nat
  sampleObjects : List (Nat × Sample)
  weakHandles : List Nat
  fillers : List (Nat × Int)
  deriving DecidableEq, Repr

/-- The constructor `SamplingHeapProfiler(heap, names, rate)`, in a runtime without
samples: the set is empty and the observer is registered. -/
def SamplingHeapProfiler.new : Runtime :=
  { alive := true
    observing := true
    samples_ := []
    sampleObjects := []
    weakHandles := []
    fillers := [] }

/-- The function `SamplingHeapProfiler::SampleObject(soon_object, size)`. The address `p` is
the one `new Sample` returns; `frames` is the call stack at the time of the call. -/
def SampleObject (names : StringsStorage) (frames : List SharedFunctionInfo) (p : Nat)
    (soon_object : Nat) (size : Nat) (r : Runtime) : Runtime :=
  { r with
    fillers := r.fillers ++ [(soon_object, toInt32 size)]
    sampleObjects := (p, Sample.new names frames soon_object size) :: r.sampleObjects
    weakHandles := p :: r.weakHandles
    samples_ := stdSetInsert p r.samples_ }

set_option linter.unusedVariables false in
/-- The function `SamplingHeapProfiler::Step(bytes_allocated, soon_object, size)`; the null
address is 0. -/
def Step (names : StringsStorage) (frames : List SharedFunctionInfo) (p : Nat)
    (bytes_allocated : Int) (soon_object : Nat) (size : Nat) (r : Runtime) : Runtime :=
  if soon_object = 0 then r
  else SampleObject names frames p soon_object size r

/-- The function `Sample::OnWeakCallback(data)`, with `p` the parameter `data.GetParameter()`.
It reads `sample->shp_->samples_`: the result is `none` when the sample has been deleted
or the profiler destroyed (a use of freed memory). Then `delete sample` frees the object
and its destructor resets the handle `global_`. -/
def OnWeakCallback (p : Nat) (r : Runtime) : Option Runtime :=
  match r.sampleObjects.lookup p with
  | none => none
  | some _ =>
    if r.alive then
      some { r with
        samples_ := r.samples_.erase p
        sampleObjects := r.sampleObjects.filter (fun q => q.1 != p)
        weakHandles := r.weakHandles.filter (fun q => q != p) }
    else none

/-- Modelled from the spec: the weak-liveness interface (`SetWeak`, `Reset`), not part of the
source files: the collector invokes the callback of a link only while the link is weak
and not reset; for a sample without such a link nothing is invoked. -/
def collectorFires (p : Nat) (r : Runtime) : Option Runtime :=
  if p ∈ r.weakHandles then OnWeakCallback p r else some r

/-- The destructor `~SamplingHeapProfiler()`: its body removes the observer; then the member
`samples_` is destroyed, a set of plain pointers, and the object is gone. -/
def SamplingHeapProfiler.destroy (r : Runtime) : Runtime :=
  { r with observing := false, alive := false, samples_ := [] }

/-- The live samples of a runtime in the iteration order of `samples_`. -/
def Runtime.liveSamples (r : Runtime) : List Sample :=
  r.samples_.filterMap (fun p => r.sampleObjects.lookup p)

/-- The structural condition of a runtime: `samples_` is a set in ascending order, and each
of its elements is the address of a `Sample` object that has not been deleted. -/
def Runtime.wellFormed (r : Runtime) : Prop :=
  r.samples_.Sorted (fun a b => a < b) ∧
  ∀ p ∈ r.samples_, p ∈ r.sampleObjects.map Prod.fst

/-- A runtime with one live sample: the profiler after one `Step` for an object of 16 bytes
at the address 4096, with an empty call stack; `new Sample` has returned the address 1. -/
def oneSampleRuntime : Runtime :=
  Step ⟨id, id⟩ [] 1 16 4096 16 SamplingHeapProfiler.new

/-- A writer in the course of a report over a sink that always continues, for chunk size
`C`: it satisfies the invariant, has not aborted, and the sink calls so far are writes
that were answered `kContinue`. -/
def OutputStreamWriter.flowing (C : Nat) (w : OutputStreamWriter) : Prop :=
  w.invariant ∧ w.chunk_size = C ∧ w.aborted = false ∧
  ∃ chunks : List (List Char),
    w.events = chunks.map (fun b => SinkEvent.write b WriteResult.kContinue)

/-- The operation `op` appends `text` to the stream: from every writer in the course of a
report it returns, in such a writer again, with `text` added to the stream. -/
def appendsText (C : Nat) (op : OutputStreamWriter → Outcome) (text : List Char) : Prop :=
  ∀ w : OutputStreamWriter, w.flowing C →
    ∃ w', op w = Outcome.done w' ∧ w'.flowing C ∧ w'.stream = w.stream ++ text

/-! ## Further definitions for the claims on the writer, the engine and the interval -/

/-- An append operation of NUL-free content: `AddCharacter(c)` with `c` not NUL (asserted by
the source), `AddSubstring(s, n)` with `n` at most the length of the C string `s`
(asserted by the source); `AddString` copies a C string up to its NUL and `AddNumber`
formats digits, whatever their argument. -/
def WriterOp.nulFree : WriterOp → Prop
  | WriterOp.addCharacter c => c ≠ '\x00'
  | WriterOp.addString _ => True
  | WriterOp.addSubstring s n => n ≤ (StrLength s : Int)
  | WriterOp.addNumber _ => True

/-- No NUL among the bytes the writer has passed to the sink or holds buffered for it. -/
def OutputStreamWriter.nulFree (w : OutputStreamWriter) : Prop :=
  (∀ c ∈ w.chunk.take w.chunk_pos, c ≠ '\x00') ∧
  ∀ b ∈ writesOf w.events, ∀ c ∈ b, c ≠ '\x00'

/-- The sink calls of `w'` are those of `w` followed by write calls only, each of exactly `C`
bytes. -/
def fullChunkWrites (C : Nat) (w w' : OutputStreamWriter) : Prop :=
  ∃ chunks : List (List Char × WriteResult),
    w'.events = w.events ++ chunks.map (fun x => SinkEvent.write x.1 x.2) ∧
    ∀ x ∈ chunks, x.1.length = C

/-- A writer over the sink `abortAt k` before the `k`-th write: it has not aborted and has
made fewer than `k` writes. -/
def beforeAbort (k : Nat) (w : OutputStreamWriter) : Prop :=
  w.aborted = false ∧ (writesOf w.events).length < k

/-- A writer `wa` over the sink `abortAt k` after the `k`-th write, against a writer `wc`
over the sink that always continues: `wa` has aborted, it has made `k` writes, and the
writes of `wc` begin with them. -/
def afterAbort (k : Nat) (wa wc : OutputStreamWriter) : Prop :=
  wa.aborted = true ∧ (writesOf wa.events).length = k ∧
  ∃ t, writesOf wc.events = writesOf wa.events ++ t

/-- The relation between the run over the sink `abortAt k` and the run of the same operations
over the sink that always continues: the two are the same run before the `k`-th
write, and related by `afterAbort` after it. -/
def abortRel (k : Nat) (oa oc : Outcome) : Prop :=
  (oa = oc ∧ beforeAbort k oa.writer) ∨ afterAbort k oa.writer oc.writer

/-- Modelled from the spec: the text `snprintf` produces for the format `%d`, the decimal
representation of a signed value with its sign (the formatting function is not part of
the source files). -/
def decimalSigned (i : Int) : List Char :=
  if i < 0 then '-' :: decimal i.natAbs else decimal i.natAbs

/-- The value `next` of `GetNextSampleInterval` before its conversion to `intptr_t`: the
double `(-std::log(u)) * rate`, computed with the operations on doubles `log`, `mul` and
`toDouble`. -/
def nextSampleValue {α : Type} [LinearOrderedField α] (log : α → α) (mul : α → α → α)
    (toDouble : Nat → α) (u : α) (rate : Nat) : α :=
  mul (-log u) (toDouble rate)

set_option linter.unusedVariables false in
/-- The member function `GetNextStepSize()`: `GetNextSampleInterval(random_, rate_)`. The
runtime `r` is the state at the time of the call, `rate_` the constant member and `u`
the value the random source draws. -/
def GetNextStepSize {α : Type} [LinearOrderedField α] [FloorRing α]
    (kPointerSize : Nat) (undefinedCast : Int) (log : α → α) (mul : α → α → α)
    (toDouble : Nat → α) (rate_ : Nat) (r : Runtime) (u : α) : Int :=
  GetNextSampleInterval kPointerSize undefinedCast log mul toDouble u rate_

/-- The bytes an append operation hands to the writer: the character; the content of the C
string; the first `n` bytes of the string; the decimal text of the `unsigned` value. -/
def WriterOp.text : WriterOp → List Char
  | WriterOp.addCharacter c => [c]
  | WriterOp.addString s => cString s
  | WriterOp.addSubstring s n => if n ≤ 0 then [] else s.take n.toNat
  | WriterOp.addNumber n => decimal (n % 2 ^ 32)

/-- A runtime state with two Sample objects, at the addresses 1 and 2: the result of a second
`Step` on the runtime with one live sample. -/
def twoSamplesOneAddress : Runtime :=
  Step ⟨id, id⟩ [] 2 16 4096 16 oneSampleRuntime

/-! # Theorems -/

/-! ## Basic facts -/

@[simp] theorem Outcome.bind_done (w : OutputStreamWriter) (f : OutputStreamWriter → Outcome) :
    (Outcome.done w).bind f = f w := rfl

@[simp] theorem Outcome.bind_outOfFuel (w : OutputStreamWriter)
    (f : OutputStreamWriter → Outcome) :
    (Outcome.outOfFuel w).bind f = Outcome.outOfFuel w := rfl

@[simp] theorem Outcome.bind_outOfBounds (w : OutputStreamWriter)
    (f : OutputStreamWriter → Outcome) :
    (Outcome.outOfBounds w).bind f = Outcome.outOfBounds w := rfl

@[simp] theorem Outcome.writer_done (w : OutputStreamWriter) :
    (Outcome.done w).writer = w := rfl

@[simp] theorem Outcome.writer_outOfFuel (w : OutputStreamWriter) :
    (Outcome.outOfFuel w).writer = w := rfl

@[simp] theorem Outcome.writer_outOfBounds (w : OutputStreamWriter) :
    (Outcome.outOfBounds w).writer = w := rfl

/-- A property that holds of the state an operation reaches, and that the next operation
carries from its start to the state it reaches, holds of the state the sequence
reaches. -/
theorem Outcome.bind_writer_of (P : OutputStreamWriter → Prop) (o : Outcome)
    (f : OutputStreamWriter → Outcome) (ho : P o.writer)
    (hf : ∀ w, P w → P (f w).writer) : P (o.bind f).writer := by
  cases o with
  | done w => exact hf w ho
  | outOfFuel w => exact ho
  | outOfBounds w => exact ho

theorem writesOf_append (a b : List SinkEvent) :
    writesOf (a ++ b) = writesOf a ++ writesOf b := by
  induction a with
  | nil => rfl
  | cons e es ih =>
    cases e with
    | write bytes r => simp [writesOf, ih]
    | endOfStream => simp [writesOf, ih]

@[simp] theorem writesOf_write (bytes : List Char) (r : WriteResult) :
    writesOf [SinkEvent.write bytes r] = [bytes] := rfl

@[simp] theorem writesOf_endOfStream : writesOf [SinkEvent.endOfStream] = [] := rfl

theorem length_MemCopy (buf : List Char) (pos : Nat) (src : List Char)
    (h : pos + src.length ≤ buf.length) : (MemCopy buf pos src).length = buf.length := by
  simp [MemCopy]
  omega

theorem take_MemCopy (buf : List Char) (pos : Nat) (src : List Char)
    (h : pos ≤ buf.length) :
    (MemCopy buf pos src).take (pos + src.length) = buf.take pos ++ src := by
  unfold MemCopy
  have hl : (buf.take pos ++ src).length = pos + src.length := by
    simp [List.length_take, Nat.min_eq_left h]
  rw [← hl, List.take_left']
  rfl

/-! ## `WriteChunk`, `MaybeWriteChunk` and `Finalize` -/

theorem WriteChunk_aborted (sink : Sink) (w : OutputStreamWriter) (h : w.aborted = true) :
    WriteChunk sink w = w := by
  simp [WriteChunk, h]

theorem MaybeWriteChunk_aborted (sink : Sink) (w : OutputStreamWriter)
    (h : w.aborted = true) : MaybeWriteChunk sink w = w := by
  unfold MaybeWriteChunk
  split
  · exact WriteChunk_aborted sink w h
  · rfl

theorem Finalize_aborted (sink : Sink) (w : OutputStreamWriter) (h : w.aborted = true) :
    Finalize sink w = w := by
  simp [Finalize, h]

theorem Finalize_events (sink : Sink) (w : OutputStreamWriter) (h : w.aborted = false) :
    (Finalize sink w).events =
      w.events ++
        (if w.chunk_pos = 0 then []
         else [SinkEvent.write (w.chunk.take w.chunk_pos)
                (sink w.events (w.chunk.take w.chunk_pos))]) ++
        [SinkEvent.endOfStream] := by
  by_cases hp : w.chunk_pos = 0
  · simp [Finalize, h, hp]
  · simp [Finalize, WriteChunk, h, hp]

/-! ## The aborted state -/

theorem AddSubstringBody_aborted (sink : Sink) (w : OutputStreamWriter) (s : List Char)
    (h : w.aborted = true) :
    (AddSubstringBody sink w s).1.aborted = true ∧
      (AddSubstringBody sink w s).1.events = w.events := by
  unfold AddSubstringBody
  simp only []
  rw [MaybeWriteChunk_aborted]
  exacts [⟨h, rfl⟩, h]

theorem AddSubstringLoop_aborted (sink : Sink) (fuel : Nat) :
    ∀ (w : OutputStreamWriter) (s : List Char), w.aborted = true →
      (AddSubstringLoop sink fuel w s).writer.aborted = true ∧
        (AddSubstringLoop sink fuel w s).writer.events = w.events := by
  induction fuel with
  | zero =>
    intro w s h
    cases s with
    | nil => exact ⟨h, rfl⟩
    | cons c cs => exact ⟨h, rfl⟩
  | succ fuel ih =>
    intro w s h
    cases s with
    | nil => exact ⟨h, rfl⟩
    | cons c cs =>
      have hb := AddSubstringBody_aborted sink w (c :: cs) h
      have := ih (AddSubstringBody sink w (c :: cs)).1 (AddSubstringBody sink w (c :: cs)).2 hb.1
      simp only [AddSubstringLoop]
      exact ⟨this.1, this.2.trans hb.2⟩

theorem AddSubstring_aborted (sink : Sink) (fuel : Nat) (s : List Char) (n : Int)
    (w : OutputStreamWriter) (h : w.aborted = true) :
    (AddSubstring sink fuel s n w).writer.aborted = true ∧
      (AddSubstring sink fuel s n w).writer.events = w.events := by
  unfold AddSubstring
  split
  · exact ⟨h, rfl⟩
  · exact AddSubstringLoop_aborted sink fuel w _ h

theorem AddCharacter_aborted (sink : Sink) (c : Char) (w : OutputStreamWriter)
    (h : w.aborted = true) :
    (AddCharacter sink c w).writer.aborted = true ∧
      (AddCharacter sink c w).writer.events = w.events := by
  unfold AddCharacter
  split
  · rw [MaybeWriteChunk_aborted]
    exacts [⟨h, rfl⟩, h]
  · exact ⟨h, rfl⟩

theorem AddNumberImpl_aborted (sink : Sink) (fuel : Nat) (n : Nat) (w : OutputStreamWriter)
    (h : w.aborted = true) :
    (AddNumberImpl sink fuel n w).writer.aborted = true ∧
      (AddNumberImpl sink fuel n w).writer.events = w.events := by
  unfold AddNumberImpl
  split
  · simp only []
    rw [MaybeWriteChunk_aborted]
    exacts [⟨h, rfl⟩, h]
  · exact AddSubstring_aborted sink fuel _ _ w h

theorem WriterOp.apply_aborted (sink : Sink) (fuel : Nat) (op : WriterOp)
    (w : OutputStreamWriter) (h : w.aborted = true) :
    (op.apply sink fuel w).writer.aborted = true ∧
      (op.apply sink fuel w).writer.events = w.events := by
  cases op with
  | addCharacter c => exact AddCharacter_aborted sink c w h
  | addString s => exact AddSubstring_aborted sink fuel s _ w h
  | addSubstring s n => exact AddSubstring_aborted sink fuel s n w h
  | addNumber n => exact AddNumberImpl_aborted sink fuel _ w h

/-! ## The decimal text of a 32-bit value -/

theorem decimal_length_le (n : Nat) (h : n < 2 ^ 32) : (decimal n).length ≤ 10 := by
  unfold decimal Nat.toDigits
  exact Nat.toDigitsCore_length 10 (by decide) (n + 1) n 10 (by omega) (by decide)

theorem SNPrintF_fits (buf : List Char) (n : Nat) (hn : n < 2 ^ 32)
    (hbuf : kMaxNumberSize ≤ buf.length) :
    SNPrintF buf n = (MemCopy buf 0 (decimal n ++ ['\x00']), ((decimal n).length : Int)) := by
  have h10 := decimal_length_le n hn
  have h11 : kMaxNumberSize = 11 := rfl
  unfold SNPrintF
  rw [if_pos (by omega)]

/-! ## The invariant of the writer -/

theorem invariant_new (chunk_size : Nat) (h : 1 ≤ chunk_size) :
    (OutputStreamWriter.new chunk_size).invariant := by
  refine ⟨by simp [OutputStreamWriter.new], Nat.zero_le _, fun _ => h, ?_⟩
  intro b hb
  simp [OutputStreamWriter.new, writesOf] at hb

theorem MaybeWriteChunk_invariant (sink : Sink) (w : OutputStreamWriter)
    (hC : 1 ≤ w.chunk_size) (hwf : w.chunk.length = w.chunk_size)
    (hpos : w.chunk_pos ≤ w.chunk_size)
    (hw : ∀ b ∈ writesOf w.events, 1 ≤ b.length ∧ b.length ≤ w.chunk_size) :
    (MaybeWriteChunk sink w).invariant ∧ (MaybeWriteChunk sink w).chunk_size = w.chunk_size := by
  unfold MaybeWriteChunk
  split
  next heq =>
    unfold WriteChunk
    split
    next hab => exact ⟨⟨hwf, hpos, fun h => by simp [hab] at h, hw⟩, rfl⟩
    next hab =>
      refine ⟨⟨hwf, Nat.zero_le _, fun _ => hC, ?_⟩, rfl⟩
      intro b hb
      simp only [writesOf_append, writesOf_write, List.mem_append, List.mem_singleton] at hb
      rcases hb with hb | hb
      · exact hw b hb
      · subst hb
        simp only [List.length_take]
        omega
  next hne => exact ⟨⟨hwf, hpos, fun _ => by omega, hw⟩, rfl⟩

theorem AddSubstringBody_invariant (sink : Sink) (w : OutputStreamWriter) (s : List Char)
    (hC : 1 ≤ w.chunk_size) (h : w.invariant) :
    (AddSubstringBody sink w s).1.invariant ∧
      (AddSubstringBody sink w s).1.chunk_size = w.chunk_size := by
  obtain ⟨hwf, hpos, _, hw⟩ := h
  unfold AddSubstringBody
  simp only []
  apply MaybeWriteChunk_invariant
  · exact hC
  · simp only []
    rw [length_MemCopy]
    · exact hwf
    · simp only [List.length_take]
      omega
  · simp only []
    omega
  · exact hw

theorem AddSubstringLoop_invariant (sink : Sink) (fuel : Nat) :
    ∀ (w : OutputStreamWriter) (s : List Char), 1 ≤ w.chunk_size → w.invariant →
      (AddSubstringLoop sink fuel w s).writer.invariant ∧
        (AddSubstringLoop sink fuel w s).writer.chunk_size = w.chunk_size := by
  induction fuel with
  | zero =>
    intro w s _ h
    cases s with
    | nil => exact ⟨h, rfl⟩
    | cons c cs => exact ⟨h, rfl⟩
  | succ fuel ih =>
    intro w s hC h
    cases s with
    | nil => exact ⟨h, rfl⟩
    | cons c cs =>
      have hb := AddSubstringBody_invariant sink w (c :: cs) hC h
      have := ih (AddSubstringBody sink w (c :: cs)).1 (AddSubstringBody sink w (c :: cs)).2
        (by rw [hb.2]; exact hC) hb.1
      simp only [AddSubstringLoop]
      exact ⟨this.1, this.2.trans hb.2⟩

theorem AddSubstring_invariant (sink : Sink) (fuel : Nat) (s : List Char) (n : Int)
    (w : OutputStreamWriter) (hC : 1 ≤ w.chunk_size) (h : w.invariant) :
    (AddSubstring sink fuel s n w).writer.invariant ∧
      (AddSubstring sink fuel s n w).writer.chunk_size = w.chunk_size := by
  unfold AddSubstring
  split
  · exact ⟨h, rfl⟩
  · exact AddSubstringLoop_invariant sink fuel w _ hC h

theorem AddCharacter_invariant (sink : Sink) (c : Char) (w : OutputStreamWriter)
    (hC : 1 ≤ w.chunk_size) (h : w.invariant) :
    (AddCharacter sink c w).writer.invariant ∧
      (AddCharacter sink c w).writer.chunk_size = w.chunk_size := by
  obtain ⟨hwf, hpos, hna, hw⟩ := h
  unfold AddCharacter
  split
  next hlt =>
    simp only [Outcome.writer_done]
    apply MaybeWriteChunk_invariant
    · exact hC
    · simp only [List.length_set]
      exact hwf
    · simp only []
      omega
    · exact hw
  next hge => exact ⟨⟨hwf, hpos, hna, hw⟩, rfl⟩

theorem AddNumberImpl_invariant (sink : Sink) (fuel : Nat) (n : Nat) (hn : n < 2 ^ 32)
    (w : OutputStreamWriter) (hC : 1 ≤ w.chunk_size) (h : w.invariant) :
    (AddNumberImpl sink fuel n w).writer.invariant ∧
      (AddNumberImpl sink fuel n w).writer.chunk_size = w.chunk_size := by
  unfold AddNumberImpl
  split
  next hroom =>
    obtain ⟨hwf, hpos, hna, hw⟩ := h
    have h10 := decimal_length_le n hn
    have h11 : kMaxNumberSize = 11 := rfl
    have hsub : ((w.chunk.take w.chunk_size).drop w.chunk_pos).length =
        w.chunk_size - w.chunk_pos := by
      simp only [List.length_drop, List.length_take]
      omega
    simp only [Outcome.writer_done]
    rw [SNPrintF_fits _ n hn (by omega)]
    apply MaybeWriteChunk_invariant
    · exact hC
    · simp only [List.length_append, List.length_take, List.length_drop]
      rw [length_MemCopy]
      · simp only [List.length_drop, List.length_take]
        omega
      · simp only [List.length_append, List.length_singleton, hsub]
        omega
    · simp only []
      omega
    · exact hw
  next hroom => exact AddSubstring_invariant sink fuel _ _ w hC h

theorem WriterOp.apply_invariant (sink : Sink) (fuel : Nat) (op : WriterOp)
    (w : OutputStreamWriter) (hC : 1 ≤ w.chunk_size) (h : w.invariant) :
    (op.apply sink fuel w).writer.invariant ∧
      (op.apply sink fuel w).writer.chunk_size = w.chunk_size := by
  cases op with
  | addCharacter c => exact AddCharacter_invariant sink c w hC h
  | addString s => exact AddSubstring_invariant sink fuel s _ w hC h
  | addSubstring s n => exact AddSubstring_invariant sink fuel s n w hC h
  | addNumber n =>
    exact AddNumberImpl_invariant sink fuel _ (Nat.mod_lt _ (by decide)) w hC h

theorem runOps_invariant (sink : Sink) (fuel : Nat) (ops : List WriterOp) :
    ∀ (w : OutputStreamWriter), 1 ≤ w.chunk_size → w.invariant →
      (runOps sink fuel ops w).writer.invariant ∧
        (runOps sink fuel ops w).writer.chunk_size = w.chunk_size := by
  induction ops with
  | nil => intro w _ h; exact ⟨h, rfl⟩
  | cons op ops ih =>
    intro w hC h
    have h1 := WriterOp.apply_invariant sink fuel op w hC h
    simp only [runOps]
    cases hop : op.apply sink fuel w with
    | done w1 =>
      rw [hop] at h1
      simp only [Outcome.writer_done] at h1
      simp only [Outcome.bind_done]
      have h2 := ih w1 (by rw [h1.2]; exact hC) h1.1
      exact ⟨h2.1, h2.2.trans h1.2⟩
    | outOfFuel w1 => rw [hop] at h1; exact h1
    | outOfBounds w1 => rw [hop] at h1; exact h1

theorem Finalize_invariant_writes (sink : Sink) (w : OutputStreamWriter) (h : w.invariant) :
    (Finalize sink w).chunk_size = w.chunk_size ∧
    ∀ b ∈ writesOf (Finalize sink w).events, 1 ≤ b.length ∧ b.length ≤ w.chunk_size := by
  obtain ⟨hwf, hpos, hna, hw⟩ := h
  cases hab : w.aborted with
  | true => rw [Finalize_aborted sink w hab]; exact ⟨rfl, hw⟩
  | false =>
    refine ⟨?_, ?_⟩
    · by_cases hp : w.chunk_pos = 0
      · simp [Finalize, hab, hp]
      · simp [Finalize, WriteChunk, hab, hp]
    · intro b hb
      rw [Finalize_events sink w hab] at hb
      simp only [writesOf_append, writesOf_endOfStream, List.append_nil, List.mem_append] at hb
      rcases hb with hb | hb
      · exact hw b hb
      · split at hb
        · simp [writesOf] at hb
        · simp only [writesOf_write, List.mem_singleton] at hb
          subst hb
          simp only [List.length_take]
          have := hna hab
          omega

/-! ## The copy loop over a sink that always continues -/

theorem stream_eq (w : OutputStreamWriter) :
    w.stream = (writesOf w.events).flatten ++ w.chunk.take w.chunk_pos := rfl

/-- One iteration of the copy loop, from a state that has not aborted, whatever the sink
answers: the bytes taken from the input are appended to the stream, and a write, when
one is made, carries a full chunk. -/
theorem AddSubstringBody_step (sink : Sink) (w : OutputStreamWriter) (s : List Char)
    (hwf : w.chunk.length = w.chunk_size) (hab : w.aborted = false)
    (hpos : w.chunk_pos < w.chunk_size) :
    (AddSubstringBody sink w s).2 = s.drop (min (w.chunk_size - w.chunk_pos) s.length) ∧
    (AddSubstringBody sink w s).1.chunk.length = w.chunk_size ∧
    (AddSubstringBody sink w s).1.chunk_size = w.chunk_size ∧
    (AddSubstringBody sink w s).1.stream =
      w.stream ++ s.take (min (w.chunk_size - w.chunk_pos) s.length) ∧
    ((w.chunk_pos + s.length < w.chunk_size ∧
        (AddSubstringBody sink w s).1.events = w.events ∧
        (AddSubstringBody sink w s).1.aborted = false ∧
        (AddSubstringBody sink w s).1.chunk_pos = w.chunk_pos + s.length) ∨
     (w.chunk_size ≤ w.chunk_pos + s.length ∧
        ∃ b, b.length = w.chunk_size ∧
          (AddSubstringBody sink w s).1.events =
            w.events ++ [SinkEvent.write b (sink w.events b)] ∧
          (AddSubstringBody sink w s).1.aborted =
            decide (sink w.events b = WriteResult.kAbort) ∧
          (AddSubstringBody sink w s).1.chunk_pos = 0)) := by
  have hk1 : (s.take (min (w.chunk_size - w.chunk_pos) s.length)).length =
      min (w.chunk_size - w.chunk_pos) s.length := by
    simp only [List.length_take]; omega
  have htake := take_MemCopy w.chunk w.chunk_pos
    (s.take (min (w.chunk_size - w.chunk_pos) s.length)) (by omega)
  have hlen := length_MemCopy w.chunk w.chunk_pos
    (s.take (min (w.chunk_size - w.chunk_pos) s.length)) (by omega)
  rw [hk1] at htake
  by_cases hfull : w.chunk_pos + min (w.chunk_size - w.chunk_pos) s.length = w.chunk_size
  · refine ⟨rfl, ?_, ?_, ?_, Or.inr ⟨by omega,
      (MemCopy w.chunk w.chunk_pos
        (s.take (min (w.chunk_size - w.chunk_pos) s.length))).take w.chunk_size,
      ?_, ?_, ?_, ?_⟩⟩
    · simp [AddSubstringBody, MaybeWriteChunk, WriteChunk, hfull, hab, hlen, hwf]
    · simp [AddSubstringBody, MaybeWriteChunk, WriteChunk, hfull, hab]
    · simp [AddSubstringBody, MaybeWriteChunk, WriteChunk, hfull, hab, stream_eq,
        writesOf_append]
      rw [hfull] at htake
      exact htake
    · simp [hlen, hwf]
    · simp [AddSubstringBody, MaybeWriteChunk, WriteChunk, hfull, hab]
    · simp [AddSubstringBody, MaybeWriteChunk, WriteChunk, hfull, hab]
    · simp [AddSubstringBody, MaybeWriteChunk, WriteChunk, hfull, hab]
  · have hmin : min (w.chunk_size - w.chunk_pos) s.length = s.length := by omega
    refine ⟨rfl, ?_, ?_, ?_, Or.inl ⟨by omega, ?_, ?_, ?_⟩⟩
    · simp [AddSubstringBody, MaybeWriteChunk, hfull, hlen, hwf]
    · simp [AddSubstringBody, MaybeWriteChunk, hfull]
    · simp [AddSubstringBody, MaybeWriteChunk, hfull, stream_eq]
      rw [htake]
    · simp [AddSubstringBody, MaybeWriteChunk, hfull]
    · simp [AddSubstringBody, MaybeWriteChunk, hfull, hab]
    · rw [hmin] at hfull
      simp [AddSubstringBody, MaybeWriteChunk, hfull, hmin]

/-- The copy loop over a sink that always continues, from a state that has not aborted:
with one unit of fuel per input byte it returns; the input is appended to the stream;
the writes it makes carry full chunks. -/
theorem AddSubstringLoop_continuing (sink : Sink)
    (hs : ∀ log b, sink log b = WriteResult.kContinue) (fuel : Nat) :
    ∀ (w : OutputStreamWriter) (s : List Char),
      w.chunk.length = w.chunk_size → w.aborted = false → w.chunk_pos < w.chunk_size →
      s.length ≤ fuel →
      ∃ w', AddSubstringLoop sink fuel w s = Outcome.done w' ∧
        w'.chunk.length = w.chunk_size ∧ w'.chunk_size = w.chunk_size ∧
        w'.aborted = false ∧ w'.chunk_pos < w.chunk_size ∧
        w'.stream = w.stream ++ s ∧
        ∃ chunks : List (List Char),
          w'.events = w.events ++ chunks.map (fun b => SinkEvent.write b WriteResult.kContinue) ∧
          (∀ b ∈ chunks, b.length = w.chunk_size) ∧
          chunks.length * w.chunk_size + w'.chunk_pos = w.chunk_pos + s.length := by
  induction fuel with
  | zero =>
    intro w s hwf hab hpos hfuel
    cases s with
    | nil => exact ⟨w, rfl, hwf, rfl, hab, hpos, by simp, [], by simp, by simp, by simp⟩
    | cons c cs => simp at hfuel
  | succ fuel ih =>
    intro w s hwf hab hpos hfuel
    cases s with
    | nil => exact ⟨w, rfl, hwf, rfl, hab, hpos, by simp, [], by simp, by simp, by simp⟩
    | cons c cs =>
      obtain ⟨h2, hlen, hsize, hstream, hcase⟩ :=
        AddSubstringBody_step sink w (c :: cs) hwf hab hpos
      have hk : 1 ≤ min (w.chunk_size - w.chunk_pos) (c :: cs).length := by
        simp only [List.length_cons]; omega
      have hdrop : (AddSubstringBody sink w (c :: cs)).2.length ≤ fuel := by
        rw [h2, List.length_drop]
        simp only [List.length_cons] at hfuel hk ⊢
        omega
      simp only [AddSubstringLoop]
      rcases hcase with ⟨hlt, hev, hab1, hpos1⟩ | ⟨hge, b, hb, hev, hab1, hpos1⟩
      · obtain ⟨w', hrun, hl', hs', ha', hp', hst', chunks, hev', hall, hcount⟩ :=
          ih (AddSubstringBody sink w (c :: cs)).1 (AddSubstringBody sink w (c :: cs)).2
            (by rw [hlen, hsize]) hab1 (by rw [hpos1, hsize]; exact hlt) hdrop
        refine ⟨w', hrun, by rw [hl', hsize], by rw [hs', hsize], ha', by rw [← hsize]; exact hp',
          ?_, chunks, by rw [hev', hev], by rw [← hsize]; exact hall, ?_⟩
        · rw [hst', hstream, h2, List.append_assoc, List.take_append_drop]
        · rw [hsize, hpos1, h2, List.length_drop] at hcount
          simp only [List.length_cons] at hcount hk hfuel hlt ⊢
          omega
      · rw [hs] at hev hab1
        obtain ⟨w', hrun, hl', hs', ha', hp', hst', chunks, hev', hall, hcount⟩ :=
          ih (AddSubstringBody sink w (c :: cs)).1 (AddSubstringBody sink w (c :: cs)).2
            (by rw [hlen, hsize]) (by simpa using hab1) (by rw [hpos1, hsize]; omega) hdrop
        refine ⟨w', hrun, by rw [hl', hsize], by rw [hs', hsize], ha', by rw [← hsize]; exact hp',
          ?_, b :: chunks, by rw [hev', hev]; simp, ?_, ?_⟩
        · rw [hst', hstream, h2, List.append_assoc, List.take_append_drop]
        · intro x hx
          rcases List.mem_cons.mp hx with hx | hx
          · rw [hx]; exact hb
          · rw [← hsize]; exact hall x hx
        · rw [hsize, hpos1, h2, List.length_drop] at hcount
          simp only [List.length_cons, Nat.succ_mul] at hcount hk hfuel hge ⊢
          omega

theorem writesOf_map_write (chunks : List (List Char)) (r : WriteResult) :
    writesOf (chunks.map (fun b => SinkEvent.write b r)) = chunks := by
  induction chunks with
  | nil => rfl
  | cons b bs ih => simp [writesOf, ih]

theorem StrLength_of_no_nul (s : List Char) (h : ∀ c ∈ s, c ≠ '\x00') :
    StrLength s = s.length := by
  unfold StrLength
  congr 1
  rw [List.takeWhile_eq_self_iff]
  intro c hc
  simpa using h c hc

/-- On a string without NUL, `AddString` runs the copy loop on the whole string. -/
theorem AddString_eq_loop (sink : Sink) (fuel : Nat) (s : List Char)
    (h : ∀ c ∈ s, c ≠ '\x00') (w : OutputStreamWriter) :
    AddString sink fuel s w = AddSubstringLoop sink fuel w s := by
  unfold AddString AddSubstring
  rw [StrLength_of_no_nul s h]
  cases s with
  | nil => cases fuel <;> simp [AddSubstringLoop]
  | cons c cs =>
    rw [if_neg (by simp only [List.length_cons]; omega)]
    simp

/-- Claim C2, at the input where the code departs from it: chunk size 2, one `AddCharacter`,
then `Finalize`, over a sink that answers `kAbort` to its first write. The write that
aborts is the final flush of `Finalize`, and `EndOfStream` is still called after it. -/
theorem C2_endOfStream_after_aborting_final_flush :
    writerLife (abortAt 1) 0 2 [WriterOp.addCharacter 'a'] =
      Outcome.done
        { chunk_size := 2
          chunk := ['a', '\x00']
          chunk_pos := 0
          aborted := true
          events := [SinkEvent.write ['a'] WriteResult.kAbort, SinkEvent.endOfStream] } := by
  decide

/-- Claim C3 as stated fails: in the aborted state `abortedWriter` (position 0),
`AddCharacter` returns with the position moved to 1. -/
theorem C3_counterexample_position_moves :
    abortedWriter.aborted = true ∧ abortedWriter.chunk_pos = 0 ∧
      ∃ w, AddCharacter abortingSink 'c' abortedWriter = Outcome.done w ∧ w.chunk_pos = 1 :=
  ⟨by decide, by decide, _, rfl, by decide⟩

/-- Claim C3, amended: in every state in which the aborted flag is set, each append operation
(`AddCharacter`, `AddString`, `AddSubstring`, `AddNumber`) makes no sink call and leaves
the flag set, under every sink behaviour and whatever state the operation reaches. -/
theorem C3_aborted_append_makes_no_sink_call (sink : Sink) (fuel : Nat) (op : WriterOp)
    (w : OutputStreamWriter) (h : w.aborted = true) :
    (op.apply sink fuel w).writer.events = w.events ∧
      (op.apply sink fuel w).writer.aborted = true :=
  ⟨(WriterOp.apply_aborted sink fuel op w h).2, (WriterOp.apply_aborted sink fuel op w h).1⟩

/-- The amended claim C3 at the aborted state `abortedWriter` and `AddCharacter`. -/
theorem C3_aborted_append_makes_no_sink_call_witness :
    abortedWriter.aborted = true ∧
      (((WriterOp.addCharacter 'c').apply abortingSink 1 abortedWriter).writer.events =
          abortedWriter.events ∧
        ((WriterOp.addCharacter 'c').apply abortingSink 1 abortedWriter).writer.aborted = true) :=
  ⟨by decide,
    C3_aborted_append_makes_no_sink_call abortingSink 1 (WriterOp.addCharacter 'c')
      abortedWriter (by decide)⟩

/-- Claim C5: `Finalize` on a writer whose aborted flag is set issues no sink call, whatever
the buffer holds: the log of sink calls is unchanged (and so is the whole writer). -/
theorem C5_Finalize_aborted_no_sink_call (sink : Sink) (w : OutputStreamWriter)
    (h : w.aborted = true) :
    (Finalize sink w).events = w.events ∧ Finalize sink w = w :=
  ⟨by rw [Finalize_aborted sink w h], Finalize_aborted sink w h⟩

/-- Claim C5 at the aborted state `abortedWriter`, after one more buffered byte. -/
theorem C5_Finalize_aborted_no_sink_call_witness :
    (AddCharacter continuingSink 'c' abortedWriter).writer.aborted = true ∧
      ((Finalize continuingSink (AddCharacter continuingSink 'c' abortedWriter).writer).events =
          (AddCharacter continuingSink 'c' abortedWriter).writer.events ∧
        Finalize continuingSink (AddCharacter continuingSink 'c' abortedWriter).writer =
          (AddCharacter continuingSink 'c' abortedWriter).writer) :=
  ⟨by decide,
    C5_Finalize_aborted_no_sink_call continuingSink
      (AddCharacter continuingSink 'c' abortedWriter).writer (by decide)⟩

/-- Claim C6: `Finalize` on a writer that has not aborted and holds `p` buffered bytes
(`p` below the chunk size) makes no write call when `p = 0`, exactly one write call
carrying exactly those `p` bytes when `p > 0`, and then calls end-of-stream once, as the
last sink event; this for every sink behaviour. -/
theorem C6_Finalize_flushes_then_ends (sink : Sink) (w : OutputStreamWriter)
    (hwf : w.wellFormed) (hab : w.aborted = false) (hpos : w.chunk_pos < w.chunk_size) :
    (Finalize sink w).events =
      w.events ++
        (if w.chunk_pos = 0 then []
         else [SinkEvent.write (w.chunk.take w.chunk_pos)
                (sink w.events (w.chunk.take w.chunk_pos))]) ++
        [SinkEvent.endOfStream] ∧
    (w.chunk.take w.chunk_pos).length = w.chunk_pos := by
  have hwf' : w.chunk.length = w.chunk_size := hwf
  refine ⟨Finalize_events sink w hab, ?_⟩
  rw [List.length_take]
  omega

/-- Claim C6 at a writer of chunk size 3 holding the two bytes `ab`, over a sink that
answers `kAbort`: one write of `ab`, then end-of-stream. -/
theorem C6_Finalize_flushes_then_ends_witness :
    (Finalize abortingSink ⟨3, ['a', 'b', 'x'], 2, false, []⟩).events =
      [SinkEvent.write ['a', 'b'] WriteResult.kAbort, SinkEvent.endOfStream] ∧
    (['a', 'b', 'x'].take 2).length = 2 :=
  C6_Finalize_flushes_then_ends abortingSink ⟨3, ['a', 'b', 'x'], 2, false, []⟩
    (by decide) (by decide) (by decide)

/-- Claim C7: for every chunk size `C ≥ 1`, every sequence of append operations followed by
`Finalize` and every sink behaviour, every write call the sink receives carries between
1 and `C` bytes; this holds of the log reached whether or not the run returns. -/
theorem C7_write_length_between_1_and_chunk_size (sink : Sink) (fuel : Nat) (C : Nat)
    (hC : 1 ≤ C) (ops : List WriterOp) :
    ∀ b ∈ writesOf (writerLife sink fuel C ops).writer.events, 1 ≤ b.length ∧ b.length ≤ C := by
  have h := runOps_invariant sink fuel ops (OutputStreamWriter.new C) hC (invariant_new C hC)
  have hsize : (OutputStreamWriter.new C).chunk_size = C := rfl
  rw [hsize] at h
  unfold writerLife
  cases hrun : runOps sink fuel ops (OutputStreamWriter.new C) with
  | done w =>
    rw [hrun] at h
    simp only [Outcome.writer_done] at h
    simp only [Outcome.bind_done, Outcome.writer_done]
    have := (Finalize_invariant_writes sink w h.1).2
    rw [h.2] at this
    exact this
  | outOfFuel w =>
    rw [hrun] at h
    simp only [Outcome.writer_outOfFuel] at h
    simp only [Outcome.bind_outOfFuel, Outcome.writer_outOfFuel]
    have := h.1.2.2.2
    rw [h.2] at this
    exact this
  | outOfBounds w =>
    rw [hrun] at h
    simp only [Outcome.writer_outOfBounds] at h
    simp only [Outcome.bind_outOfBounds, Outcome.writer_outOfBounds]
    have := h.1.2.2.2
    rw [h.2] at this
    exact this

/-- Claim C7 at chunk size 3 with a number of ten digits, over a sink that aborts on its
second write: all the writes made carry between 1 and 3 bytes. -/
theorem C7_write_length_between_1_and_chunk_size_witness :
    (writesOf (writerLife (abortAt 2) 20 3
        [WriterOp.addNumber 4294967295, WriterOp.addCharacter 'x']).writer.events).all
      (fun b => decide (1 ≤ b.length ∧ b.length ≤ 3)) = true :=
  List.all_eq_true.mpr fun b hb =>
    decide_eq_true
      (C7_write_length_between_1_and_chunk_size (abortAt 2) 20 3 (by decide)
        [WriterOp.addNumber 4294967295, WriterOp.addCharacter 'x'] b hb)

/-! ## Termination of the copy loop -/

/-- More fuel does not change the result of a loop that returns. -/
theorem AddSubstringLoop_fuel_mono (sink : Sink) (fuel : Nat) :
    ∀ (w : OutputStreamWriter) (s : List Char) (w' : OutputStreamWriter),
      AddSubstringLoop sink fuel w s = Outcome.done w' →
      ∀ fuel', fuel ≤ fuel' → AddSubstringLoop sink fuel' w s = Outcome.done w' := by
  induction fuel with
  | zero =>
    intro w s w' h fuel' _
    cases s with
    | nil => cases fuel' <;> exact h
    | cons c cs => simp [AddSubstringLoop] at h
  | succ fuel ih =>
    intro w s w' h fuel' hle
    cases s with
    | nil => cases fuel' <;> exact h
    | cons c cs =>
      cases fuel' with
      | zero => omega
      | succ fuel' =>
        simp only [AddSubstringLoop] at h ⊢
        exact ih _ _ _ h fuel' (by omega)

theorem AddString_fuel_mono (sink : Sink) (fuel : Nat) (s : List Char)
    (w w' : OutputStreamWriter) (h : AddString sink fuel s w = Outcome.done w')
    (fuel' : Nat) (hle : fuel ≤ fuel') : AddString sink fuel' s w = Outcome.done w' := by
  unfold AddString AddSubstring at h ⊢
  split
  next hn => rw [if_pos hn] at h; exact h
  next hn =>
    rw [if_neg hn] at h
    exact AddSubstringLoop_fuel_mono sink fuel w _ w' h fuel' hle

/-- In an aborted state whose buffer is full, an iteration of the copy loop changes
nothing: it copies no byte and consumes no input. -/
theorem AddSubstringBody_stuck (sink : Sink) (w : OutputStreamWriter) (s : List Char)
    (hab : w.aborted = true) (hfull : w.chunk_pos = w.chunk_size) :
    AddSubstringBody sink w s = (w, s) := by
  unfold AddSubstringBody
  simp only [hfull, Nat.sub_self, Nat.zero_min, List.take_zero, List.drop_zero, Nat.add_zero]
  rw [MaybeWriteChunk_aborted]
  · cases w
    simp only [] at hfull
    simp [MemCopy, hfull]
  · exact hab

/-- In an aborted state whose buffer is full, the copy loop on a non-empty input never
returns: whatever the fuel, it is still running, in the same state. -/
theorem AddSubstringLoop_stuck (sink : Sink) (w : OutputStreamWriter)
    (hab : w.aborted = true) (hfull : w.chunk_pos = w.chunk_size) (fuel : Nat) :
    ∀ (s : List Char), s ≠ [] → AddSubstringLoop sink fuel w s = Outcome.outOfFuel w := by
  induction fuel with
  | zero =>
    intro s hs
    cases s with
    | nil => exact absurd rfl hs
    | cons c cs => rfl
  | succ fuel ih =>
    intro s hs
    cases s with
    | nil => exact absurd rfl hs
    | cons c cs =>
      simp only [AddSubstringLoop]
      rw [AddSubstringBody_stuck sink w (c :: cs) hab hfull]
      exact ih (c :: cs) hs

/-- Claim C4, at the input where the code departs from it: chunk size 1, no live sample, a
sink that answers `kAbort` to the first write. Whatever the fuel, `GetHeapSample` does
not return; from fuel 2 on it is the copy loop of the second `AddString` that is still
running, in an aborted state with a full buffer, after one sink call. -/
theorem C4_GetHeapSample_stalls_after_abort (fuel : Nat) :
    (GetHeapSample (abortAt 1) fuel 1 []).returned = false ∧
    GetHeapSample (abortAt 1) (fuel + 2) 1 [] =
      Outcome.outOfFuel ⟨1, ['\n'], 1, true, [SinkEvent.write ['['] WriteResult.kAbort]⟩ := by
  have key : ∀ f : Nat, GetHeapSample (abortAt 1) (f + 2) 1 [] =
      Outcome.outOfFuel ⟨1, ['\n'], 1, true, [SinkEvent.write ['['] WriteResult.kAbort]⟩ := by
    intro f
    have h1 : AddString (abortAt 1) (f + 2) "[\n".toList (OutputStreamWriter.new 1) =
        Outcome.done ⟨1, ['\n'], 1, true, [SinkEvent.write ['['] WriteResult.kAbort]⟩ :=
      AddString_fuel_mono (abortAt 1) 2 _ _ _ (by decide) (f + 2) (by omega)
    have h2 : AddString (abortAt 1) (f + 2) "]\n".toList
        ⟨1, ['\n'], 1, true, [SinkEvent.write ['['] WriteResult.kAbort]⟩ =
        Outcome.outOfFuel ⟨1, ['\n'], 1, true, [SinkEvent.write ['['] WriteResult.kAbort]⟩ := by
      rw [AddString_eq_loop _ _ _ (by decide)]
      exact AddSubstringLoop_stuck _ _ rfl rfl _ _ (by decide)
    unfold GetHeapSample
    rw [h1]
    simp only [Outcome.bind_done, GetHeapSample.samples]
    rw [h2]
    rfl
  refine ⟨?_, key fuel⟩
  rcases fuel with _ | _ | f
  · decide
  · decide
  · rw [key f]
    rfl

/-! ## `AddNumber` -/

theorem digitChar_ne_nul (k : Nat) (hk : k < 10) : Nat.digitChar k ≠ '\x00' := by
  interval_cases k <;> decide

theorem toDigitsCore_no_nul (fuel : Nat) :
    ∀ (n : Nat) (acc : List Char), (∀ c ∈ acc, c ≠ '\x00') →
      ∀ c ∈ Nat.toDigitsCore 10 fuel n acc, c ≠ '\x00' := by
  induction fuel with
  | zero => intro n acc hacc c hc; exact hacc c (by simpa [Nat.toDigitsCore] using hc)
  | succ fuel ih =>
    intro n acc hacc c hc
    have hacc' : ∀ c ∈ Nat.digitChar (n % 10) :: acc, c ≠ '\x00' := by
      intro c hc
      rcases List.mem_cons.mp hc with h | h
      · rw [h]; exact digitChar_ne_nul _ (Nat.mod_lt _ (by decide))
      · exact hacc c h
    simp only [Nat.toDigitsCore] at hc
    split at hc
    · exact hacc' c hc
    · exact ih _ _ hacc' c hc

theorem decimal_no_nul (n : Nat) : ∀ c ∈ decimal n, c ≠ '\x00' := by
  unfold decimal Nat.toDigits
  exact toDigitsCore_no_nul _ _ _ (by simp)

theorem StrLength_nul_terminated (d rest : List Char) (hd : ∀ c ∈ d, c ≠ '\x00') :
    StrLength (d ++ '\x00' :: rest) = d.length := by
  unfold StrLength
  congr 1
  induction d with
  | nil => simp [List.takeWhile]
  | cons c cs ih =>
    have hc : c ≠ '\x00' := hd c (List.mem_cons_self _ _)
    have := ih (fun x hx => hd x (List.mem_cons_of_mem _ hx))
    rw [List.cons_append, List.takeWhile_cons_of_pos (by simpa using hc), this]

/-- The function `AddString` reads a C string up to its terminating NUL only. -/
theorem AddString_nul_terminated (sink : Sink) (fuel : Nat) (d rest : List Char)
    (hd : ∀ c ∈ d, c ≠ '\x00') (w : OutputStreamWriter) :
    AddString sink fuel (d ++ '\x00' :: rest) w = AddString sink fuel d w := by
  unfold AddString AddSubstring
  rw [StrLength_nul_terminated d rest hd, StrLength_of_no_nul d hd]
  simp

/-- The scratch-buffer path of `AddNumberImpl` is `AddString` of the decimal text. -/
theorem AddNumberImpl_scratch (sink : Sink) (fuel : Nat) (n : Nat) (hn : n < 2 ^ 32)
    (w : OutputStreamWriter) (hroom : ¬ w.chunk_size - w.chunk_pos ≥ kMaxNumberSize) :
    AddNumberImpl sink fuel n w = AddString sink fuel (decimal n) w := by
  unfold AddNumberImpl
  rw [if_neg hroom]
  simp only []
  rw [SNPrintF_fits _ n hn (by simp)]
  simp only [MemCopy, List.take_zero, List.nil_append, List.append_assoc, List.singleton_append]
  exact AddString_nul_terminated sink fuel _ _ (decimal_no_nul n) w

/-- The in-place path of `AddNumberImpl`: it returns at once, makes no sink call, and the
decimal text is appended to the buffered bytes. -/
theorem AddNumberImpl_in_place (sink : Sink) (fuel : Nat) (n : Nat) (hn : n < 2 ^ 32)
    (w : OutputStreamWriter) (hwf : w.chunk.length = w.chunk_size)
    (hroom : w.chunk_size - w.chunk_pos ≥ kMaxNumberSize) :
    ∃ w', AddNumberImpl sink fuel n w = Outcome.done w' ∧ w'.events = w.events ∧
      w'.aborted = w.aborted ∧ w'.chunk_pos = w.chunk_pos + (decimal n).length ∧
      w'.chunk.take w'.chunk_pos = w.chunk.take w.chunk_pos ++ decimal n := by
  have h10 := decimal_length_le n hn
  have h11 : kMaxNumberSize = 11 := rfl
  have hsub : ((w.chunk.take w.chunk_size).drop w.chunk_pos).length =
      w.chunk_size - w.chunk_pos := by
    simp only [List.length_drop, List.length_take]
    omega
  have hpos : ((w.chunk_pos : Int) + ((decimal n).length : Int)).toNat =
      w.chunk_pos + (decimal n).length := by omega
  unfold AddNumberImpl
  rw [if_pos hroom]
  simp only []
  rw [SNPrintF_fits _ n hn (by omega)]
  simp only [hpos]
  unfold MaybeWriteChunk
  rw [if_neg (by simp only []; omega)]
  refine ⟨_, rfl, rfl, rfl, rfl, ?_⟩
  simp only [MemCopy, List.take_zero, List.nil_append, List.append_assoc]
  have hl : (w.chunk.take w.chunk_pos).length = w.chunk_pos := by
    rw [List.length_take]; omega
  rw [List.take_append_eq_append_take, hl, List.take_of_length_le (by omega)]
  congr 1
  rw [Nat.add_sub_cancel_left, List.take_left']
  rfl

/-- Claim C8 (path equivalence of `AddNumber`): for every 32-bit unsigned `n`, every chunk
size and every non-aborted writer state (the buffer position below the chunk size), over
a sink that always continues, `AddNumber(n)` and `AddString` of the decimal text of `n` both
return (ten units of fuel suffice) and have the same effect on the output byte stream
(the chunks written so far followed by the buffered bytes): the text is appended to
it; they make the same sink calls and reach the same buffer position. This holds on
the in-place path and on the scratch-buffer path. -/
theorem C8_AddNumber_same_stream_as_AddString (n : Nat) (hn : n < 2 ^ 32)
    (w : OutputStreamWriter) (hwf : w.wellFormed) (hab : w.aborted = false)
    (hpos : w.chunk_pos < w.chunk_size) (fuel : Nat) (hfuel : 10 ≤ fuel) :
    ∃ w1 w2, AddNumber continuingSink fuel n w = Outcome.done w1 ∧
      AddString continuingSink fuel (decimal n) w = Outcome.done w2 ∧
      w1.stream = w2.stream ∧ w2.stream = w.stream ++ decimal n ∧
      w1.events = w2.events ∧ w1.chunk_pos = w2.chunk_pos := by
  have h10 := decimal_length_le n hn
  obtain ⟨w2, hrun, _, _, _, _, hst2, chunks, hev2, _, hcount⟩ :=
    AddSubstringLoop_continuing continuingSink (fun _ _ => rfl) fuel w (decimal n)
      hwf hab hpos (by omega)
  have h2 : AddString continuingSink fuel (decimal n) w = Outcome.done w2 := by
    rw [AddString_eq_loop _ _ _ (decimal_no_nul n)]
    exact hrun
  have hnum : AddNumber continuingSink fuel n w = AddNumberImpl continuingSink fuel n w := by
    unfold AddNumber
    rw [Nat.mod_eq_of_lt hn]
  by_cases hroom : w.chunk_size - w.chunk_pos ≥ kMaxNumberSize
  · obtain ⟨w1, h1, hev1, _, hpos1, htake1⟩ :=
      AddNumberImpl_in_place continuingSink fuel n hn w hwf hroom
    have h11 : kMaxNumberSize = 11 := rfl
    have hnil : chunks = [] := by
      cases chunks with
      | nil => rfl
      | cons b bs =>
        simp only [List.length_cons, Nat.succ_mul] at hcount
        omega
    subst hnil
    simp only [List.map_nil, List.append_nil, List.length_nil, Nat.zero_mul,
      Nat.zero_add] at hev2 hcount
    refine ⟨w1, w2, by rw [hnum, h1], h2, ?_, hst2, by rw [hev1, hev2], by rw [hpos1, hcount]⟩
    rw [hst2, stream_eq, stream_eq, hev1, htake1, List.append_assoc]
  · refine ⟨w2, w2, ?_, h2, rfl, hst2, rfl, rfl⟩
    rw [hnum, AddNumberImpl_scratch _ _ n hn w hroom]
    exact h2

/-- Claim C8 at the value `4294967295` and a fresh writer of chunk size 3, where the
scratch-buffer path is taken. -/
theorem C8_AddNumber_same_stream_as_AddString_witness :
    ∃ w1 w2, AddNumber continuingSink 10 4294967295 (OutputStreamWriter.new 3) =
        Outcome.done w1 ∧
      AddString continuingSink 10 (decimal 4294967295) (OutputStreamWriter.new 3) =
        Outcome.done w2 ∧
      w1.stream = w2.stream ∧
      w2.stream = (OutputStreamWriter.new 3).stream ++ decimal 4294967295 ∧
      w1.events = w2.events ∧ w1.chunk_pos = w2.chunk_pos :=
  C8_AddNumber_same_stream_as_AddString 4294967295 (by decide) (OutputStreamWriter.new 3)
    (by decide) rfl (by decide) 10 (by decide)

/-! ## The sampling interval -/

/-- Claim C9: for every rate and every drawn value `u` (so for every rate `> 0` and every `u`
in the open interval (0, 1)), `GetNextSampleInterval` returns a value greater than or
equal to `kPointerSize`; this whatever `std::log`, the multiplication of doubles and the
conversion of the rate return, and whatever an out-of-range conversion to `intptr_t`
yields. -/
theorem C9_interval_at_least_pointer_size {α : Type} [LinearOrderedField α] [FloorRing α]
    (kPointerSize : Nat) (undefinedCast : Int) (log : α → α) (mul : α → α → α)
    (toDouble : Nat → α) (u : α) (rate : Nat) :
    (kPointerSize : Int) ≤
      GetNextSampleInterval kPointerSize undefinedCast log mul toDouble u rate := by
  unfold GetNextSampleInterval
  exact le_max_left _ _

theorem neg_log_half_bounds :
    (0.6931471803 : ℝ) < -Real.log (1 / 2) ∧ -Real.log (1 / 2) < (0.6931471808 : ℝ) := by
  have h : Real.log (1 / 2) = -Real.log 2 := by rw [one_div, Real.log_inv]
  rw [h, neg_neg]
  exact ⟨Real.log_two_gt_d9, Real.log_two_lt_d9⟩

/-! ## Capturing a sample -/

theorem captureLoop_eq (names : StringsStorage) (frames : List SharedFunctionInfo) :
    ∀ (k : Nat) (acc : List FunctionInfo),
      Sample.captureLoop names k frames acc =
        acc ++ (frames.take (10 - k)).map (fun shared => FunctionInfo.new shared names) := by
  induction frames with
  | nil => intro k acc; simp [Sample.captureLoop]
  | cons shared rest ih =>
    intro k acc
    unfold Sample.captureLoop
    split
    next hlt =>
      rw [ih]
      have h : 10 - k = (10 - (k + 1)) + 1 := by omega
      rw [h, List.take_succ_cons]
      simp
    next hge =>
      have h : 10 - k = 0 := by omega
      simp [h]

theorem lookup_cons_ne (p q : Nat) (s : Sample) (objs : List (Nat × Sample)) (h : q ≠ p) :
    List.lookup q ((p, s) :: objs) = List.lookup q objs := by
  have hqp : (q == p) = false := by simpa using h
  simp [List.lookup, hqp]

theorem lookup_filter_ne (p q : Nat) (objs : List (Nat × Sample)) (h : q ≠ p) :
    List.lookup q (objs.filter (fun x => x.1 != p)) = List.lookup q objs := by
  induction objs with
  | nil => rfl
  | cons x xs ih =>
    obtain ⟨a, s⟩ := x
    by_cases hap : a = p
    · subst hap
      have hqa : (q == a) = false := by simpa using h
      simp [List.filter, List.lookup, hqa, ih]
    · have hne : (a != p) = true := by simpa using hap
      by_cases hqa : q = a
      · subst hqa
        simp [List.filter, hne, List.lookup]
      · have hqa' : (q == a) = false := by simpa using hqa
        simp [List.filter, hne, List.lookup, hqa', ih]

theorem lookup_filter_self (p : Nat) (objs : List (Nat × Sample)) :
    List.lookup p (objs.filter (fun x => x.1 != p)) = none := by
  induction objs with
  | nil => rfl
  | cons x xs ih =>
    obtain ⟨a, s⟩ := x
    by_cases hap : a = p
    · subst hap
      simp [List.filter, ih]
    · have hne : (a != p) = true := by simpa using hap
      have hpa : (p == a) = false := by simpa using fun h : p = a => hap h.symm
      simp [List.filter, hne, List.lookup, hpa, ih]

theorem not_mem_samples_of_fresh (r : Runtime) (hwf : r.wellFormed) (p : Nat)
    (hfresh : p ∉ r.sampleObjects.map Prod.fst) : p ∉ r.samples_ :=
  fun h => hfresh (hwf.2 p h)

/-- Claim C11: `Step` called with no destination address (`soon_object` null) changes no
engine state, for every `bytes_allocated`, every `size`, every call stack and every
state: the live sample set, the sample objects, the weak links and the filler objects
written to the heap are all as before. -/
theorem C11_Step_null_address_changes_nothing (names : StringsStorage)
    (frames : List SharedFunctionInfo) (p : Nat) (bytes_allocated : Int) (size : Nat)
    (r : Runtime) :
    Step names frames p bytes_allocated 0 size r = r := by
  simp [Step]

/-- Claim C12: `Step` called with a non-null destination address and object size `s` adds
exactly one new Sample to the live set, whose recorded size is `s`, and leaves every
previously live Sample unchanged, for every `bytes_allocated`; when the stack walk
yields no frame the new Sample has an empty stack. The address `p` that `new Sample`
returns is one at which no Sample object lives. -/
theorem C12_Step_adds_one_sample (names : StringsStorage) (frames : List SharedFunctionInfo)
    (p : Nat) (bytes_allocated : Int) (soon_object : Nat) (size : Nat) (r : Runtime)
    (haddr : soon_object ≠ 0) (hwf : r.wellFormed)
    (hfresh : p ∉ r.sampleObjects.map Prod.fst) :
    (Step names frames p bytes_allocated soon_object size r).samples_.length =
        r.samples_.length + 1 ∧
    (∀ q, q ∈ (Step names frames p bytes_allocated soon_object size r).samples_ ↔
        q = p ∨ q ∈ r.samples_) ∧
    p ∉ r.samples_ ∧
    (∃ sample,
      (Step names frames p bytes_allocated soon_object size r).sampleObjects.lookup p =
          some sample ∧
        sample.size = size ∧ sample.global = soon_object ∧
        sample.stack = (frames.take 10).map (fun shared => FunctionInfo.new shared names) ∧
        (Step names frames p bytes_allocated soon_object size r).liveSamples.Perm
          (sample :: r.liveSamples)) ∧
    (∀ q ∈ r.samples_,
      (Step names frames p bytes_allocated soon_object size r).sampleObjects.lookup q =
        r.sampleObjects.lookup q) ∧
    (Step names [] p bytes_allocated soon_object size r).sampleObjects.lookup p =
      some { global := soon_object, stack := [], size := size } := by
  have hp : p ∉ r.samples_ := not_mem_samples_of_fresh r hwf p hfresh
  have hstep : ∀ fr, Step names fr p bytes_allocated soon_object size r =
      SampleObject names fr p soon_object size r := by
    intro fr
    simp [Step, haddr]
  have hins : stdSetInsert p r.samples_ = r.samples_.orderedInsert (fun a b => a ≤ b) p := by
    simp [stdSetInsert, hp]
  rw [hstep, hstep]
  refine ⟨?_, ?_, hp, ⟨Sample.new names frames soon_object size, ?_, rfl, rfl, ?_, ?_⟩, ?_, ?_⟩
  · simp only [SampleObject, hins, List.orderedInsert_length]
  · intro q
    simp only [SampleObject, hins, List.mem_orderedInsert]
  · simp [SampleObject, List.lookup]
  · simp [Sample.new, captureLoop_eq]
  · unfold Runtime.liveSamples
    simp only [SampleObject, hins]
    refine ((List.perm_orderedInsert _ p r.samples_).filterMap _).trans ?_
    rw [List.filterMap_cons]
    simp only [List.lookup, beq_self_eq_true]
    refine List.Perm.cons _ (List.Perm.of_eq ?_)
    apply List.filterMap_congr
    intro q hq
    exact lookup_cons_ne p q _ _ (fun h => hp (h ▸ hq))
  · intro q hq
    simp only [SampleObject]
    exact lookup_cons_ne p q _ _ (fun h => hp (h ▸ hq))
  · simp [SampleObject, List.lookup, Sample.new, Sample.captureLoop]

/-- Claim C12 at the runtime with one live sample: a second `Step`, for an object of 32 bytes
at the address 8192, where `new Sample` returns the address 2. -/
theorem C12_Step_adds_one_sample_witness :
    (Step ⟨id, id⟩ [] 2 16 8192 32 oneSampleRuntime).samples_.length =
        oneSampleRuntime.samples_.length + 1 ∧
    (∃ sample,
      (Step ⟨id, id⟩ [] 2 16 8192 32 oneSampleRuntime).sampleObjects.lookup 2 = some sample ∧
        sample.size = 32 ∧ sample.global = 8192 ∧
        sample.stack = (([] : List SharedFunctionInfo).take 10).map
          (fun shared => FunctionInfo.new shared ⟨id, id⟩) ∧
        (Step ⟨id, id⟩ [] 2 16 8192 32 oneSampleRuntime).liveSamples.Perm
          (sample :: oneSampleRuntime.liveSamples)) :=
  ⟨(C12_Step_adds_one_sample ⟨id, id⟩ [] 2 16 8192 32 oneSampleRuntime (by decide)
      ⟨by decide, by decide⟩ (by decide)).1,
   (C12_Step_adds_one_sample ⟨id, id⟩ [] 2 16 8192 32 oneSampleRuntime (by decide)
      ⟨by decide, by decide⟩ (by decide)).2.2.2.1⟩

/-- Claim C13 (stack capture bound and order): for a call stack of `n` frames the Sample built
by the constructor records exactly `min(n, 10)` Function Identities, those of the
`min(n, 10)` innermost frames in walk order, innermost first. -/
theorem C13_stack_capture_bound_and_order (names : StringsStorage)
    (frames : List SharedFunctionInfo) (object : Nat) (size : Nat) :
    (Sample.new names frames object size).stack =
        (frames.take 10).map (fun shared => FunctionInfo.new shared names) ∧
    (Sample.new names frames object size).stack.length = min frames.length 10 := by
  have h : (Sample.new names frames object size).stack =
      (frames.take 10).map (fun shared => FunctionInfo.new shared names) := by
    simp [Sample.new, captureLoop_eq]
  refine ⟨h, ?_⟩
  rw [h, List.length_map, List.length_take, Nat.min_comm]

/-! ## The liveness callback -/

theorem lookup_of_mem_keys (p : Nat) (objs : List (Nat × Sample))
    (h : p ∈ objs.map Prod.fst) : ∃ s, List.lookup p objs = some s := by
  induction objs with
  | nil => simp at h
  | cons x xs ih =>
    obtain ⟨a, s⟩ := x
    by_cases hpa : p = a
    · subst hpa
      exact ⟨s, by simp [List.lookup]⟩
    · have hpa' : (p == a) = false := by simpa using hpa
      have hmem : p ∈ xs.map Prod.fst := by
        simp only [List.map_cons, List.mem_cons] at h
        rcases h with h | h
        · exact absurd h hpa
        · exact h
      obtain ⟨s', hs'⟩ := ih hmem
      exact ⟨s', by simp [List.lookup, hpa', hs']⟩

theorem OnWeakCallback_of_live (p : Nat) (r : Runtime) (halive : r.alive = true)
    (hobj : p ∈ r.sampleObjects.map Prod.fst) :
    OnWeakCallback p r =
      some { r with
        samples_ := r.samples_.erase p
        sampleObjects := r.sampleObjects.filter (fun q => q.1 != p)
        weakHandles := r.weakHandles.filter (fun q => q != p) } := by
  obtain ⟨s, hs⟩ := lookup_of_mem_keys p r.sampleObjects hobj
  simp [OnWeakCallback, hs, halive]

/-- Claim C14 (liveness callback removal): when the weak callback fires for a Sample that is
in the live set, the live set afterwards is the previous set minus that one Sample: its
size decreases by exactly one, the Sample is no longer in it, every other Sample stays
and the objects of the other Samples are untouched. -/
theorem C14_weak_callback_removes_one_sample (p : Nat) (r : Runtime)
    (halive : r.alive = true) (hwf : r.wellFormed) (hp : p ∈ r.samples_) :
    ∃ r', OnWeakCallback p r = some r' ∧
      r'.samples_ = r.samples_.erase p ∧
      r'.samples_.length + 1 = r.samples_.length ∧
      (∀ q, q ∈ r'.samples_ ↔ q ∈ r.samples_ ∧ q ≠ p) ∧
      (∀ q, q ≠ p → r'.sampleObjects.lookup q = r.sampleObjects.lookup q) := by
  have hnodup : r.samples_.Nodup := hwf.1.nodup
  refine ⟨_, OnWeakCallback_of_live p r halive (hwf.2 p hp), rfl, ?_, ?_, ?_⟩
  · simp only [List.length_erase_of_mem hp]
    have := List.length_pos_of_mem hp
    omega
  · intro q
    simp only [hnodup.mem_erase_iff]
    exact And.comm
  · intro q hq
    exact lookup_filter_ne p q r.sampleObjects hq

/-- Claim C14 at the runtime with one live sample. -/
theorem C14_weak_callback_removes_one_sample_witness :
    ∃ r', OnWeakCallback 1 oneSampleRuntime = some r' ∧
      r'.samples_ = oneSampleRuntime.samples_.erase 1 ∧
      r'.samples_.length + 1 = oneSampleRuntime.samples_.length ∧
      (∀ q, q ∈ r'.samples_ ↔ q ∈ oneSampleRuntime.samples_ ∧ q ≠ 1) ∧
      (∀ q, q ≠ 1 → r'.sampleObjects.lookup q = oneSampleRuntime.sampleObjects.lookup q) :=
  C14_weak_callback_removes_one_sample 1 oneSampleRuntime (by decide)
    ⟨by decide, by decide⟩ (by decide)

/-- Claim C20, at the input where the code departs from it: the profiler with one live
sample is destroyed. The destructor deletes no Sample and resets no handle: the Sample
object is still allocated, its weak link is still held by the collector, and when the
collector fires the callback for it, the callback uses the destroyed profiler
(`none`). -/
theorem C20_destroy_leaves_samples_and_links :
    (SamplingHeapProfiler.destroy oneSampleRuntime).sampleObjects =
        [(1, { global := 4096, stack := [], size := 16 })] ∧
    (SamplingHeapProfiler.destroy oneSampleRuntime).weakHandles = [1] ∧
    collectorFires 1 (SamplingHeapProfiler.destroy oneSampleRuntime) = none := by
  decide

/-! ## The report over a sink that always continues -/

theorem appendsText_bind (C : Nat) (f : OutputStreamWriter → Outcome)
    (g : OutputStreamWriter → Outcome) (a b : List Char)
    (hf : appendsText C f a) (hg : appendsText C g b) :
    appendsText C (fun w => (f w).bind g) (a ++ b) := by
  intro w hw
  obtain ⟨w1, h1, hw1, hs1⟩ := hf w hw
  obtain ⟨w2, h2, hw2, hs2⟩ := hg w1 hw1
  refine ⟨w2, ?_, hw2, ?_⟩
  · simp only [h1, Outcome.bind_done, h2]
  · rw [hs2, hs1, List.append_assoc]

theorem appendsText_done (C : Nat) : appendsText C Outcome.done [] := by
  intro w hw
  exact ⟨w, rfl, hw, by simp⟩

theorem take_length_takeWhile (p : Char → Bool) (s : List Char) :
    s.take (s.takeWhile p).length = s.takeWhile p := by
  induction s with
  | nil => rfl
  | cons c cs ih =>
    by_cases hc : p c = true
    · rw [List.takeWhile_cons_of_pos hc, List.length_cons, List.take_succ_cons, ih]
    · rw [List.takeWhile_cons_of_neg hc]
      rfl

/-- The function `AddString` runs the copy loop on the content of the C string. -/
theorem AddString_eq_loop_cString (sink : Sink) (fuel : Nat) (s : List Char)
    (w : OutputStreamWriter) :
    AddString sink fuel s w = AddSubstringLoop sink fuel w (cString s) := by
  have hlen : StrLength s = (cString s).length := rfl
  unfold AddString AddSubstring
  by_cases h0 : (cString s).length = 0
  · have hnil : cString s = [] := List.length_eq_zero.mp h0
    rw [if_pos (by rw [hlen, h0]; simp), hnil]
    cases fuel <;> rfl
  · rw [if_neg (by rw [hlen]; omega), hlen]
    simp only [Int.toNat_ofNat]
    rw [show List.take (cString s).length s = cString s from take_length_takeWhile _ s]

theorem AddString_appends (C : Nat) (hC : 1 ≤ C) (fuel : Nat) (s : List Char)
    (hfuel : StrLength s ≤ fuel) :
    appendsText C (AddString continuingSink fuel s) (cString s) := by
  intro w ⟨hinv, hsize, hab, chunks, hev⟩
  have hlen : StrLength s = (cString s).length := rfl
  obtain ⟨w', hrun, _, _, hab', _, hst', chunks', hev', _, _⟩ :=
    AddSubstringLoop_continuing continuingSink (fun _ _ => rfl) fuel w (cString s)
      hinv.1 hab (hinv.2.2.1 hab) (by omega)
  have hinv' := AddSubstringLoop_invariant continuingSink fuel w (cString s)
    (by rw [hsize]; exact hC) hinv
  rw [hrun] at hinv'
  simp only [Outcome.writer_done] at hinv'
  refine ⟨w', ?_, ⟨hinv'.1, by rw [hinv'.2, hsize], hab', chunks ++ chunks', ?_⟩, hst'⟩
  · rw [AddString_eq_loop_cString, hrun]
  · rw [hev', hev, List.map_append]

theorem cString_of_no_nul (s : List Char) (h : ∀ c ∈ s, c ≠ '\x00') : cString s = s := by
  unfold cString
  rw [List.takeWhile_eq_self_iff]
  intro c hc
  simpa using h c hc

theorem AddNumber_appends (C : Nat) (hC : 1 ≤ C) (fuel : Nat) (hfuel : 10 ≤ fuel) (n : Nat) :
    appendsText C (AddNumber continuingSink fuel n) (decimal (n % 2 ^ 32)) := by
  have hn : n % 2 ^ 32 < 2 ^ 32 := Nat.mod_lt _ (by decide)
  have h10 := decimal_length_le _ hn
  intro w hw
  by_cases hroom : w.chunk_size - w.chunk_pos ≥ kMaxNumberSize
  · obtain ⟨hinv, hsize, hab, chunks, hev⟩ := hw
    obtain ⟨w', hrun, hev', hab', _, htake'⟩ :=
      AddNumberImpl_in_place continuingSink fuel _ hn w hinv.1 hroom
    have hinv' := AddNumberImpl_invariant continuingSink fuel _ hn w
      (by rw [hsize]; exact hC) hinv
    rw [hrun] at hinv'
    simp only [Outcome.writer_done] at hinv'
    refine ⟨w', hrun, ⟨hinv'.1, by rw [hinv'.2, hsize], by rw [hab', hab], chunks, ?_⟩, ?_⟩
    · rw [hev', hev]
    · rw [stream_eq, stream_eq, hev', htake', List.append_assoc]
  · have hstr := AddString_appends C hC fuel (decimal (n % 2 ^ 32))
      (by rw [StrLength_of_no_nul _ (decimal_no_nul _)]; omega) w hw
    rw [cString_of_no_nul _ (decimal_no_nul _)] at hstr
    unfold AddNumber
    rw [AddNumberImpl_scratch _ _ _ hn w hroom]
    exact hstr

theorem appendsText_ite (C : Nat) (c : Prop) [Decidable c]
    (f g : OutputStreamWriter → Outcome) (a b : List Char)
    (hf : appendsText C f a) (hg : appendsText C g b) :
    appendsText C (fun w => if c then f w else g w) (if c then a else b) := by
  by_cases h : c
  · simpa only [if_pos h] using hf
  · simpa only [if_neg h] using hg

theorem AddString_literal_appends (C : Nat) (hC : 1 ≤ C) (fuel : Nat) (lit : List Char)
    (hnul : ∀ c ∈ lit, c ≠ '\x00') (hlen : lit.length ≤ fuel) :
    appendsText C (AddString continuingSink fuel lit) lit := by
  have h := AddString_appends C hC fuel lit (by rw [StrLength_of_no_nul lit hnul]; exact hlen)
  rw [cString_of_no_nul lit hnul] at h
  exact h

/-- The frame loop of `GetHeapSample` over a sink that always continues appends the text
`emittedFrames`. -/
theorem frames_appends (C : Nat) (hC : 1 ≤ C) (fuel : Nat) (h18 : 18 ≤ fuel) (length : Int) :
    ∀ (stack : List FunctionInfo) (i : Nat),
      (∀ f ∈ stack, StrLength f.name ≤ fuel ∧ StrLength f.script_name ≤ fuel) →
      appendsText C (GetHeapSample.frames continuingSink fuel length i stack)
        (emittedFrames length i stack) := by
  intro stack
  induction stack with
  | nil =>
    intro i _ w hw
    exact ⟨w, rfl, hw, by simp [emittedFrames]⟩
  | cons info rest ih =>
    intro i hnames
    have hinfo := hnames info (List.mem_cons_self _ _)
    have hrest := ih (i + 1) (fun f hf => hnames f (List.mem_cons_of_mem _ hf))
    have key := appendsText_bind C _ _ _ _
      (AddString_literal_appends C hC fuel "\t\x7b\"name\": \"".toList (by decide)
        (Nat.le_trans (by decide) h18))
      (appendsText_bind C _ _ _ _ (AddString_appends C hC fuel info.name hinfo.1)
        (appendsText_bind C _ _ _ _
          (AddString_literal_appends C hC fuel "\", \"scriptName\": \"".toList (by decide)
            (Nat.le_trans (by decide) h18))
          (appendsText_bind C _ _ _ _ (AddString_appends C hC fuel info.script_name hinfo.2)
            (appendsText_bind C _ _ _ _
              (appendsText_ite C ((i : Int) < length - 1) _ _ _ _
                (AddString_literal_appends C hC fuel "\"\x7d,\n".toList (by decide)
                  (Nat.le_trans (by decide) h18))
                (AddString_literal_appends C hC fuel "\"\x7d\n".toList (by decide)
                  (Nat.le_trans (by decide) h18)))
              hrest))))
    intro w hw
    obtain ⟨w', hrun, hw', hst⟩ := key w hw
    refine ⟨w', ?_, hw', ?_⟩
    · rw [← hrun]
      rfl
    · rw [hst]
      simp only [emittedFrames, List.append_assoc]

/-- The sample loop of `GetHeapSample` over a sink that always continues appends the text
`emittedSamples`, with the size field `emittedSize`. -/
theorem samples_appends (C : Nat) (hC : 1 ≤ C) (fuel : Nat) (h18 : 18 ≤ fuel) :
    ∀ (samples : List Sample) (i : Nat),
      (∀ s ∈ samples, ∀ f ∈ s.stack,
        StrLength f.name ≤ fuel ∧ StrLength f.script_name ≤ fuel) →
      appendsText C (GetHeapSample.samples continuingSink fuel i samples)
        (emittedSamples emittedSize i samples) := by
  intro samples
  induction samples with
  | nil =>
    intro i _ w hw
    exact ⟨w, rfl, hw, by simp [emittedSamples]⟩
  | cons sample rest ih =>
    intro i hnames
    have hstack := hnames sample (List.mem_cons_self _ _)
    have hrest := ih (i + 1) (fun s hs => hnames s (List.mem_cons_of_mem _ hs))
    have key := appendsText_bind C _ _ _ _
      (appendsText_ite C (i ≠ 0) _ _ _ _
        (AddString_literal_appends C hC fuel ",".toList (by decide)
          (Nat.le_trans (by decide) h18))
        (appendsText_done C))
      (appendsText_bind C _ _ _ _
        (AddString_literal_appends C hC fuel " \x7b\"size\": ".toList (by decide)
          (Nat.le_trans (by decide) h18))
        (appendsText_bind C _ _ _ _
          (AddNumber_appends C hC fuel (by omega) (sample.size % 2 ^ 32))
          (appendsText_bind C _ _ _ _
            (AddString_literal_appends C hC fuel ", \"stack\": [\n".toList (by decide)
              (Nat.le_trans (by decide) h18))
            (appendsText_bind C _ _ _ _
              (frames_appends C hC fuel h18 sample.stack.length sample.stack 0 hstack)
              (appendsText_bind C _ _ _ _
                (AddString_literal_appends C hC fuel " ]\x7d\n".toList (by decide)
                  (Nat.le_trans (by decide) h18))
                hrest)))))
    intro w hw
    obtain ⟨w', hrun, hw', hst⟩ := key w hw
    refine ⟨w', ?_, hw', ?_⟩
    · rw [← hrun]
      rfl
    · rw [hst]
      simp only [emittedSamples, emittedRecord, emittedSize, Nat.mod_mod, List.append_assoc]

theorem flowing_new (C : Nat) (hC : 1 ≤ C) : (OutputStreamWriter.new C).flowing C :=
  ⟨invariant_new C hC, rfl, rfl, [], rfl⟩

theorem stream_new (C : Nat) : (OutputStreamWriter.new C).stream = [] := by
  simp [stream_eq, OutputStreamWriter.new, writesOf]

/-- The report over a sink that always continues, when the sample loop appends `text`: with
two units of fuel for the brackets `GetHeapSample` returns; the sink has received
writes, all answered `kContinue`, and then end-of-stream; each write carries between 1
and `C` bytes, and the chunks written, put together, are `text` between the
brackets. -/
theorem GetHeapSample_of_appends (C : Nat) (hC : 1 ≤ C) (fuel : Nat) (h2 : 2 ≤ fuel)
    (samples : List Sample) (text : List Char)
    (hloop : appendsText C (GetHeapSample.samples continuingSink fuel 0 samples) text) :
    ∃ (w : OutputStreamWriter) (chunks : List (List Char)),
      GetHeapSample continuingSink fuel C samples = Outcome.done w ∧
      w.events = chunks.map (fun b => SinkEvent.write b WriteResult.kContinue) ++
        [SinkEvent.endOfStream] ∧
      (∀ b ∈ chunks, 1 ≤ b.length ∧ b.length ≤ C) ∧
      chunks.flatten = "[\n".toList ++ text ++ "]\n".toList := by
  have key := appendsText_bind C _ _ _ _
    (AddString_literal_appends C hC fuel "[\n".toList (by decide) (Nat.le_trans (by decide) h2))
    (appendsText_bind C _ _ _ _ hloop
      (AddString_literal_appends C hC fuel "]\n".toList (by decide)
        (Nat.le_trans (by decide) h2)))
  obtain ⟨w, hrun, ⟨hinv, hsize, hab, chunks, hev⟩, hst⟩ :=
    key (OutputStreamWriter.new C) (flowing_new C hC)
  rw [stream_new, List.nil_append] at hst
  have hfin := Finalize_events continuingSink w hab
  have hwrites := Finalize_invariant_writes continuingSink w hinv
  refine ⟨Finalize continuingSink w,
    chunks ++ (if w.chunk_pos = 0 then [] else [w.chunk.take w.chunk_pos]), ?_, ?_, ?_, ?_⟩
  · unfold GetHeapSample
    have hrun' : (AddString continuingSink fuel "[\n".toList (OutputStreamWriter.new C)).bind
        (fun w => (GetHeapSample.samples continuingSink fuel 0 samples w).bind
          (fun w => AddString continuingSink fuel "]\n".toList w)) = Outcome.done w := hrun
    cases h1 : AddString continuingSink fuel "[\n".toList (OutputStreamWriter.new C) with
    | done w1 =>
      rw [h1] at hrun'
      simp only [Outcome.bind_done] at hrun' ⊢
      cases h2 : GetHeapSample.samples continuingSink fuel 0 samples w1 with
      | done w2 =>
        rw [h2] at hrun'
        simp only [Outcome.bind_done] at hrun' ⊢
        rw [hrun']
        rfl
      | outOfFuel w2 => rw [h2] at hrun'; simp at hrun'
      | outOfBounds w2 => rw [h2] at hrun'; simp at hrun'
    | outOfFuel w1 => rw [h1] at hrun'; simp at hrun'
    | outOfBounds w1 => rw [h1] at hrun'; simp at hrun'
  · rw [hfin, hev, List.map_append]
    split <;> simp [continuingSink]
  · intro b hb
    have hmem : b ∈ writesOf (Finalize continuingSink w).events := by
      rw [hfin, hev, writesOf_append, writesOf_append, writesOf_map_write]
      rcases List.mem_append.mp hb with hb | hb
      · exact List.mem_append_left _ (List.mem_append_left _ hb)
      · refine List.mem_append_left _ (List.mem_append_right _ ?_)
        split at hb
        · simp at hb
        · rw [if_neg (by assumption)]
          simpa [writesOf] using hb
    have := hwrites.2 b hmem
    rw [hsize] at this
    exact this
  · have htext : "[\n".toList ++ text ++ "]\n".toList = w.stream := by
      rw [hst]
      simp only [List.append_assoc]
    rw [htext, stream_eq, hev, writesOf_map_write, List.flatten_append]
    split
    next h0 => simp [h0]
    next h0 => simp

/-- The report over a sink that always continues: with enough fuel (18 units, and one for
every byte of the longest name) `GetHeapSample` returns, and the chunks written, put
together, are the text `emittedReport`. -/
theorem GetHeapSample_continuing (C : Nat) (hC : 1 ≤ C) (fuel : Nat) (h18 : 18 ≤ fuel)
    (samples : List Sample)
    (hnames : ∀ s ∈ samples, ∀ f ∈ s.stack,
      StrLength f.name ≤ fuel ∧ StrLength f.script_name ≤ fuel) :
    ∃ (w : OutputStreamWriter) (chunks : List (List Char)),
      GetHeapSample continuingSink fuel C samples = Outcome.done w ∧
      w.events = chunks.map (fun b => SinkEvent.write b WriteResult.kContinue) ++
        [SinkEvent.endOfStream] ∧
      (∀ b ∈ chunks, 1 ≤ b.length ∧ b.length ≤ C) ∧
      chunks.flatten = emittedReport emittedSize samples :=
  GetHeapSample_of_appends C hC fuel (by omega) samples _
    (samples_appends C hC fuel h18 samples 0 hnames)

/-! ## The text of the report and the wire format -/

theorem intercalate_cons_cons (sep a b : List Char) (l : List (List Char)) :
    List.intercalate sep (a :: b :: l) = a ++ sep ++ List.intercalate sep (b :: l) := by
  simp [List.intercalate, List.intersperse]

theorem intercalate_singleton (sep a : List Char) : List.intercalate sep [a] = a := by
  simp [List.intercalate, List.intersperse]

/-- The frame loop puts a comma after every frame but the last: from the index `i`, with
`length` the index past the last frame, its text is the frame records separated by
commas. -/
theorem emittedFrames_eq_stackRecords (stack : List FunctionInfo) :
    ∀ (i : Nat), emittedFrames ((i : Int) + (stack.length : Int)) i stack = stackRecords stack := by
  induction stack with
  | nil => intro i; rfl
  | cons info rest ih =>
    intro i
    cases rest with
    | nil =>
      have hcond : ¬ ((i : Int) < (i : Int) + (([info] : List FunctionInfo).length : Int) - 1) := by
        simp
      simp only [emittedFrames, if_neg hcond, stackRecords, List.map_cons, List.map_nil,
        intercalate_singleton, frameRecord, List.append_nil, List.append_assoc]
      rfl
    | cons g rest' =>
      have hcond : (i : Int) <
          (i : Int) + ((info :: g :: rest' : List FunctionInfo).length : Int) - 1 := by
        simp only [List.length_cons]
        push_cast
        omega
      have hlen : (i : Int) + ((info :: g :: rest' : List FunctionInfo).length : Int) =
          ((i + 1 : Nat) : Int) + ((g :: rest' : List FunctionInfo).length : Int) := by
        simp only [List.length_cons]
        push_cast
        omega
      have hih := ih (i + 1)
      rw [← hlen] at hih
      rw [emittedFrames, if_pos hcond, hih]
      simp only [stackRecords, List.map_cons, intercalate_cons_cons, frameRecord,
        List.append_assoc, reduceCtorEq, if_false]
      rfl

theorem emittedRecord_zero (num : Nat → List Char) (sample : Sample) :
    emittedRecord num 0 sample = sampleRecord num sample := by
  have h := emittedFrames_eq_stackRecords sample.stack 0
  simp only [Nat.cast_zero, zero_add] at h
  simp [emittedRecord, sampleRecord, h]

theorem emittedRecord_succ (num : Nat → List Char) (i : Nat) (sample : Sample) :
    emittedRecord num (i + 1) sample = ",".toList ++ sampleRecord num sample := by
  have h := emittedFrames_eq_stackRecords sample.stack 0
  simp only [Nat.cast_zero, zero_add] at h
  simp [emittedRecord, sampleRecord, h]

theorem emittedSamples_succ (num : Nat → List Char) (samples : List Sample) :
    ∀ (i : Nat), emittedSamples num (i + 1) samples =
      (samples.map (fun s => ",".toList ++ sampleRecord num s)).flatten := by
  induction samples with
  | nil => intro i; rfl
  | cons s rest ih =>
    intro i
    rw [emittedSamples, emittedRecord_succ, ih (i + 1)]
    simp

theorem intercalate_cons (sep a : List Char) (l : List (List Char)) :
    List.intercalate sep (a :: l) = a ++ (l.map (fun b => sep ++ b)).flatten := by
  induction l generalizing a with
  | nil => simp [intercalate_singleton]
  | cons b l ih => rw [intercalate_cons_cons, ih b]; simp

/-- The text read off the loops of `GetHeapSample` is the report of the wire format: commas
stand between the sample records and between the frame records only. -/
theorem emittedReport_eq_reportText (num : Nat → List Char) (samples : List Sample) :
    emittedReport num samples = reportText num samples := by
  unfold emittedReport reportText
  congr 2
  cases samples with
  | nil => rfl
  | cons s rest =>
    rw [emittedSamples, emittedRecord_zero, emittedSamples_succ, List.map_cons,
      intercalate_cons, List.map_map]
    rfl

theorem emittedSamples_eq_enum (num : Nat → List Char) (samples : List Sample) :
    ∀ (i : Nat), emittedSamples num i samples =
      ((samples.enumFrom i).map (fun x => emittedRecord num x.1 x.2)).flatten := by
  induction samples with
  | nil => intro i; rfl
  | cons s rest ih =>
    intro i
    rw [emittedSamples, ih (i + 1)]
    simp [List.enumFrom]

/-! ## Claims on the report -/

/-- Claim C16: with zero live samples and a sink that never aborts, `GetHeapSample` returns
for every chunk size `C ≥ 1` (two units of fuel suffice), and it delivers chunks whose
concatenation is exactly the 4-character text `[\n]\n`, followed by end-of-stream. -/
theorem C16_empty_report (C : Nat) (hC : 1 ≤ C) (fuel : Nat) (hfuel : 2 ≤ fuel) :
    ∃ (w : OutputStreamWriter) (chunks : List (List Char)),
      GetHeapSample continuingSink fuel C [] = Outcome.done w ∧
      w.events = chunks.map (fun b => SinkEvent.write b WriteResult.kContinue) ++
        [SinkEvent.endOfStream] ∧
      chunks.flatten = "[\n]\n".toList := by
  obtain ⟨w, chunks, hrun, hev, _, htext⟩ :=
    GetHeapSample_of_appends C hC fuel hfuel [] []
      (fun w hw => ⟨w, rfl, hw, by simp⟩)
  exact ⟨w, chunks, hrun, hev, htext⟩

/-- Claim C16 at chunk size 1. -/
theorem C16_empty_report_witness :
    ∃ (w : OutputStreamWriter) (chunks : List (List Char)),
      GetHeapSample continuingSink 2 1 [] = Outcome.done w ∧
      w.events = chunks.map (fun b => SinkEvent.write b WriteResult.kContinue) ++
        [SinkEvent.endOfStream] ∧
      chunks.flatten = "[\n]\n".toList :=
  C16_empty_report 1 (by decide) 2 (by decide)

/-- Claim C17: for every live set of `n` Samples and a sink that never aborts, `GetHeapSample`
returns (with 18 units of fuel and one for every byte of the longest name) and the
report delivered, followed by end-of-stream, is `n` records between the brackets, one
per live Sample in the order of the set; each record (`emittedRecord`) opens, after its
separator, with ` {"size": ` and carries the frames of that Sample in captured order,
each with its name and script name. -/
theorem C17_one_record_per_sample (C : Nat) (hC : 1 ≤ C) (fuel : Nat) (h18 : 18 ≤ fuel)
    (samples : List Sample)
    (hnames : ∀ s ∈ samples, ∀ f ∈ s.stack,
      StrLength f.name ≤ fuel ∧ StrLength f.script_name ≤ fuel) :
    ∃ (w : OutputStreamWriter) (chunks : List (List Char)),
      GetHeapSample continuingSink fuel C samples = Outcome.done w ∧
      w.events = chunks.map (fun b => SinkEvent.write b WriteResult.kContinue) ++
        [SinkEvent.endOfStream] ∧
      chunks.flatten =
        "[\n".toList ++
          (samples.enum.map (fun x => emittedRecord emittedSize x.1 x.2)).flatten ++
          "]\n".toList ∧
      (samples.enum.map (fun x => emittedRecord emittedSize x.1 x.2)).length =
        samples.length := by
  obtain ⟨w, chunks, hrun, hev, _, htext⟩ :=
    GetHeapSample_continuing C hC fuel h18 samples hnames
  refine ⟨w, chunks, hrun, hev, ?_, by simp⟩
  rw [htext, emittedReport, emittedSamples_eq_enum]
  rfl

/-- Claim C17 at a live set holding one Sample of size 2000 with an empty stack, for chunk
size 7: the report is exactly one record with `"size": 2000`. -/
theorem C17_one_record_per_sample_witness :
    ∃ (w : OutputStreamWriter) (chunks : List (List Char)),
      GetHeapSample continuingSink 18 7 [⟨4096, [], 2000⟩] = Outcome.done w ∧
      w.events = chunks.map (fun b => SinkEvent.write b WriteResult.kContinue) ++
        [SinkEvent.endOfStream] ∧
      chunks.flatten = "[\n \x7b\"size\": 2000, \"stack\": [\n ]\x7d\n]\n".toList :=
  (C17_one_record_per_sample 7 (by decide) 18 (by decide) [⟨4096, [], 2000⟩]
      (by decide)).imp
    fun _ h => h.imp fun _ h' => ⟨h'.1, h'.2.1, h'.2.2.1.trans (by decide)⟩

/-- Claim C18 (no trailing comma): for every live set and every captured stack, over a sink
that never aborts, the report delivered is the sample records separated by commas, so
that a comma stands before every sample record except the first and none follows the
last; in each record the frame records are separated by a comma and a newline, so that
every frame except the last of its stack is followed by a comma and the last is
not. -/
theorem C18_no_trailing_comma (C : Nat) (hC : 1 ≤ C) (fuel : Nat) (h18 : 18 ≤ fuel)
    (samples : List Sample)
    (hnames : ∀ s ∈ samples, ∀ f ∈ s.stack,
      StrLength f.name ≤ fuel ∧ StrLength f.script_name ≤ fuel) :
    ∃ (w : OutputStreamWriter) (chunks : List (List Char)),
      GetHeapSample continuingSink fuel C samples = Outcome.done w ∧
      w.events = chunks.map (fun b => SinkEvent.write b WriteResult.kContinue) ++
        [SinkEvent.endOfStream] ∧
      chunks.flatten =
        "[\n".toList ++
          List.intercalate ",".toList (samples.map (sampleRecord emittedSize)) ++
          "]\n".toList ∧
      ∀ s ∈ samples, sampleRecord emittedSize s =
        " \x7b\"size\": ".toList ++ emittedSize s.size ++ ", \"stack\": [\n".toList ++
          (if s.stack = [] then []
           else List.intercalate ",\n".toList (s.stack.map frameRecord) ++ "\n".toList) ++
          " ]\x7d\n".toList := by
  obtain ⟨w, chunks, hrun, hev, _, htext⟩ :=
    GetHeapSample_continuing C hC fuel h18 samples hnames
  refine ⟨w, chunks, hrun, hev, ?_, fun s _ => rfl⟩
  rw [htext, emittedReport_eq_reportText]
  rfl

/-- Claim C18 at a live set of two Samples, the first with two frames, for chunk size 5. -/
theorem C18_no_trailing_comma_witness :
    ∃ (w : OutputStreamWriter) (chunks : List (List Char)),
      GetHeapSample continuingSink 18 5
          [⟨4096, [⟨"f".toList, "a.js".toList⟩, ⟨"g".toList, []⟩], 2000⟩, ⟨8192, [], 16⟩] =
        Outcome.done w ∧
      w.events = chunks.map (fun b => SinkEvent.write b WriteResult.kContinue) ++
        [SinkEvent.endOfStream] ∧
      chunks.flatten =
        ("[\n \x7b\"size\": 2000, \"stack\": [\n" ++
          "\t\x7b\"name\": \"f\", \"scriptName\": \"a.js\"\x7d,\n" ++
          "\t\x7b\"name\": \"g\", \"scriptName\": \"\"\x7d\n" ++
          " ]\x7d\n, \x7b\"size\": 16, \"stack\": [\n ]\x7d\n]\n").toList :=
  (C18_no_trailing_comma 5 (by decide) 18 (by decide)
      [⟨4096, [⟨"f".toList, "a.js".toList⟩, ⟨"g".toList, []⟩], 2000⟩, ⟨8192, [], 16⟩]
      (by decide)).imp
    fun _ h => h.imp fun _ h' => ⟨h'.1, h'.2.1, h'.2.2.1.trans (by decide)⟩

/-- Claim C19 as stated fails: for a live Sample whose recorded size is `4294967297`
(`2 ^ 32 + 1`) the number emitted in the size field is `1`, not the decimal
representation `4294967297` of the recorded size. -/
theorem C19_counterexample_size_truncated :
    decimal 4294967297 = "4294967297".toList ∧
    ∃ w, GetHeapSample continuingSink 18 64 [⟨4096, [], 4294967297⟩] = Outcome.done w ∧
      (writesOf w.events).flatten = "[\n \x7b\"size\": 1, \"stack\": [\n ]\x7d\n]\n".toList :=
  ⟨by decide, _, rfl, by decide⟩

/-- Claim C19, amended: over a sink that never aborts, for every live set, whatever the
recorded sizes, the number emitted in the size field of the record of a live Sample is
the decimal representation of the recorded size reduced modulo `2 ^ 32` (the conversion
to `unsigned`); it is the decimal representation of the recorded size itself for every
Sample whose recorded size is below `2 ^ 32`. -/
theorem C19_size_field_is_decimal_mod_2_pow_32 (C : Nat) (hC : 1 ≤ C) (fuel : Nat)
    (h18 : 18 ≤ fuel) (samples : List Sample)
    (hnames : ∀ s ∈ samples, ∀ f ∈ s.stack,
      StrLength f.name ≤ fuel ∧ StrLength f.script_name ≤ fuel) :
    ∃ (w : OutputStreamWriter) (chunks : List (List Char)),
      GetHeapSample continuingSink fuel C samples = Outcome.done w ∧
      w.events = chunks.map (fun b => SinkEvent.write b WriteResult.kContinue) ++
        [SinkEvent.endOfStream] ∧
      chunks.flatten = reportText (fun size => decimal (size % 2 ^ 32)) samples ∧
      (∀ s ∈ samples, s.size < 2 ^ 32 →
        sampleRecord (fun size => decimal (size % 2 ^ 32)) s = sampleRecord decimal s) ∧
      ((∀ s ∈ samples, s.size < 2 ^ 32) → chunks.flatten = reportText decimal samples) := by
  obtain ⟨w, chunks, hrun, hev, _, htext⟩ :=
    GetHeapSample_continuing C hC fuel h18 samples hnames
  have h1 : chunks.flatten = reportText (fun size => decimal (size % 2 ^ 32)) samples := by
    rw [htext, emittedReport_eq_reportText]
    rfl
  have h2 : ∀ s ∈ samples, s.size < 2 ^ 32 →
      sampleRecord (fun size => decimal (size % 2 ^ 32)) s = sampleRecord decimal s := by
    intro s _ hs
    simp only [sampleRecord, Nat.mod_eq_of_lt hs]
  refine ⟨w, chunks, hrun, hev, h1, h2, ?_⟩
  intro hsmall
  rw [h1]
  unfold reportText
  congr 3
  apply List.map_congr_left
  intro s hs
  exact h2 s hs (hsmall s hs)

/-- The amended claim C19 at a live set holding a Sample of size `4294967297` (`2 ^ 32 + 1`)
and a Sample of size `4294967295`: the size fields are `1` and `4294967295`. -/
theorem C19_size_field_is_decimal_mod_2_pow_32_witness :
    ∃ (w : OutputStreamWriter) (chunks : List (List Char)),
      GetHeapSample continuingSink 18 64
          [⟨4096, [], 4294967297⟩, ⟨8192, [], 4294967295⟩] = Outcome.done w ∧
      w.events = chunks.map (fun b => SinkEvent.write b WriteResult.kContinue) ++
        [SinkEvent.endOfStream] ∧
      chunks.flatten =
        ("[\n \x7b\"size\": 1, \"stack\": [\n ]\x7d\n" ++
          ", \x7b\"size\": 4294967295, \"stack\": [\n ]\x7d\n]\n").toList :=
  (C19_size_field_is_decimal_mod_2_pow_32 64 (by decide) 18 (by decide)
      [⟨4096, [], 4294967297⟩, ⟨8192, [], 4294967295⟩] (by decide)).imp
    fun _ h => h.imp fun _ h' => ⟨h'.1, h'.2.1, h'.2.2.1.trans (by decide)⟩

/-! ## The structural condition of the runtime is kept -/

/-- Claim C23 (script name rule of `FunctionInfo`): `name` is always the interned debug name
of the function; `script_name` is the interned name of the script when the function
has a script and the name of that script is a name value, and it is the empty string in
every other case: no script, or a script whose name is not a name value. -/
theorem C23_FunctionInfo_script_name_rule (names : StringsStorage) (DebugName : List Char) :
    (∀ shared : SharedFunctionInfo,
      (FunctionInfo.new shared names).name = names.GetFunctionName shared.DebugName) ∧
    (∀ n : List Char,
      (FunctionInfo.new ⟨DebugName, some ⟨some n⟩⟩ names).script_name = names.GetName n) ∧
    (FunctionInfo.new ⟨DebugName, some ⟨none⟩⟩ names).script_name = [] ∧
    (FunctionInfo.new ⟨DebugName, none⟩ names).script_name = [] := by
  refine ⟨?_, fun n => rfl, rfl, rfl⟩
  intro shared
  obtain ⟨d, script⟩ := shared
  cases script with
  | none => rfl
  | some s =>
    obtain ⟨n⟩ := s
    cases n <;> rfl

theorem decimal_length_le_of_lt_pow (n e : Nat) (he : 0 < e) (h : n < 10 ^ e) :
    (decimal n).length ≤ e := by
  unfold decimal Nat.toDigits
  exact Nat.toDigitsCore_length 10 (by decide) (n + 1) n e h he

theorem decimalSigned_length_le (i : Int) (e : Nat) (he : 0 < e) (h : i.natAbs < 10 ^ e) :
    (decimalSigned i).length ≤ e + 1 := by
  have := decimal_length_le_of_lt_pow i.natAbs e he h
  unfold decimalSigned
  split
  · simp only [List.length_cons]; omega
  · omega

/-- Claim C30: the `MaxDecimalDigitsIn` constants are the exact worst-case widths. No 32-bit
unsigned value has more than 10 decimal digits and `4294967295` has 10; no 32-bit signed
value has a decimal text, sign included, longer than 11 and `-2147483648` has 11; for
64 bits the bounds are 20 and 20, reached by `18446744073709551615` and by
`-9223372036854775808`. Hence the scratch buffer of `kUnsigned + 1` bytes of
`AddNumberImpl` holds every formatted unsigned value and its terminator: `SNPrintF`
into it never reports truncation. -/
theorem C30_MaxDecimalDigitsIn_exact :
    (∀ n : Nat, n < 2 ^ 32 → (decimal n).length ≤ MaxDecimalDigitsIn4_kUnsigned) ∧
    (decimal (2 ^ 32 - 1)).length = MaxDecimalDigitsIn4_kUnsigned ∧
    (∀ i : Int, -2 ^ 31 ≤ i → i < 2 ^ 31 →
      (decimalSigned i).length ≤ MaxDecimalDigitsIn4_kSigned) ∧
    (decimalSigned (-2 ^ 31)).length = MaxDecimalDigitsIn4_kSigned ∧
    (∀ n : Nat, n < 2 ^ 64 → (decimal n).length ≤ MaxDecimalDigitsIn8_kUnsigned) ∧
    (decimal (2 ^ 64 - 1)).length = MaxDecimalDigitsIn8_kUnsigned ∧
    (∀ i : Int, -2 ^ 63 ≤ i → i < 2 ^ 63 →
      (decimalSigned i).length ≤ MaxDecimalDigitsIn8_kSigned) ∧
    (decimalSigned (-2 ^ 63)).length = MaxDecimalDigitsIn8_kSigned ∧
    (∀ n : Nat, n < 2 ^ 32 →
      (decimal n).length + 1 ≤ kMaxNumberSize ∧
      (SNPrintF (List.replicate kMaxNumberSize '\x00') n).2 = ((decimal n).length : Int)) := by
  refine ⟨?_, by decide, ?_, by decide, ?_, by decide, ?_, by decide, ?_⟩
  · intro n hn
    exact decimal_length_le n hn
  · intro i hlo hhi
    exact decimalSigned_length_le i 10 (by decide) (by omega)
  · intro n hn
    exact decimal_length_le_of_lt_pow n 20 (by decide) (by omega)
  · intro i hlo hhi
    exact decimalSigned_length_le i 19 (by decide) (by omega)
  · intro n hn
    have h10 := decimal_length_le n hn
    refine ⟨by simp only [kMaxNumberSize, MaxDecimalDigitsIn4_kUnsigned]; omega, ?_⟩
    rw [SNPrintF_fits _ n hn (by simp)]

/-! ## The buffer position after an abort -/

/-- Claim C28, at the input where the code departs from it: chunk size 2, a sink that
answers `kAbort`, `AddString("ab")` and then `AddString("cd")`. Both return; the first
chunk is refused, the second fills the buffer and is not written, and the position is
left at the chunk size, 2. The store of the next `AddCharacter` is then past the end of
the buffer. -/
theorem C28_position_at_chunk_size_after_abort :
    runOps abortingSink 2 [WriterOp.addString "ab".toList, WriterOp.addString "cd".toList]
        (OutputStreamWriter.new 2) =
      Outcome.done ⟨2, ['c', 'd'], 2, true, [SinkEvent.write ['a', 'b'] WriteResult.kAbort]⟩ ∧
    AddCharacter abortingSink 'e'
        ⟨2, ['c', 'd'], 2, true, [SinkEvent.write ['a', 'b'] WriteResult.kAbort]⟩ =
      Outcome.outOfBounds
        ⟨2, ['c', 'd'], 2, true, [SinkEvent.write ['a', 'b'] WriteResult.kAbort]⟩ := by
  decide

theorem take_set_succ (l : List Char) (n : Nat) (c : Char) (h : n < l.length) :
    (l.set n c).take (n + 1) = l.take n ++ [c] := by
  induction l generalizing n with
  | nil => simp at h
  | cons x xs ih =>
    cases n with
    | zero => simp
    | succ m =>
      simp only [List.length_cons, Nat.add_lt_add_iff_right] at h
      simp [List.set, ih m h]

theorem nulFree_new (C : Nat) : (OutputStreamWriter.new C).nulFree := by
  constructor
  · intro c hc
    simp [OutputStreamWriter.new] at hc
  · intro b hb
    simp [OutputStreamWriter.new, writesOf] at hb

theorem MaybeWriteChunk_nulFree (sink : Sink) (w : OutputStreamWriter) (h : w.nulFree) :
    (MaybeWriteChunk sink w).nulFree := by
  unfold MaybeWriteChunk
  split
  · unfold WriteChunk
    split
    · exact h
    · constructor
      · intro c hc
        simp at hc
      · intro b hb
        simp only [writesOf_append, writesOf_write, List.mem_append, List.mem_singleton] at hb
        rcases hb with hb | hb
        · exact h.2 b hb
        · rw [hb]; exact h.1
  · exact h

theorem AddSubstringBody_nulFree (sink : Sink) (w : OutputStreamWriter) (s : List Char)
    (hinv : w.invariant) (h : w.nulFree) (hs : ∀ c ∈ s, c ≠ '\x00') :
    (AddSubstringBody sink w s).1.nulFree ∧ ∀ c ∈ (AddSubstringBody sink w s).2, c ≠ '\x00' := by
  obtain ⟨hwf, hpos, _, _⟩ := hinv
  have hk : (s.take (min (w.chunk_size - w.chunk_pos) s.length)).length =
      min (w.chunk_size - w.chunk_pos) s.length := by
    simp only [List.length_take]; omega
  have htake := take_MemCopy w.chunk w.chunk_pos
    (s.take (min (w.chunk_size - w.chunk_pos) s.length)) (by omega)
  rw [hk] at htake
  constructor
  · unfold AddSubstringBody
    apply MaybeWriteChunk_nulFree
    constructor
    · intro c hc
      simp only [] at hc
      rw [htake] at hc
      rcases List.mem_append.mp hc with hc | hc
      · exact h.1 c hc
      · exact hs c (List.mem_of_mem_take hc)
    · exact h.2
  · intro c hc
    exact hs c (List.mem_of_mem_drop hc)

theorem AddSubstringLoop_nulFree (sink : Sink) (fuel : Nat) :
    ∀ (w : OutputStreamWriter) (s : List Char), 1 ≤ w.chunk_size → w.invariant → w.nulFree →
      (∀ c ∈ s, c ≠ '\x00') → (AddSubstringLoop sink fuel w s).writer.nulFree := by
  induction fuel with
  | zero =>
    intro w s _ _ h _
    cases s <;> exact h
  | succ fuel ih =>
    intro w s hC hinv h hs
    cases s with
    | nil => exact h
    | cons c cs =>
      have hb := AddSubstringBody_nulFree sink w (c :: cs) hinv h hs
      have hi := AddSubstringBody_invariant sink w (c :: cs) hC hinv
      simp only [AddSubstringLoop]
      exact ih _ _ (by rw [hi.2]; exact hC) hi.1 hb.1 hb.2

theorem cString_no_nul (s : List Char) : ∀ c ∈ cString s, c ≠ '\x00' := by
  intro c hc
  have := List.mem_takeWhile_imp hc
  simpa using this

theorem take_le_StrLength_no_nul (s : List Char) (n : Nat) (hn : n ≤ StrLength s) :
    ∀ c ∈ s.take n, c ≠ '\x00' := by
  intro c hc
  have h1 : s.take n = (cString s).take n := by
    have h2 : cString s = s.take (StrLength s) := (take_length_takeWhile _ s).symm
    rw [h2, List.take_take, Nat.min_eq_left hn]
  rw [h1] at hc
  exact cString_no_nul s c (List.mem_of_mem_take hc)

theorem AddSubstring_nulFree (sink : Sink) (fuel : Nat) (s : List Char) (n : Int)
    (hn : n ≤ (StrLength s : Int)) (w : OutputStreamWriter) (hC : 1 ≤ w.chunk_size)
    (hinv : w.invariant) (h : w.nulFree) :
    (AddSubstring sink fuel s n w).writer.nulFree := by
  unfold AddSubstring
  split
  · exact h
  · exact AddSubstringLoop_nulFree sink fuel w _ hC hinv h
      (take_le_StrLength_no_nul s n.toNat (by omega))

theorem AddCharacter_nulFree (sink : Sink) (c : Char) (hc : c ≠ '\x00')
    (w : OutputStreamWriter) (hinv : w.invariant) (h : w.nulFree) :
    (AddCharacter sink c w).writer.nulFree := by
  unfold AddCharacter
  split
  next hlt =>
    simp only [Outcome.writer_done]
    apply MaybeWriteChunk_nulFree
    constructor
    · intro x hx
      simp only [] at hx
      rw [take_set_succ _ _ _ (by rw [hinv.1]; exact hlt)] at hx
      rcases List.mem_append.mp hx with hx | hx
      · exact h.1 x hx
      · rw [List.mem_singleton.mp hx]; exact hc
    · exact h.2
  next => exact h

theorem AddNumberImpl_nulFree (sink : Sink) (fuel : Nat) (n : Nat) (hn : n < 2 ^ 32)
    (w : OutputStreamWriter) (hC : 1 ≤ w.chunk_size) (hinv : w.invariant) (h : w.nulFree) :
    (AddNumberImpl sink fuel n w).writer.nulFree := by
  by_cases hroom : w.chunk_size - w.chunk_pos ≥ kMaxNumberSize
  · obtain ⟨w', hrun, hev, _, _, htake⟩ := AddNumberImpl_in_place sink fuel n hn w hinv.1 hroom
    rw [hrun]
    simp only [Outcome.writer_done]
    constructor
    · intro c hc
      rw [htake] at hc
      rcases List.mem_append.mp hc with hc | hc
      · exact h.1 c hc
      · exact decimal_no_nul n c hc
    · rw [hev]; exact h.2
  · rw [AddNumberImpl_scratch sink fuel n hn w hroom]
    exact AddSubstring_nulFree sink fuel _ _ (le_refl _) w hC hinv h

theorem WriterOp.apply_nulFree (sink : Sink) (fuel : Nat) (op : WriterOp) (hop : op.nulFree)
    (w : OutputStreamWriter) (hC : 1 ≤ w.chunk_size) (hinv : w.invariant) (h : w.nulFree) :
    (op.apply sink fuel w).writer.nulFree := by
  cases op with
  | addCharacter c => exact AddCharacter_nulFree sink c hop w hinv h
  | addString s => exact AddSubstring_nulFree sink fuel s _ (le_refl _) w hC hinv h
  | addSubstring s n => exact AddSubstring_nulFree sink fuel s n hop w hC hinv h
  | addNumber n =>
    exact AddNumberImpl_nulFree sink fuel _ (Nat.mod_lt _ (by decide)) w hC hinv h

theorem runOps_nulFree (sink : Sink) (fuel : Nat) (ops : List WriterOp) :
    ∀ (w : OutputStreamWriter), (∀ op ∈ ops, op.nulFree) → 1 ≤ w.chunk_size → w.invariant →
      w.nulFree → (runOps sink fuel ops w).writer.nulFree := by
  induction ops with
  | nil => intro w _ _ _ h; exact h
  | cons op ops ih =>
    intro w hops hC hinv h
    have h1 := WriterOp.apply_nulFree sink fuel op (hops op (List.mem_cons_self _ _)) w hC hinv h
    have h2 := WriterOp.apply_invariant sink fuel op w hC hinv
    simp only [runOps]
    cases hop : op.apply sink fuel w with
    | done w1 =>
      rw [hop] at h1 h2
      simp only [Outcome.writer_done] at h1 h2
      simp only [Outcome.bind_done]
      exact ih w1 (fun o ho => hops o (List.mem_cons_of_mem _ ho)) (by rw [h2.2]; exact hC)
        h2.1 h1
    | outOfFuel w1 => rw [hop] at h1; exact h1
    | outOfBounds w1 => rw [hop] at h1; exact h1

theorem Finalize_nulFree (sink : Sink) (w : OutputStreamWriter) (h : w.nulFree) :
    ∀ b ∈ writesOf (Finalize sink w).events, ∀ c ∈ b, c ≠ '\x00' := by
  cases hab : w.aborted with
  | true => rw [Finalize_aborted sink w hab]; exact h.2
  | false =>
    intro b hb
    rw [Finalize_events sink w hab] at hb
    simp only [writesOf_append, writesOf_endOfStream, List.append_nil, List.mem_append] at hb
    rcases hb with hb | hb
    · exact h.2 b hb
    · split at hb
      · simp [writesOf] at hb
      · simp only [writesOf_write, List.mem_singleton] at hb
        rw [hb]; exact h.1

/-- Claim C21: no NUL byte reaches the sink. For every chunk size `C ≥ 1`, every sink behaviour
and every sequence of appends of NUL-free content followed by `Finalize`, no byte of
any write call is NUL, whether or not the run returns; this although the in-place path
of `AddNumber` stores a terminating NUL into the chunk buffer just past the digits. -/
theorem C21_no_nul_reaches_the_sink (sink : Sink) (fuel : Nat) (C : Nat) (hC : 1 ≤ C)
    (ops : List WriterOp) (hops : ∀ op ∈ ops, op.nulFree) :
    ∀ b ∈ writesOf (writerLife sink fuel C ops).writer.events, ∀ c ∈ b, c ≠ '\x00' := by
  have h := runOps_nulFree sink fuel ops (OutputStreamWriter.new C) hops hC
    (invariant_new C hC) (nulFree_new C)
  unfold writerLife
  cases hrun : runOps sink fuel ops (OutputStreamWriter.new C) with
  | done w =>
    rw [hrun] at h
    simp only [Outcome.bind_done, Outcome.writer_done] at h ⊢
    exact Finalize_nulFree sink w h
  | outOfFuel w => rw [hrun] at h; exact h.2
  | outOfBounds w => rw [hrun] at h; exact h.2
/-- Claim C21 at chunk size 12, where `AddNumber` takes the in-place path, over a sink that
aborts on its second write. -/
theorem C21_no_nul_reaches_the_sink_witness :
    (writesOf (writerLife (abortAt 2) 30 12
        [WriterOp.addNumber 7, WriterOp.addCharacter 'x',
          WriterOp.addString "hello world, again".toList]).writer.events).all
      (fun b => b.all (fun c => c != '\x00')) = true :=
  List.all_eq_true.mpr fun b hb => List.all_eq_true.mpr fun c hc => by
    simpa using
      C21_no_nul_reaches_the_sink (abortAt 2) 30 12 (by decide)
        [WriterOp.addNumber 7, WriterOp.addCharacter 'x',
          WriterOp.addString "hello world, again".toList]
        (by simp [WriterOp.nulFree]) b hb c hc

/-! ## Writes made by append operations carry full chunks -/

theorem fullChunkWrites_refl (C : Nat) (w : OutputStreamWriter) : fullChunkWrites C w w :=
  ⟨[], by simp, by simp⟩

theorem fullChunkWrites_of_events (C : Nat) (w w' : OutputStreamWriter)
    (h : w'.events = w.events) : fullChunkWrites C w w' :=
  ⟨[], by simp [h], by simp⟩

theorem fullChunkWrites_trans (C : Nat) (w1 w2 w3 : OutputStreamWriter)
    (h12 : fullChunkWrites C w1 w2) (h23 : fullChunkWrites C w2 w3) :
    fullChunkWrites C w1 w3 := by
  obtain ⟨c1, he1, hl1⟩ := h12
  obtain ⟨c2, he2, hl2⟩ := h23
  refine ⟨c1 ++ c2, by rw [he2, he1, List.map_append, List.append_assoc], ?_⟩
  intro x hx
  rcases List.mem_append.mp hx with hx | hx
  · exact hl1 x hx
  · exact hl2 x hx

/-- The moment of a write: `MaybeWriteChunk` writes exactly when the position has reached the
chunk size and the writer has not aborted; the write carries the whole buffer, and the
position is 0 after it. -/
theorem MaybeWriteChunk_cases (sink : Sink) (w : OutputStreamWriter) :
    (w.chunk_pos ≠ w.chunk_size → MaybeWriteChunk sink w = w) ∧
    (w.aborted = true → MaybeWriteChunk sink w = w) ∧
    (w.chunk_pos = w.chunk_size → w.aborted = false →
      (MaybeWriteChunk sink w).events =
          w.events ++ [SinkEvent.write (w.chunk.take w.chunk_size)
            (sink w.events (w.chunk.take w.chunk_size))] ∧
        (MaybeWriteChunk sink w).chunk_pos = 0) := by
  refine ⟨fun h => by simp [MaybeWriteChunk, h], fun h => MaybeWriteChunk_aborted sink w h, ?_⟩
  intro hfull hab
  simp [MaybeWriteChunk, WriteChunk, hfull, hab]

theorem MaybeWriteChunk_fullChunk (sink : Sink) (w0 w : OutputStreamWriter)
    (hev : w.events = w0.events) (hwf : w.chunk.length = w.chunk_size) :
    fullChunkWrites w.chunk_size w0 (MaybeWriteChunk sink w) := by
  by_cases hfull : w.chunk_pos = w.chunk_size
  · cases hab : w.aborted with
    | true =>
      rw [MaybeWriteChunk_aborted sink w hab]
      exact fullChunkWrites_of_events _ _ _ hev
    | false =>
      obtain ⟨he, _⟩ := (MaybeWriteChunk_cases sink w).2.2 hfull hab
      refine ⟨[(w.chunk.take w.chunk_size, sink w.events (w.chunk.take w.chunk_size))], ?_, ?_⟩
      · rw [he, hev]; rfl
      · intro x hx
        rw [List.mem_singleton.mp hx]
        simp [hwf]
  · rw [(MaybeWriteChunk_cases sink w).1 hfull]
    exact fullChunkWrites_of_events _ _ _ hev

theorem AddSubstringBody_fullChunk (sink : Sink) (w : OutputStreamWriter) (s : List Char)
    (hinv : w.invariant) :
    fullChunkWrites w.chunk_size w (AddSubstringBody sink w s).1 := by
  obtain ⟨hwf, hpos, _, _⟩ := hinv
  unfold AddSubstringBody
  exact MaybeWriteChunk_fullChunk sink w _ rfl
    (by
      simp only []
      rw [length_MemCopy]
      · exact hwf
      · simp only [List.length_take]; omega)

theorem AddSubstringLoop_fullChunk (sink : Sink) (fuel : Nat) :
    ∀ (w : OutputStreamWriter) (s : List Char), 1 ≤ w.chunk_size → w.invariant →
      fullChunkWrites w.chunk_size w (AddSubstringLoop sink fuel w s).writer := by
  induction fuel with
  | zero =>
    intro w s _ _
    cases s <;> exact fullChunkWrites_refl _ _
  | succ fuel ih =>
    intro w s hC hinv
    cases s with
    | nil => exact fullChunkWrites_refl _ _
    | cons c cs =>
      have hb := AddSubstringBody_fullChunk sink w (c :: cs) hinv
      have hi := AddSubstringBody_invariant sink w (c :: cs) hC hinv
      have hrest := ih (AddSubstringBody sink w (c :: cs)).1 (AddSubstringBody sink w (c :: cs)).2
        (by rw [hi.2]; exact hC) hi.1
      rw [hi.2] at hrest
      simp only [AddSubstringLoop]
      exact fullChunkWrites_trans _ _ _ _ hb hrest

theorem AddSubstring_fullChunk (sink : Sink) (fuel : Nat) (s : List Char) (n : Int)
    (w : OutputStreamWriter) (hC : 1 ≤ w.chunk_size) (hinv : w.invariant) :
    fullChunkWrites w.chunk_size w (AddSubstring sink fuel s n w).writer := by
  unfold AddSubstring
  split
  · exact fullChunkWrites_refl _ _
  · exact AddSubstringLoop_fullChunk sink fuel w _ hC hinv

theorem WriterOp.apply_fullChunk (sink : Sink) (fuel : Nat) (op : WriterOp)
    (w : OutputStreamWriter) (hC : 1 ≤ w.chunk_size) (hinv : w.invariant) :
    fullChunkWrites w.chunk_size w (op.apply sink fuel w).writer := by
  cases op with
  | addCharacter c =>
    simp only [WriterOp.apply, AddCharacter]
    split
    · exact MaybeWriteChunk_fullChunk sink w _ rfl (by simp only [List.length_set]; exact hinv.1)
    · exact fullChunkWrites_refl _ _
  | addString s => exact AddSubstring_fullChunk sink fuel s _ w hC hinv
  | addSubstring s n => exact AddSubstring_fullChunk sink fuel s n w hC hinv
  | addNumber n =>
    have hn : n % 2 ^ 32 < 2 ^ 32 := Nat.mod_lt _ (by decide)
    simp only [WriterOp.apply, AddNumber]
    by_cases hroom : w.chunk_size - w.chunk_pos ≥ kMaxNumberSize
    · obtain ⟨w', hrun, hev, _, _, _⟩ :=
        AddNumberImpl_in_place sink fuel _ hn w hinv.1 hroom
      rw [hrun]
      exact fullChunkWrites_of_events _ _ _ hev
    · rw [AddNumberImpl_scratch sink fuel _ hn w hroom]
      exact AddSubstring_fullChunk sink fuel _ _ w hC hinv

theorem runOps_fullChunk (sink : Sink) (fuel : Nat) (ops : List WriterOp) :
    ∀ (w : OutputStreamWriter), 1 ≤ w.chunk_size → w.invariant →
      fullChunkWrites w.chunk_size w (runOps sink fuel ops w).writer := by
  induction ops with
  | nil => intro w _ _; exact fullChunkWrites_refl _ _
  | cons op ops ih =>
    intro w hC hinv
    have h1 := WriterOp.apply_fullChunk sink fuel op w hC hinv
    have h2 := WriterOp.apply_invariant sink fuel op w hC hinv
    simp only [runOps]
    cases hop : op.apply sink fuel w with
    | done w1 =>
      rw [hop] at h1 h2
      simp only [Outcome.writer_done] at h1 h2
      simp only [Outcome.bind_done]
      have h3 := ih w1 (by rw [h2.2]; exact hC) h2.1
      rw [h2.2] at h3
      exact fullChunkWrites_trans _ _ _ _ h1 h3
    | outOfFuel w1 => rw [hop] at h1; exact h1
    | outOfBounds w1 => rw [hop] at h1; exact h1

/-! ## A sink that aborts at its k-th write, against one that never aborts -/

theorem abortAt_of_ne (k : Nat) (log : List SinkEvent) (b : List Char)
    (h : (writesOf log).length + 1 ≠ k) : abortAt k log b = WriteResult.kContinue := by
  simp [abortAt, h]

theorem abortAt_of_eq (k : Nat) (log : List SinkEvent) (b : List Char)
    (h : (writesOf log).length + 1 = k) : abortAt k log b = WriteResult.kAbort := by
  simp [abortAt, h]

theorem writesOf_snoc_write (log : List SinkEvent) (b : List Char) (r : WriteResult) :
    writesOf (log ++ [SinkEvent.write b r]) = writesOf log ++ [b] := by
  rw [writesOf_append]; rfl

theorem writesOf_snoc_endOfStream (log : List SinkEvent) :
    writesOf (log ++ [SinkEvent.endOfStream]) = writesOf log := by
  rw [writesOf_append]; simp [writesOf]

/-! ### The writes of a run only grow -/

theorem WriteChunk_writes_extend (sink : Sink) (w : OutputStreamWriter) :
    ∃ t, writesOf (WriteChunk sink w).events = writesOf w.events ++ t := by
  unfold WriteChunk
  split
  · exact ⟨[], by simp⟩
  · exact ⟨[w.chunk.take w.chunk_pos], writesOf_snoc_write _ _ _⟩

theorem MaybeWriteChunk_writes_extend (sink : Sink) (w : OutputStreamWriter) :
    ∃ t, writesOf (MaybeWriteChunk sink w).events = writesOf w.events ++ t := by
  unfold MaybeWriteChunk
  split
  · exact WriteChunk_writes_extend sink w
  · exact ⟨[], by simp⟩

theorem AddSubstringBody_writes_extend (sink : Sink) (w : OutputStreamWriter) (s : List Char) :
    ∃ t, writesOf (AddSubstringBody sink w s).1.events = writesOf w.events ++ t := by
  unfold AddSubstringBody
  exact MaybeWriteChunk_writes_extend sink _

theorem AddSubstringLoop_writes_extend (sink : Sink) (fuel : Nat) :
    ∀ (w : OutputStreamWriter) (s : List Char),
      ∃ t, writesOf (AddSubstringLoop sink fuel w s).writer.events = writesOf w.events ++ t := by
  induction fuel with
  | zero =>
    intro w s
    cases s <;> exact ⟨[], by simp [AddSubstringLoop, Outcome.writer]⟩
  | succ fuel ih =>
    intro w s
    cases s with
    | nil => exact ⟨[], by simp [AddSubstringLoop, Outcome.writer]⟩
    | cons c cs =>
      obtain ⟨t1, h1⟩ := AddSubstringBody_writes_extend sink w (c :: cs)
      obtain ⟨t2, h2⟩ := ih (AddSubstringBody sink w (c :: cs)).1
        (AddSubstringBody sink w (c :: cs)).2
      simp only [AddSubstringLoop]
      exact ⟨t1 ++ t2, by rw [h2, h1, List.append_assoc]⟩

theorem AddSubstring_writes_extend (sink : Sink) (fuel : Nat) (s : List Char) (n : Int)
    (w : OutputStreamWriter) :
    ∃ t, writesOf (AddSubstring sink fuel s n w).writer.events = writesOf w.events ++ t := by
  unfold AddSubstring
  split
  · exact ⟨[], by simp [Outcome.writer]⟩
  · exact AddSubstringLoop_writes_extend sink fuel w _

theorem AddCharacter_writes_extend (sink : Sink) (c : Char) (w : OutputStreamWriter) :
    ∃ t, writesOf (AddCharacter sink c w).writer.events = writesOf w.events ++ t := by
  unfold AddCharacter
  split
  · exact MaybeWriteChunk_writes_extend sink _
  · exact ⟨[], by simp [Outcome.writer]⟩

theorem AddNumberImpl_writes_extend (sink : Sink) (fuel : Nat) (n : Nat)
    (w : OutputStreamWriter) :
    ∃ t, writesOf (AddNumberImpl sink fuel n w).writer.events = writesOf w.events ++ t := by
  unfold AddNumberImpl
  split
  · exact MaybeWriteChunk_writes_extend sink _
  · exact AddSubstring_writes_extend sink fuel _ _ w

theorem WriterOp.apply_writes_extend (sink : Sink) (fuel : Nat) (op : WriterOp)
    (w : OutputStreamWriter) :
    ∃ t, writesOf (op.apply sink fuel w).writer.events = writesOf w.events ++ t := by
  cases op with
  | addCharacter c => exact AddCharacter_writes_extend sink c w
  | addString s => exact AddSubstring_writes_extend sink fuel s _ w
  | addSubstring s n => exact AddSubstring_writes_extend sink fuel s n w
  | addNumber n => exact AddNumberImpl_writes_extend sink fuel _ w

theorem runOps_writes_extend (sink : Sink) (fuel : Nat) (ops : List WriterOp) :
    ∀ w : OutputStreamWriter,
      ∃ t, writesOf (runOps sink fuel ops w).writer.events = writesOf w.events ++ t := by
  induction ops with
  | nil => intro w; exact ⟨[], by simp [runOps, Outcome.writer]⟩
  | cons op ops ih =>
    intro w
    obtain ⟨t1, h1⟩ := WriterOp.apply_writes_extend sink fuel op w
    simp only [runOps]
    cases hop : op.apply sink fuel w with
    | done w1 =>
      rw [hop] at h1
      obtain ⟨t2, h2⟩ := ih w1
      exact ⟨t1 ++ t2, by
        simp only [Outcome.bind]
        rw [h2]
        simp only [Outcome.writer] at h1
        rw [h1, List.append_assoc]⟩
    | outOfFuel w1 => rw [hop] at h1; exact ⟨t1, h1⟩
    | outOfBounds w1 => rw [hop] at h1; exact ⟨t1, h1⟩

theorem Finalize_writes_extend (sink : Sink) (w : OutputStreamWriter) :
    ∃ t, writesOf (Finalize sink w).events = writesOf w.events ++ t := by
  unfold Finalize
  split
  · exact ⟨[], by simp⟩
  · simp only []
    rw [writesOf_snoc_endOfStream]
    split
    · exact WriteChunk_writes_extend sink w
    · exact ⟨[], by simp⟩

/-! ### An aborted run makes no write -/

theorem runOps_aborted (sink : Sink) (fuel : Nat) (ops : List WriterOp) :
    ∀ w : OutputStreamWriter, w.aborted = true →
      (runOps sink fuel ops w).writer.aborted = true ∧
        (runOps sink fuel ops w).writer.events = w.events := by
  induction ops with
  | nil => intro w h; exact ⟨h, rfl⟩
  | cons op ops ih =>
    intro w h
    have h1 := WriterOp.apply_aborted sink fuel op w h
    simp only [runOps]
    cases hop : op.apply sink fuel w with
    | done w1 =>
      rw [hop] at h1
      simp only [Outcome.writer] at h1
      have h2 := ih w1 h1.1
      simp only [Outcome.bind]
      exact ⟨h2.1, h2.2.trans h1.2⟩
    | outOfFuel w1 => rw [hop] at h1; exact h1
    | outOfBounds w1 => rw [hop] at h1; exact h1

/-- After the abort, the aborted side makes no write and the other side only adds writes. -/
theorem afterAbort_step (k : Nat) (wa wc wa' wc' : OutputStreamWriter)
    (h : afterAbort k wa wc)
    (ha : wa'.aborted = true ∧ wa'.events = wa.events)
    (hc : ∃ t, writesOf wc'.events = writesOf wc.events ++ t) :
    afterAbort k wa' wc' := by
  obtain ⟨_, hlen, t, ht⟩ := h
  obtain ⟨t', ht'⟩ := hc
  refine ⟨ha.1, by rw [ha.2]; exact hlen, t ++ t', ?_⟩
  rw [ht', ht, ha.2, List.append_assoc]

/-! ### The two runs side by side -/

theorem WriteChunk_rel (k : Nat) (w : OutputStreamWriter) (hb : beforeAbort k w) :
    (WriteChunk (abortAt k) w = WriteChunk continuingSink w ∧
        beforeAbort k (WriteChunk (abortAt k) w)) ∨
      afterAbort k (WriteChunk (abortAt k) w) (WriteChunk continuingSink w) := by
  obtain ⟨hab, hlen⟩ := hb
  by_cases hk : (writesOf w.events).length + 1 = k
  · right
    refine ⟨?_, ?_, [], ?_⟩
    · simp [WriteChunk, hab, abortAt_of_eq k _ _ hk]
    · simp [WriteChunk, hab, writesOf_snoc_write, hk]
    · simp [WriteChunk, hab, writesOf_snoc_write]
  · left
    have hsame : WriteChunk (abortAt k) w = WriteChunk continuingSink w := by
      simp [WriteChunk, hab, abortAt_of_ne k _ _ hk, continuingSink]
    refine ⟨hsame, ?_⟩
    rw [hsame]
    refine ⟨by simp [WriteChunk, hab, continuingSink], ?_⟩
    simp only [WriteChunk, hab, Bool.false_eq_true, if_false, writesOf_snoc_write,
      List.length_append, List.length_singleton]
    omega

theorem MaybeWriteChunk_rel (k : Nat) (w : OutputStreamWriter) (hb : beforeAbort k w) :
    (MaybeWriteChunk (abortAt k) w = MaybeWriteChunk continuingSink w ∧
        beforeAbort k (MaybeWriteChunk (abortAt k) w)) ∨
      afterAbort k (MaybeWriteChunk (abortAt k) w) (MaybeWriteChunk continuingSink w) := by
  unfold MaybeWriteChunk
  split
  · exact WriteChunk_rel k w hb
  · exact Or.inl ⟨rfl, hb⟩

theorem abortRel_done_of_rel (k : Nat) (wa wc : OutputStreamWriter)
    (h : (wa = wc ∧ beforeAbort k wa) ∨ afterAbort k wa wc) :
    abortRel k (Outcome.done wa) (Outcome.done wc) := by
  rcases h with ⟨he, hb⟩ | h
  · exact Or.inl ⟨by rw [he], hb⟩
  · exact Or.inr h

theorem AddSubstringLoop_rel (k : Nat) (fuel : Nat) :
    ∀ (w : OutputStreamWriter) (s : List Char), beforeAbort k w →
      abortRel k (AddSubstringLoop (abortAt k) fuel w s)
        (AddSubstringLoop continuingSink fuel w s) := by
  induction fuel with
  | zero =>
    intro w s hb
    cases s <;> exact Or.inl ⟨rfl, hb⟩
  | succ fuel ih =>
    intro w s hb
    cases s with
    | nil => exact Or.inl ⟨rfl, hb⟩
    | cons c cs =>
      simp only [AddSubstringLoop]
      have hrel : ((AddSubstringBody (abortAt k) w (c :: cs)).1 =
            (AddSubstringBody continuingSink w (c :: cs)).1 ∧
          beforeAbort k (AddSubstringBody (abortAt k) w (c :: cs)).1) ∨
          afterAbort k (AddSubstringBody (abortAt k) w (c :: cs)).1
            (AddSubstringBody continuingSink w (c :: cs)).1 := by
        unfold AddSubstringBody
        exact MaybeWriteChunk_rel k _ hb
      have hrest : (AddSubstringBody (abortAt k) w (c :: cs)).2 =
          (AddSubstringBody continuingSink w (c :: cs)).2 := rfl
      rw [hrest]
      rcases hrel with ⟨he, hb1⟩ | hafter
      · rw [he] at hb1 ⊢
        exact ih _ _ hb1
      · exact Or.inr (afterAbort_step k _ _ _ _ hafter
          (AddSubstringLoop_aborted _ fuel _ _ hafter.1)
          (AddSubstringLoop_writes_extend _ fuel _ _))

theorem AddSubstring_rel (k : Nat) (fuel : Nat) (s : List Char) (n : Int)
    (w : OutputStreamWriter) (hb : beforeAbort k w) :
    abortRel k (AddSubstring (abortAt k) fuel s n w) (AddSubstring continuingSink fuel s n w) := by
  unfold AddSubstring
  split
  · exact Or.inl ⟨rfl, hb⟩
  · exact AddSubstringLoop_rel k fuel w _ hb

theorem AddCharacter_rel (k : Nat) (c : Char) (w : OutputStreamWriter)
    (hb : beforeAbort k w) :
    abortRel k (AddCharacter (abortAt k) c w) (AddCharacter continuingSink c w) := by
  unfold AddCharacter
  split
  · exact abortRel_done_of_rel k _ _ (MaybeWriteChunk_rel k _ hb)
  · exact Or.inl ⟨rfl, hb⟩

theorem AddNumberImpl_rel (k : Nat) (fuel : Nat) (n : Nat) (w : OutputStreamWriter)
    (hb : beforeAbort k w) :
    abortRel k (AddNumberImpl (abortAt k) fuel n w) (AddNumberImpl continuingSink fuel n w) := by
  unfold AddNumberImpl
  split
  · exact abortRel_done_of_rel k _ _ (MaybeWriteChunk_rel k _ hb)
  · exact AddSubstring_rel k fuel _ _ w hb

theorem WriterOp.apply_rel (k : Nat) (fuel : Nat) (op : WriterOp) (w : OutputStreamWriter)
    (hb : beforeAbort k w) :
    abortRel k (op.apply (abortAt k) fuel w) (op.apply continuingSink fuel w) := by
  cases op with
  | addCharacter c => exact AddCharacter_rel k c w hb
  | addString s => exact AddSubstring_rel k fuel s _ w hb
  | addSubstring s n => exact AddSubstring_rel k fuel s n w hb
  | addNumber n => exact AddNumberImpl_rel k fuel _ w hb

/-- Sequencing after the abort: whatever follows, the aborted side makes no write and the
other side only adds writes. -/
theorem afterAbort_bind (k : Nat) (oa oc : Outcome) (fa fc : OutputStreamWriter → Outcome)
    (h : afterAbort k oa.writer oc.writer)
    (ha : ∀ w : OutputStreamWriter, w.aborted = true →
      (fa w).writer.aborted = true ∧ (fa w).writer.events = w.events)
    (hc : ∀ w : OutputStreamWriter, ∃ t, writesOf (fc w).writer.events = writesOf w.events ++ t) :
    afterAbort k (oa.bind fa).writer (oc.bind fc).writer := by
  have hA : (oa.bind fa).writer.aborted = true ∧ (oa.bind fa).writer.events = oa.writer.events := by
    cases oa with
    | done w => exact ha w h.1
    | outOfFuel w => exact ⟨h.1, rfl⟩
    | outOfBounds w => exact ⟨h.1, rfl⟩
  have hC : ∃ t, writesOf (oc.bind fc).writer.events = writesOf oc.writer.events ++ t := by
    cases oc with
    | done w => exact hc w
    | outOfFuel w => exact ⟨[], by simp [Outcome.bind]⟩
    | outOfBounds w => exact ⟨[], by simp [Outcome.bind]⟩
  exact afterAbort_step k _ _ _ _ h hA hC

theorem runOps_rel (k : Nat) (fuel : Nat) (ops : List WriterOp) :
    ∀ w : OutputStreamWriter, beforeAbort k w →
      abortRel k (runOps (abortAt k) fuel ops w) (runOps continuingSink fuel ops w) := by
  induction ops with
  | nil => intro w hb; exact Or.inl ⟨rfl, hb⟩
  | cons op ops ih =>
    intro w hb
    simp only [runOps]
    rcases WriterOp.apply_rel k fuel op w hb with ⟨he, hb1⟩ | hafter
    · rw [← he]
      cases hop : op.apply (abortAt k) fuel w with
      | done w1 =>
        rw [hop] at hb1
        exact ih w1 hb1
      | outOfFuel w1 => rw [hop] at hb1; exact Or.inl ⟨rfl, hb1⟩
      | outOfBounds w1 => rw [hop] at hb1; exact Or.inl ⟨rfl, hb1⟩
    · exact Or.inr (afterAbort_bind k _ _ _ _ hafter
        (runOps_aborted _ fuel ops) (runOps_writes_extend _ fuel ops))

theorem Finalize_rel (k : Nat) (w : OutputStreamWriter) (hb : beforeAbort k w) :
    (Finalize (abortAt k) w = Finalize continuingSink w ∧
        beforeAbort k (Finalize (abortAt k) w)) ∨
      afterAbort k (Finalize (abortAt k) w) (Finalize continuingSink w) := by
  have hab := hb.1
  by_cases hpos : w.chunk_pos = 0
  · left
    have hsame : Finalize (abortAt k) w = Finalize continuingSink w := by
      simp [Finalize, hab, hpos]
    refine ⟨hsame, ?_⟩
    refine ⟨by simp [Finalize, hab, hpos], ?_⟩
    simp only [Finalize, hab, hpos, Bool.false_eq_true, if_false, ne_eq, not_true_eq_false,
      writesOf_snoc_endOfStream]
    exact hb.2
  · rcases WriteChunk_rel k w hb with ⟨he, hb1⟩ | hafter
    · left
      have hsame : Finalize (abortAt k) w = Finalize continuingSink w := by
        simp only [Finalize, hab, hpos, Bool.false_eq_true, if_false, ne_eq, not_false_eq_true,
          if_true, he]
      refine ⟨hsame, ?_⟩
      simp only [Finalize, hab, hpos, Bool.false_eq_true, if_false, ne_eq, not_false_eq_true,
        if_true]
      exact ⟨hb1.1, by simp only [writesOf_snoc_endOfStream]; exact hb1.2⟩
    · right
      simp only [Finalize, hab, hpos, Bool.false_eq_true, if_false, ne_eq, not_false_eq_true,
        if_true]
      obtain ⟨h1, h2, t, ht⟩ := hafter
      exact ⟨h1, by simp only [writesOf_snoc_endOfStream]; exact h2, t,
        by simp only [writesOf_snoc_endOfStream]; exact ht⟩

theorem writerLife_rel (k : Nat) (hk : 1 ≤ k) (fuel C : Nat) (ops : List WriterOp) :
    abortRel k (writerLife (abortAt k) fuel C ops) (writerLife continuingSink fuel C ops) := by
  have hnew : beforeAbort k (OutputStreamWriter.new C) := ⟨rfl, hk⟩
  unfold writerLife
  rcases runOps_rel k fuel ops _ hnew with ⟨he, hb1⟩ | hafter
  · rw [← he]
    cases hop : runOps (abortAt k) fuel ops (OutputStreamWriter.new C) with
    | done w1 =>
      rw [hop] at hb1
      exact abortRel_done_of_rel k _ _ (Finalize_rel k w1 hb1)
    | outOfFuel w1 => rw [hop] at hb1; exact Or.inl ⟨rfl, hb1⟩
    | outOfBounds w1 => rw [hop] at hb1; exact Or.inl ⟨rfl, hb1⟩
  · exact Or.inr (afterAbort_bind k _ _ _ _ hafter
      (fun w h => by rw [Finalize_aborted _ w h]; exact ⟨h, rfl⟩)
      (fun w => Finalize_writes_extend _ w))

theorem writes_take_of_abortRel (k : Nat) (oa oc : Outcome) (h : abortRel k oa oc) :
    writesOf oa.writer.events = (writesOf oc.writer.events).take k := by
  rcases h with ⟨he, hb⟩ | ⟨_, hlen, t, ht⟩
  · rw [← he, List.take_of_length_le (Nat.le_of_lt hb.2)]
  · rw [ht, ← hlen, List.take_left]

/-- Claim C29 (abort yields the first k writes): for every sequence of append operations,
every chunk size, every fuel and every `k ≥ 1`, the write calls received by the sink
that answers `kAbort` to its `k`-th write are the first `k` write calls (same bytes,
same order) which the same sequence makes against the sink that never aborts (all of
them when there are fewer than `k`); the same holds for the whole life of the writer,
`Finalize` included. -/
theorem C29_abort_yields_first_writes (k : Nat) (hk : 1 ≤ k) (fuel C : Nat)
    (ops : List WriterOp) :
    writesOf (runOps (abortAt k) fuel ops (OutputStreamWriter.new C)).writer.events =
        (writesOf (runOps continuingSink fuel ops
          (OutputStreamWriter.new C)).writer.events).take k ∧
      writesOf (writerLife (abortAt k) fuel C ops).writer.events =
        (writesOf (writerLife continuingSink fuel C ops).writer.events).take k :=
  ⟨writes_take_of_abortRel k _ _ (runOps_rel k fuel ops _ ⟨rfl, hk⟩),
    writes_take_of_abortRel k _ _ (writerLife_rel k hk fuel C ops)⟩

/-- Claim C29 at chunk size 3, abort at the second write: of the four writes `abc`, `def`,
`g12`, `3` made against the continuing sink, the aborting sink receives `abc`, `def`. -/
theorem C29_abort_yields_first_writes_witness :
    writesOf (writerLife continuingSink 20 3
        [WriterOp.addString "abcdefg".toList, WriterOp.addNumber 123]).writer.events =
      ["abc".toList, "def".toList, "g12".toList, "3".toList] ∧
    writesOf (writerLife (abortAt 2) 20 3
        [WriterOp.addString "abcdefg".toList, WriterOp.addNumber 123]).writer.events =
      ["abc".toList, "def".toList] :=
  ⟨by decide,
    (C29_abort_yields_first_writes 2 (by decide) 20 3
      [WriterOp.addString "abcdefg".toList, WriterOp.addNumber 123]).2.trans (by decide)⟩

/-! ## Names in the report -/

theorem frameRecord_of_no_nul (f : FunctionInfo)
    (h : (∀ c ∈ f.name, c ≠ '\x00') ∧ ∀ c ∈ f.script_name, c ≠ '\x00') :
    frameRecord f =
      "\t\x7b\"name\": \"".toList ++ f.name ++ "\", \"scriptName\": \"".toList ++
        f.script_name ++ "\"\x7d".toList := by
  unfold frameRecord
  rw [cString_of_no_nul _ h.1, cString_of_no_nul _ h.2]

/-- Claim C24 (names are emitted verbatim): for every live set whose frame names and script
names are C strings given by their bytes (no NUL among them), over a sink that never
aborts, `GetHeapSample` returns and the text delivered carries, for every frame, after
the opening `{"name": "` exactly the bytes of the name, then `", "scriptName": "`, then
exactly the bytes of the script name, then the closing quote and brace: whatever the
bytes are (quotes, backslashes, control characters), they are copied unchanged. -/
theorem C24_names_emitted_verbatim (C : Nat) (hC : 1 ≤ C) (fuel : Nat) (h18 : 18 ≤ fuel)
    (samples : List Sample)
    (hfuel : ∀ s ∈ samples, ∀ f ∈ s.stack,
      f.name.length ≤ fuel ∧ f.script_name.length ≤ fuel)
    (hnul : ∀ s ∈ samples, ∀ f ∈ s.stack,
      (∀ c ∈ f.name, c ≠ '\x00') ∧ ∀ c ∈ f.script_name, c ≠ '\x00') :
    ∃ (w : OutputStreamWriter) (chunks : List (List Char)),
      GetHeapSample continuingSink fuel C samples = Outcome.done w ∧
      w.events = chunks.map (fun b => SinkEvent.write b WriteResult.kContinue) ++
        [SinkEvent.endOfStream] ∧
      chunks.flatten =
        "[\n".toList ++
          List.intercalate ",".toList (samples.map fun s =>
            " \x7b\"size\": ".toList ++ emittedSize s.size ++ ", \"stack\": [\n".toList ++
              (if s.stack = [] then []
               else List.intercalate ",\n".toList (s.stack.map fun f =>
                  "\t\x7b\"name\": \"".toList ++ f.name ++
                    "\", \"scriptName\": \"".toList ++ f.script_name ++ "\"\x7d".toList) ++
                 "\n".toList) ++
              " ]\x7d\n".toList) ++
          "]\n".toList := by
  obtain ⟨w, chunks, hrun, hev, _, htext⟩ :=
    GetHeapSample_continuing C hC fuel h18 samples (fun s hs f hf => by
      rw [StrLength_of_no_nul _ (hnul s hs f hf).1, StrLength_of_no_nul _ (hnul s hs f hf).2]
      exact hfuel s hs f hf)
  refine ⟨w, chunks, hrun, hev, ?_⟩
  rw [htext, emittedReport_eq_reportText]
  unfold reportText
  congr 3
  apply List.map_congr_left
  intro s hs
  unfold sampleRecord stackRecords
  congr 5
  apply List.map_congr_left
  intro f hf
  exact frameRecord_of_no_nul f (hnul s hs f hf)

/-- Claim C24 at a frame whose name holds a quote, a backslash and a newline, and whose script
name holds a tab and a quote, for chunk size 4: the bytes appear unchanged. -/
theorem C24_names_emitted_verbatim_witness :
    ∃ (w : OutputStreamWriter) (chunks : List (List Char)),
      GetHeapSample continuingSink 18 4
          [⟨4096, [⟨"a\"b\\c\nd".toList, "x\ty\".js".toList⟩], 32⟩] = Outcome.done w ∧
      w.events = chunks.map (fun b => SinkEvent.write b WriteResult.kContinue) ++
        [SinkEvent.endOfStream] ∧
      chunks.flatten =
        ("[\n \x7b\"size\": 32, \"stack\": [\n" ++
          "\t\x7b\"name\": \"a\"b\\c\nd\", \"scriptName\": \"x\ty\".js\"\x7d\n" ++
          " ]\x7d\n]\n").toList :=
  (C24_names_emitted_verbatim 4 (by decide) 18 (by decide)
      [⟨4096, [⟨"a\"b\\c\nd".toList, "x\ty\".js".toList⟩], 32⟩]
      (by decide) (by decide)).imp
    fun _ h => h.imp fun _ h' => ⟨h'.1, h'.2.1, h'.2.2.trans (by decide)⟩

/-! ## The sampling interval in double arithmetic -/

theorem zipWith_GetNextStepSize {α : Type} [LinearOrderedField α] [FloorRing α]
    (kPointerSize : Nat) (undefinedCast : Int) (log : α → α) (mul : α → α → α)
    (toDouble : Nat → α) (rate_ : Nat) :
    ∀ (draws : List α) (states : List Runtime), states.length = draws.length →
      List.zipWith (GetNextStepSize kPointerSize undefinedCast log mul toDouble rate_)
          states draws =
        draws.map (fun u =>
          GetNextSampleInterval kPointerSize undefinedCast log mul toDouble u rate_) := by
  intro draws
  induction draws with
  | nil => intro states _; simp
  | cons u us ih =>
    intro states hlen
    cases states with
    | nil => simp at hlen
    | cons r rs =>
      simp only [List.length_cons, Nat.add_right_cancel_iff] at hlen
      simp only [List.zipWith_cons_cons, List.map_cons, ih rs hlen]
      rfl

/-- Claim C27 (interval determinism): the interval returned by `GetNextStepSize`, that is by
`GetNextSampleInterval`, depends on the drawn value `u` and the rate only, not on the
state of the runtime (the live set, the effects of earlier `Step`s): two runs fed the
same sequence of draws with the same rate, whatever the states at the time of the
calls, produce the same sequence of intervals. -/
theorem C27_interval_determinism {α : Type} [LinearOrderedField α] [FloorRing α]
    (kPointerSize : Nat) (undefinedCast : Int) (log : α → α) (mul : α → α → α)
    (toDouble : Nat → α) (rate_ : Nat)
    (draws : List α) (states states' : List Runtime)
    (hlen : states.length = draws.length) (hlen' : states'.length = draws.length) :
    (∀ (r r' : Runtime) (u : α),
      GetNextStepSize kPointerSize undefinedCast log mul toDouble rate_ r u =
        GetNextStepSize kPointerSize undefinedCast log mul toDouble rate_ r' u) ∧
    List.zipWith (GetNextStepSize kPointerSize undefinedCast log mul toDouble rate_)
        states draws =
      List.zipWith (GetNextStepSize kPointerSize undefinedCast log mul toDouble rate_)
        states' draws := by
  refine ⟨fun _ _ _ => rfl, ?_⟩
  rw [zipWith_GetNextStepSize _ _ _ _ _ _ draws states hlen,
    zipWith_GetNextStepSize _ _ _ _ _ _ draws states' hlen']

/-- Claim C27 at two draws, for a run on the fresh profiler and a run on runtimes with live
samples. -/
theorem C27_interval_determinism_witness :
    (∀ (r r' : Runtime) (u : ℚ),
      GetNextStepSize 8 0 (fun x => -x) (fun a b => a * b) (fun n => (n : ℚ)) 1024 r u =
        GetNextStepSize 8 0 (fun x => -x) (fun a b => a * b) (fun n => (n : ℚ)) 1024 r' u) ∧
    List.zipWith
        (GetNextStepSize 8 0 (fun x : ℚ => -x) (fun a b => a * b) (fun n => (n : ℚ)) 1024)
        [SamplingHeapProfiler.new, SamplingHeapProfiler.new] [1 / 2, 1 / 4] =
      List.zipWith
        (GetNextStepSize 8 0 (fun x : ℚ => -x) (fun a b => a * b) (fun n => (n : ℚ)) 1024)
        [oneSampleRuntime, twoSamplesOneAddress] [1 / 2, 1 / 4] :=
  C27_interval_determinism 8 0 (fun x : ℚ => -x) (fun a b => a * b) (fun n => (n : ℚ)) 1024
    [1 / 2, 1 / 4]
    [SamplingHeapProfiler.new, SamplingHeapProfiler.new] [oneSampleRuntime, twoSamplesOneAddress]
    rfl rfl

/-- The double nearest to `ln 2`, which is the value of `-std::log(0.5)`, lies below
`ln 2`. -/
theorem double_log_two_lt_log_two :
    (6243314768165359 / 9007199254740992 : ℝ) < Real.log 2 := by
  have hs := @Real.hasSum_log_one_add_inv 1 one_pos
  have hle := sum_le_hasSum (Finset.range 18) (fun k _ => by positivity) hs
  have h2 : Real.log (1 + (1 : ℝ)⁻¹) = Real.log 2 := by norm_num
  rw [h2] at hle
  refine lt_of_lt_of_le ?_ hle
  simp only [Finset.sum_range_succ, Finset.sum_range_zero]
  norm_num

theorem log_half_eq : Real.log (1 / 2) = -Real.log 2 := by
  rw [one_div, Real.log_inv]

/-- The truncation of a non-negative double in the range of `intptr_t` is its floor. -/
theorem toIntptr_of_nonneg (kPointerSize : Nat) (undefinedCast : Int) (x : ℝ)
    (hnonneg : 0 ≤ x) (hfit : Int.floor x < 2 ^ (8 * kPointerSize - 1)) :
    toIntptr kPointerSize undefinedCast x = Int.floor x := by
  have hfloor : (0 : Int) ≤ Int.floor x := Int.floor_nonneg.mpr hnonneg
  have hpow : (0 : Int) < 2 ^ (8 * kPointerSize - 1) := by positivity
  unfold toIntptr
  simp only [if_pos hnonneg]
  rw [if_pos ⟨by omega, hfit⟩]

/-- Claim C10 as stated fails: for `u = 1/2` and `rate = 100000` (pointer size 8) the formula
with rounding to the nearest integer gives `69315`; the code returns `69314`, for every
`std::log` and every multiplication of doubles that give the product `69314.718...`
to within `1/10`; the double which IEEE arithmetic gives for the product at this input,
`4763271154911315 / 2 ^ 36`, is within that distance. -/
theorem C10_counterexample_truncation_not_rounding :
    specNextSampleInterval 8 Real.log (1 / 2 : ℝ) 100000 = 69315 ∧
    (∀ (undefinedCast : Int) (log : ℝ → ℝ) (mul : ℝ → ℝ → ℝ) (toDouble : ℕ → ℝ),
      |mul (-log (1 / 2)) (toDouble 100000) - -Real.log (1 / 2) * 100000| ≤ 1 / 10 →
      GetNextSampleInterval 8 undefinedCast log mul toDouble (1 / 2 : ℝ) 100000 = 69314) ∧
    |(4763271154911315 / 68719476736 : ℝ) - -Real.log (1 / 2) * 100000| ≤ 1 / 10 := by
  obtain ⟨hlo, hhi⟩ := neg_log_half_bounds
  refine ⟨?_, ?_, ?_⟩
  · have hround : round (-Real.log (1 / 2) * ((100000 : ℕ) : ℝ)) = 69315 := by
      rw [round_eq, Int.floor_eq_iff]
      push_cast
      constructor <;> nlinarith
    unfold specNextSampleInterval
    rw [hround]
    decide
  · intro undefinedCast log mul toDouble htol
    obtain ⟨h1, h2⟩ := abs_le.mp htol
    have hfloor : Int.floor (mul (-log (1 / 2)) (toDouble 100000)) = 69314 := by
      rw [Int.floor_eq_iff]
      push_cast
      constructor <;> nlinarith
    have hnonneg : (0 : ℝ) ≤ mul (-log (1 / 2)) (toDouble 100000) := by nlinarith
    unfold GetNextSampleInterval
    simp only []
    rw [toIntptr_of_nonneg 8 undefinedCast _ hnonneg (by rw [hfloor]; decide), hfloor]
    decide
  · rw [abs_le]
    constructor <;> nlinarith

/-- Claim C10, amended: the interval returned by `GetNextSampleInterval` is
`max(pointer_size, floor(next))`, where `next` is the double the code computes for
`(-std::log(u)) * rate`: the double product is truncated, not rounded to the nearest
integer; this when `next` is not negative (as for `u` in (0, 1), where `std::log(u)` is
not positive) and in the range of `intptr_t`. When `next` is within `ε` of the real
product `-ln(u) * rate`, the interval lies between `max(pointer_size, floor(-ln(u) * rate
- ε))` and `max(pointer_size, floor(-ln(u) * rate + ε))`. -/
theorem C10_interval_is_truncated_double_product (kPointerSize : Nat) (undefinedCast : Int)
    (log : ℝ → ℝ) (mul : ℝ → ℝ → ℝ) (toDouble : ℕ → ℝ) (u : ℝ) (rate : Nat) (ε : ℝ)
    (hnonneg : 0 ≤ nextSampleValue log mul toDouble u rate)
    (hfit : Int.floor (nextSampleValue log mul toDouble u rate) < 2 ^ (8 * kPointerSize - 1))
    (hε : |nextSampleValue log mul toDouble u rate - -Real.log u * (rate : ℝ)| ≤ ε) :
    GetNextSampleInterval kPointerSize undefinedCast log mul toDouble u rate =
      max (kPointerSize : Int) (Int.floor (nextSampleValue log mul toDouble u rate)) ∧
    max (kPointerSize : Int) (Int.floor (-Real.log u * (rate : ℝ) - ε)) ≤
      GetNextSampleInterval kPointerSize undefinedCast log mul toDouble u rate ∧
    GetNextSampleInterval kPointerSize undefinedCast log mul toDouble u rate ≤
      max (kPointerSize : Int) (Int.floor (-Real.log u * (rate : ℝ) + ε)) := by
  obtain ⟨h1, h2⟩ := abs_le.mp hε
  have heq : GetNextSampleInterval kPointerSize undefinedCast log mul toDouble u rate =
      max (kPointerSize : Int) (Int.floor (nextSampleValue log mul toDouble u rate)) := by
    have ht := toIntptr_of_nonneg kPointerSize undefinedCast _ hnonneg hfit
    unfold GetNextSampleInterval
    unfold nextSampleValue at ht ⊢
    simp only []
    rw [ht]
  refine ⟨heq, ?_, ?_⟩
  · rw [heq]
    exact max_le_max (le_refl _) (Int.floor_le_floor (by linarith))
  · rw [heq]
    exact max_le_max (le_refl _) (Int.floor_le_floor (by linarith))

/-- The amended claim C10 at `u = 1/2`, `rate = 1024` and pointer size 8, with the value
IEEE arithmetic gives for `std::log(0.5)`, the double nearest to `ln(1/2)`; the product
with 1024, a power of two, is exact. -/
theorem C10_interval_is_truncated_double_product_witness :
    GetNextSampleInterval 8 0 (fun _ : ℝ => -(6243314768165359 / 9007199254740992))
        (fun a b => a * b) (fun n => (n : ℝ)) (1 / 2) 1024 =
      max ((8 : ℕ) : Int)
        (Int.floor (nextSampleValue (fun _ : ℝ => -(6243314768165359 / 9007199254740992))
          (fun a b => a * b) (fun n => (n : ℝ)) (1 / 2) 1024)) ∧
    max ((8 : ℕ) : Int) (Int.floor (-Real.log (1 / 2) * ((1024 : ℕ) : ℝ) - 1 / 10 ^ 6)) ≤
      GetNextSampleInterval 8 0 (fun _ : ℝ => -(6243314768165359 / 9007199254740992))
        (fun a b => a * b) (fun n => (n : ℝ)) (1 / 2) 1024 ∧
    GetNextSampleInterval 8 0 (fun _ : ℝ => -(6243314768165359 / 9007199254740992))
        (fun a b => a * b) (fun n => (n : ℝ)) (1 / 2) 1024 ≤
      max ((8 : ℕ) : Int) (Int.floor (-Real.log (1 / 2) * ((1024 : ℕ) : ℝ) + 1 / 10 ^ 6)) :=
  C10_interval_is_truncated_double_product 8 0
    (fun _ : ℝ => -(6243314768165359 / 9007199254740992))
    (fun a b => a * b) (fun n => (n : ℝ)) (1 / 2) 1024 (1 / 10 ^ 6)
    (by simp only [nextSampleValue]; norm_num)
    (by
      rw [Int.floor_lt]
      simp only [nextSampleValue]
      norm_num)
    (by
      have hlo := neg_log_half_bounds.1
      have hhi := neg_log_half_bounds.2
      simp only [nextSampleValue]
      rw [abs_le]
      push_cast
      constructor <;> nlinarith)

/-- Claim C26 as stated fails for the double the code computes: for `u = 1/2` and `rate = 1`
the value of `-std::log(0.5)` is the double `d = 6243314768165359 / 2 ^ 53`, which is
below `ln 2`, and the product with `1.0` is `d`. At `x = d` the computed value does not
exceed `x`, although `u < exp(-x / rate)`. More generally, whatever value other than
`ln 2` the library returns for `-std::log(0.5)`, there is an `x ≥ 0` at which the
equivalence fails. -/
theorem C26_counterexample_double_logarithm :
    (0 : ℝ) ≤ 6243314768165359 / 9007199254740992 ∧
    ¬ ((6243314768165359 / 9007199254740992 : ℝ) <
          nextSampleValue (fun _ : ℝ => -(6243314768165359 / 9007199254740992))
            (fun a b => a * b) (fun n => (n : ℝ)) (1 / 2) 1 ↔
        (1 / 2 : ℝ) < Real.exp (-(6243314768165359 / 9007199254740992) / ((1 : ℕ) : ℝ))) ∧
    (∀ d : ℝ, 0 ≤ d → d ≠ Real.log 2 → ∃ x : ℝ, 0 ≤ x ∧
      ¬ (x < nextSampleValue (fun _ : ℝ => -d) (fun a b => a * b) (fun n => (n : ℝ))
            (1 / 2) 1 ↔
        (1 / 2 : ℝ) < Real.exp (-x / ((1 : ℕ) : ℝ)))) := by
  have hexp : ∀ x : ℝ, ((1 / 2 : ℝ) < Real.exp (-x / ((1 : ℕ) : ℝ)) ↔ x < Real.log 2) := by
    intro x
    rw [← Real.log_lt_iff_lt_exp (by norm_num : (0 : ℝ) < 1 / 2), log_half_eq]
    simp
  have hnext : ∀ d : ℝ,
      nextSampleValue (fun _ : ℝ => -d) (fun a b => a * b) (fun n => (n : ℝ)) (1 / 2) 1 = d := by
    intro d
    simp [nextSampleValue]
  have hbelow : ∀ d : ℝ, d < Real.log 2 →
      ¬ (d < nextSampleValue (fun _ : ℝ => -d) (fun a b => a * b) (fun n => (n : ℝ))
            (1 / 2) 1 ↔
        (1 / 2 : ℝ) < Real.exp (-d / ((1 : ℕ) : ℝ))) := by
    intro d hd h
    rw [hnext, hexp] at h
    exact lt_irrefl d (h.mpr hd)
  refine ⟨by norm_num, hbelow _ double_log_two_lt_log_two, ?_⟩
  intro d hd0 hne
  rcases lt_or_gt_of_ne hne with hlt | hgt
  · exact ⟨d, hd0, hbelow d hlt⟩
  · refine ⟨Real.log 2, Real.log_nonneg (by norm_num), ?_⟩
    intro h
    rw [hnext, hexp] at h
    exact lt_irrefl _ (h.mp hgt)

/-- Claim C26, amended (inverse-transform property up to rounding): for every rate `> 0`,
every `u > 0` (so every `u` in (0, 1)) and every real `x` (so every `x ≥ 0`), the real
product `-ln(u) * rate` exceeds `x` exactly when `u < exp(-x / rate)`; and when the
double `next` which `GetNextSampleInterval` computes, converts and bounds below is
within `ε` of that product, `u < exp(-(x + ε) / rate)` implies `next > x` and `next > x`
implies `u < exp(-(x - ε) / rate)`. -/
theorem C26_inverse_transform_up_to_rounding (kPointerSize : Nat) (undefinedCast : Int)
    (log : ℝ → ℝ) (mul : ℝ → ℝ → ℝ) (toDouble : ℕ → ℝ) (rate : Nat) (hrate : 0 < rate)
    (u : ℝ) (hu0 : 0 < u) (x ε : ℝ)
    (hε : |nextSampleValue log mul toDouble u rate - -Real.log u * (rate : ℝ)| ≤ ε) :
    (x < -Real.log u * (rate : ℝ) ↔ u < Real.exp (-x / (rate : ℝ))) ∧
    (u < Real.exp (-(x + ε) / (rate : ℝ)) → x < nextSampleValue log mul toDouble u rate) ∧
    (x < nextSampleValue log mul toDouble u rate → u < Real.exp (-(x - ε) / (rate : ℝ))) ∧
    GetNextSampleInterval kPointerSize undefinedCast log mul toDouble u rate =
      max (kPointerSize : Int)
        (toIntptr kPointerSize undefinedCast (nextSampleValue log mul toDouble u rate)) := by
  have hrate' : (0 : ℝ) < (rate : ℝ) := by exact_mod_cast hrate
  have key : ∀ y : ℝ, (y < -Real.log u * (rate : ℝ) ↔ u < Real.exp (-y / (rate : ℝ))) := by
    intro y
    rw [← div_lt_iff₀ hrate', lt_neg, neg_div, Real.log_lt_iff_lt_exp hu0]
  obtain ⟨h1, h2⟩ := abs_le.mp hε
  refine ⟨key x, ?_, ?_, rfl⟩
  · intro h
    have := (key (x + ε)).mpr h
    linarith
  · intro h
    exact (key (x - ε)).mp (by linarith)

/-- The amended claim C26 at `u = 1/2`, `rate = 1024`, `x = 100` and `ε = 1 / 10 ^ 6`, with
the value IEEE arithmetic gives for `std::log(0.5)`; the product with 1024 is exact. -/
theorem C26_inverse_transform_up_to_rounding_witness :
    ((100 : ℝ) < -Real.log (1 / 2) * ((1024 : ℕ) : ℝ) ↔
      (1 / 2 : ℝ) < Real.exp (-100 / ((1024 : ℕ) : ℝ))) ∧
    ((1 / 2 : ℝ) < Real.exp (-(100 + 1 / 10 ^ 6) / ((1024 : ℕ) : ℝ)) →
      (100 : ℝ) < nextSampleValue (fun _ : ℝ => -(6243314768165359 / 9007199254740992))
        (fun a b => a * b) (fun n => (n : ℝ)) (1 / 2) 1024) ∧
    ((100 : ℝ) < nextSampleValue (fun _ : ℝ => -(6243314768165359 / 9007199254740992))
        (fun a b => a * b) (fun n => (n : ℝ)) (1 / 2) 1024 →
      (1 / 2 : ℝ) < Real.exp (-(100 - 1 / 10 ^ 6) / ((1024 : ℕ) : ℝ))) ∧
    GetNextSampleInterval 8 0 (fun _ : ℝ => -(6243314768165359 / 9007199254740992))
        (fun a b => a * b) (fun n => (n : ℝ)) (1 / 2) 1024 =
      max ((8 : ℕ) : Int)
        (toIntptr 8 0 (nextSampleValue (fun _ : ℝ => -(6243314768165359 / 9007199254740992))
          (fun a b => a * b) (fun n => (n : ℝ)) (1 / 2) 1024)) :=
  C26_inverse_transform_up_to_rounding 8 0
    (fun _ : ℝ => -(6243314768165359 / 9007199254740992))
    (fun a b => a * b) (fun n => (n : ℝ)) 1024 (by decide) (1 / 2) (by norm_num) 100
    (1 / 10 ^ 6)
    (by
      have hlo := neg_log_half_bounds.1
      have hhi := neg_log_half_bounds.2
      simp only [nextSampleValue]
      rw [abs_le]
      push_cast
      constructor <;> nlinarith)

/-! ## The weak callback fires once -/

/-- Claim C15 (the liveness callback is single-fire): when the collector fires the weak
callback for a Sample of the live set, the Sample is erased from the set, whose size
drops by one and which loses no other Sample, and it is deleted; its destructor resets
the weak handle. Afterwards the collector holds no link for that Sample: when it is
asked to fire for it a second time the callback is not invoked, no second removal
occurs, and the live set, like the whole state, is the one after the first firing. -/
theorem C15_weak_callback_single_fire (p : Nat) (r : Runtime)
    (halive : r.alive = true) (hwf : r.wellFormed) (hp : p ∈ r.samples_)
    (hweak : p ∈ r.weakHandles) :
    ∃ r', collectorFires p r = some r' ∧
      r'.samples_ = r.samples_.erase p ∧
      r'.samples_.length + 1 = r.samples_.length ∧
      (∀ q, q ∈ r'.samples_ ↔ q ∈ r.samples_ ∧ q ≠ p) ∧
      p ∉ r'.weakHandles ∧ List.lookup p r'.sampleObjects = none ∧
      collectorFires p r' = some r' := by
  have hnodup : r.samples_.Nodup := hwf.1.nodup
  have hfire : collectorFires p r = OnWeakCallback p r := by
    simp [collectorFires, hweak]
  have hw : p ∉ r.weakHandles.filter (fun q => q != p) := by simp
  refine ⟨_, hfire.trans (OnWeakCallback_of_live p r halive (hwf.2 p hp)), rfl, ?_, ?_, hw,
    lookup_filter_self p r.sampleObjects, ?_⟩
  · simp only [List.length_erase_of_mem hp]
    have := List.length_pos_of_mem hp
    omega
  · intro q
    simp only [hnodup.mem_erase_iff]
    exact And.comm
  · simp only [collectorFires]
    rw [if_neg hw]

/-- Claim C15 at the runtime with one live sample: the first firing empties the live set,
the second changes nothing. -/
theorem C15_weak_callback_single_fire_witness :
    ∃ r', collectorFires 1 oneSampleRuntime = some r' ∧
      r'.samples_ = oneSampleRuntime.samples_.erase 1 ∧
      r'.samples_.length + 1 = oneSampleRuntime.samples_.length ∧
      (∀ q, q ∈ r'.samples_ ↔ q ∈ oneSampleRuntime.samples_ ∧ q ≠ 1) ∧
      1 ∉ r'.weakHandles ∧ List.lookup 1 r'.sampleObjects = none ∧
      collectorFires 1 r' = some r' :=
  C15_weak_callback_single_fire 1 oneSampleRuntime (by decide) ⟨by decide, by decide⟩
    (by decide) (by decide)

/-! ## No two live samples for one object -/

theorem MemCopy_singleton (buf : List Char) (pos : Nat) (c : Char) (h : pos < buf.length) :
    MemCopy buf pos [c] = buf.set pos c := by
  unfold MemCopy
  rw [List.set_eq_take_append_cons_drop, if_pos h]
  simp

/-- On a writer whose position is within the buffer, `AddCharacter(c)` is one iteration of the
copy loop on the one byte `c`. -/
theorem AddCharacter_eq_loop (sink : Sink) (c : Char) (w : OutputStreamWriter)
    (hwf : w.chunk.length = w.chunk_size) (hpos : w.chunk_pos < w.chunk_size) :
    AddCharacter sink c w = AddSubstringLoop sink 1 w [c] := by
  have hmin : min (w.chunk_size - w.chunk_pos) 1 = 1 := by omega
  have hcopy : MemCopy w.chunk w.chunk_pos [c] = w.chunk.set w.chunk_pos c :=
    MemCopy_singleton _ _ _ (by omega)
  simp only [AddSubstringLoop, AddSubstringBody, AddCharacter, if_pos hpos,
    List.length_singleton, hmin, List.take_succ_cons, List.take_zero, List.drop_succ_cons,
    List.drop_zero, hcopy]

/-- The copy loop under every sink, from a state that has not aborted: when it returns and
the writer has still not aborted, the input has been appended to the stream. -/
theorem AddSubstringLoop_stream (sink : Sink) (fuel : Nat) :
    ∀ (w : OutputStreamWriter) (s : List Char),
      w.chunk.length = w.chunk_size → w.aborted = false → w.chunk_pos < w.chunk_size →
      ∀ w', AddSubstringLoop sink fuel w s = Outcome.done w' → w'.aborted = false →
        w'.stream = w.stream ++ s := by
  induction fuel with
  | zero =>
    intro w s _ _ _ w' hrun _
    cases s with
    | nil =>
      simp only [AddSubstringLoop, Outcome.done.injEq] at hrun
      rw [← hrun]; simp
    | cons c cs => simp [AddSubstringLoop] at hrun
  | succ fuel ih =>
    intro w s hwf hab hpos w' hrun hab'
    cases s with
    | nil =>
      simp only [AddSubstringLoop, Outcome.done.injEq] at hrun
      rw [← hrun]; simp
    | cons c cs =>
      obtain ⟨hrest, hlen, hsize, hstream, hcases⟩ :=
        AddSubstringBody_step sink w (c :: cs) hwf hab hpos
      simp only [AddSubstringLoop] at hrun
      have hab1 : (AddSubstringBody sink w (c :: cs)).1.aborted = false := by
        cases h : (AddSubstringBody sink w (c :: cs)).1.aborted with
        | false => rfl
        | true =>
          have := (AddSubstringLoop_aborted sink fuel _
            (AddSubstringBody sink w (c :: cs)).2 h).1
          rw [hrun] at this
          simp only [Outcome.writer] at this
          rw [this] at hab'
          exact absurd hab' (by simp)
      have hpos1 : (AddSubstringBody sink w (c :: cs)).1.chunk_pos <
          (AddSubstringBody sink w (c :: cs)).1.chunk_size := by
        rw [hsize]
        rcases hcases with ⟨hlt, _, _, hp⟩ | ⟨_, _, _, _, _, hp⟩
        · rw [hp]; exact hlt
        · rw [hp]; omega
      have := ih _ _ (by rw [hlen, hsize]) hab1 hpos1 w' hrun hab'
      rw [this, hstream, hrest, List.append_assoc, List.take_append_drop]

theorem WriterOp.apply_stream (sink : Sink) (fuel : Nat) (op : WriterOp)
    (w : OutputStreamWriter) (hinv : w.invariant) (hab : w.aborted = false) :
    ∀ w', op.apply sink fuel w = Outcome.done w' → w'.aborted = false →
      w'.stream = w.stream ++ op.text := by
  have hwf := hinv.1
  have hpos := hinv.2.2.1 hab
  intro w' hrun hab'
  cases op with
  | addCharacter c =>
    simp only [WriterOp.apply] at hrun
    rw [AddCharacter_eq_loop sink c w hwf hpos] at hrun
    exact AddSubstringLoop_stream sink 1 w [c] hwf hab hpos w' hrun hab'
  | addString s =>
    simp only [WriterOp.apply] at hrun
    rw [AddString_eq_loop_cString] at hrun
    exact AddSubstringLoop_stream sink fuel w _ hwf hab hpos w' hrun hab'
  | addSubstring s n =>
    simp only [WriterOp.apply, AddSubstring] at hrun
    simp only [WriterOp.text]
    by_cases hn : n ≤ 0
    · rw [if_pos hn] at hrun ⊢
      simp only [Outcome.done.injEq] at hrun
      rw [← hrun]; simp
    · rw [if_neg hn] at hrun ⊢
      exact AddSubstringLoop_stream sink fuel w _ hwf hab hpos w' hrun hab'
  | addNumber n =>
    have hn : n % 2 ^ 32 < 2 ^ 32 := Nat.mod_lt _ (by decide)
    simp only [WriterOp.apply, AddNumber] at hrun
    simp only [WriterOp.text]
    by_cases hroom : w.chunk_size - w.chunk_pos ≥ kMaxNumberSize
    · obtain ⟨w1, hrun1, hev, _, _, htake⟩ :=
        AddNumberImpl_in_place sink fuel _ hn w hwf hroom
      rw [hrun1] at hrun
      simp only [Outcome.done.injEq] at hrun
      rw [← hrun, stream_eq, stream_eq, hev, htake, List.append_assoc]
    · rw [AddNumberImpl_scratch sink fuel _ hn w hroom, AddString_eq_loop_cString,
        cString_of_no_nul _ (decimal_no_nul _)] at hrun
      exact AddSubstringLoop_stream sink fuel w _ hwf hab hpos w' hrun hab'

theorem runOps_stream (sink : Sink) (fuel : Nat) (ops : List WriterOp) :
    ∀ w : OutputStreamWriter, 1 ≤ w.chunk_size → w.invariant → w.aborted = false →
      ∀ w', runOps sink fuel ops w = Outcome.done w' → w'.aborted = false →
        w'.stream = w.stream ++ (ops.map WriterOp.text).flatten := by
  induction ops with
  | nil =>
    intro w _ _ _ w' hrun _
    simp only [runOps, Outcome.done.injEq] at hrun
    rw [← hrun]; simp
  | cons op ops ih =>
    intro w hC hinv hab w' hrun hab'
    have hinv1 := WriterOp.apply_invariant sink fuel op w hC hinv
    have hst1 := WriterOp.apply_stream sink fuel op w hinv hab
    simp only [runOps] at hrun
    cases hop : op.apply sink fuel w with
    | done w1 =>
      rw [hop] at hrun hinv1
      simp only [Outcome.bind, Outcome.writer] at hrun hinv1
      have hab1 : w1.aborted = false := by
        cases h : w1.aborted with
        | false => rfl
        | true =>
          have := (runOps_aborted sink fuel ops w1 h).1
          rw [hrun] at this
          simp only [Outcome.writer] at this
          rw [this] at hab'
          exact absurd hab' (by simp)
      rw [ih w1 (by rw [hinv1.2]; exact hC) hinv1.1 hab1 w' hrun hab', hst1 w1 hop hab1]
      simp
    | outOfFuel w1 => rw [hop] at hrun; simp [Outcome.bind] at hrun
    | outOfBounds w1 => rw [hop] at hrun; simp [Outcome.bind] at hrun

theorem writesOf_map_write_pair (chunks : List (List Char × WriteResult)) :
    writesOf (chunks.map (fun x => SinkEvent.write x.1 x.2)) = chunks.map Prod.fst := by
  induction chunks with
  | nil => rfl
  | cons b bs ih => simp [writesOf, ih]

theorem length_flatten_of_length_eq (C : Nat) (l : List (List Char))
    (h : ∀ b ∈ l, b.length = C) : l.flatten.length = l.length * C := by
  induction l with
  | nil => simp
  | cons b bs ih =>
    have hb := h b (List.mem_cons_self _ _)
    have := ih (fun x hx => h x (List.mem_cons_of_mem _ hx))
    simp only [List.flatten_cons, List.length_append, List.length_cons, hb, this]
    rw [Nat.add_mul, Nat.one_mul, Nat.add_comm]

/-- From the stream to the count: when `w'` is reached from `w` by writes of full chunks only
and the stream has grown by `text`, the number of writes added and the position
reached are the quotient and the remainder of the bytes buffered and appended by the
chunk size. -/
theorem flush_count_of_stream (C : Nat) (w w' : OutputStreamWriter) (text : List Char)
    (hfull : fullChunkWrites C w w') (hst : w'.stream = w.stream ++ text)
    (hwf : w.chunk.length = C) (hwf' : w'.chunk.length = C)
    (hpos : w.chunk_pos ≤ C) (hpos' : w'.chunk_pos < C) :
    (writesOf w'.events).length =
        (writesOf w.events).length + (w.chunk_pos + text.length) / C ∧
      w'.chunk_pos = (w.chunk_pos + text.length) % C := by
  obtain ⟨chunks, hev, hall⟩ := hfull
  have hw : writesOf w'.events = writesOf w.events ++ chunks.map Prod.fst := by
    rw [hev, writesOf_append, writesOf_map_write_pair]
  have hflat : (chunks.map Prod.fst).flatten.length = chunks.length * C := by
    rw [length_flatten_of_length_eq C _ (by
      intro b hb
      obtain ⟨x, hx, rfl⟩ := List.mem_map.mp hb
      exact hall x hx), List.length_map]
  have hlen := congrArg List.length hst
  simp only [stream_eq, hw, List.flatten_append, List.length_append, List.length_take,
    hflat, hwf, hwf'] at hlen
  have hmin : min w.chunk_pos C = w.chunk_pos := Nat.min_eq_left hpos
  have hmin' : min w'.chunk_pos C = w'.chunk_pos := Nat.min_eq_left (Nat.le_of_lt hpos')
  rw [hmin, hmin'] at hlen
  have hsum : w.chunk_pos + text.length = w'.chunk_pos + chunks.length * C := by omega
  have hCpos : 0 < C := by omega
  rw [hw, List.length_append, List.length_map, hsum]
  refine ⟨?_, ?_⟩
  · rw [Nat.add_mul_div_right _ _ hCpos, Nat.div_eq_of_lt hpos', Nat.zero_add]
  · rw [Nat.add_mul_mod_self_right, Nat.mod_eq_of_lt hpos']

/-! ### Over a sink that always continues the operations return -/

theorem AddSubstringLoop_appends (C : Nat) (hC : 1 ≤ C) (fuel : Nat) (s : List Char)
    (hfuel : s.length ≤ fuel) :
    appendsText C (fun w => AddSubstringLoop continuingSink fuel w s) s := by
  intro w ⟨hinv, hsize, hab, chunks, hev⟩
  obtain ⟨w', hrun, _, _, hab', _, hst', chunks', hev', _, _⟩ :=
    AddSubstringLoop_continuing continuingSink (fun _ _ => rfl) fuel w s
      hinv.1 hab (hinv.2.2.1 hab) hfuel
  have hinv' := AddSubstringLoop_invariant continuingSink fuel w s
    (by rw [hsize]; exact hC) hinv
  rw [hrun] at hinv'
  simp only [Outcome.writer_done] at hinv'
  refine ⟨w', hrun, ⟨hinv'.1, by rw [hinv'.2, hsize], hab', chunks ++ chunks', ?_⟩, hst'⟩
  rw [hev', hev, List.map_append]

theorem WriterOp.apply_appends (C : Nat) (hC : 1 ≤ C) (fuel : Nat) (h10 : 10 ≤ fuel)
    (op : WriterOp) (hfuel : op.text.length ≤ fuel) :
    appendsText C (op.apply continuingSink fuel) op.text := by
  cases op with
  | addCharacter c =>
    intro w hw
    have hwf := hw.1.1
    have hpos := hw.1.2.2.1 hw.2.2.1
    simp only [WriterOp.apply, WriterOp.text]
    rw [AddCharacter_eq_loop continuingSink c w hwf hpos]
    exact AddSubstringLoop_appends C hC 1 [c] (by simp) w hw
  | addString s => exact AddString_appends C hC fuel s hfuel
  | addSubstring s n =>
    intro w hw
    simp only [WriterOp.apply, WriterOp.text, AddSubstring] at hfuel ⊢
    by_cases hn : n ≤ 0
    · rw [if_pos hn, if_pos hn]
      exact ⟨w, rfl, hw, by simp⟩
    · rw [if_neg hn] at hfuel
      rw [if_neg hn, if_neg hn]
      exact AddSubstringLoop_appends C hC fuel _ hfuel w hw
  | addNumber n => exact AddNumber_appends C hC fuel h10 n

theorem runOps_appends (C : Nat) (hC : 1 ≤ C) (fuel : Nat) (h10 : 10 ≤ fuel) :
    ∀ ops : List WriterOp, (∀ op ∈ ops, op.text.length ≤ fuel) →
      appendsText C (runOps continuingSink fuel ops) (ops.map WriterOp.text).flatten := by
  intro ops
  induction ops with
  | nil => intro _; exact appendsText_done C
  | cons op ops ih =>
    intro hfuel
    have h1 := WriterOp.apply_appends C hC fuel h10 op (hfuel op (List.mem_cons_self _ _))
    have h2 := ih (fun x hx => hfuel x (List.mem_cons_of_mem _ hx))
    have := appendsText_bind C _ _ _ _ h1 h2
    simpa [runOps] using this

/-- Claim C22 (full-chunk flushing). From every state of the writer between operations, for
every sequence of append operations: (1) under every sink, in every outcome, the sink
calls added are write calls of exactly chunk-size bytes (a shorter write can only come
from `Finalize`). (2) Under every sink, when the operations return on a writer that has
not aborted, the bytes handed over have been appended to the stream, the number of
writes added is the quotient of the bytes buffered and handed over by the chunk size,
and the position is the remainder: the buffer has been written every time it became
full, and the position was 0 after each write. (3) Over a sink that always continues,
with one unit of fuel for every byte of the longest operation, the operations do return
on a writer that has not aborted. (4) A write is issued by `MaybeWriteChunk` at the
moment the position has reached the chunk size on a writer that has not aborted, it
carries the whole buffer, and the position is 0 after it; when the position is below the
chunk size nothing is written. -/
theorem C22_appends_flush_full_chunks (sink : Sink) (fuel : Nat) (ops : List WriterOp)
    (w : OutputStreamWriter) (hC : 1 ≤ w.chunk_size) (hinv : w.invariant) :
    (∃ chunks : List (List Char × WriteResult),
      (runOps sink fuel ops w).writer.events =
          w.events ++ chunks.map (fun x => SinkEvent.write x.1 x.2) ∧
        ∀ x ∈ chunks, x.1.length = w.chunk_size) ∧
    (w.aborted = false →
      ∀ w', runOps sink fuel ops w = Outcome.done w' → w'.aborted = false →
        w'.stream = w.stream ++ (ops.map WriterOp.text).flatten ∧
        (writesOf w'.events).length =
          (writesOf w.events).length +
            (w.chunk_pos + (ops.map WriterOp.text).flatten.length) / w.chunk_size ∧
        w'.chunk_pos =
          (w.chunk_pos + (ops.map WriterOp.text).flatten.length) % w.chunk_size) ∧
    (w.flowing w.chunk_size → (∀ op ∈ ops, op.text.length ≤ fuel) → 10 ≤ fuel →
      ∃ w', runOps continuingSink fuel ops w = Outcome.done w' ∧ w'.aborted = false) ∧
    (∀ w1 : OutputStreamWriter, w1.chunk_pos ≠ w1.chunk_size → MaybeWriteChunk sink w1 = w1) ∧
    (∀ w1 : OutputStreamWriter, w1.chunk_pos = w1.chunk_size → w1.aborted = false →
      (MaybeWriteChunk sink w1).events =
          w1.events ++ [SinkEvent.write (w1.chunk.take w1.chunk_size)
            (sink w1.events (w1.chunk.take w1.chunk_size))] ∧
        (MaybeWriteChunk sink w1).chunk_pos = 0) := by
  refine ⟨runOps_fullChunk sink fuel ops w hC hinv, ?_, ?_,
    fun w1 => (MaybeWriteChunk_cases sink w1).1,
    fun w1 => (MaybeWriteChunk_cases sink w1).2.2⟩
  · intro hab w' hrun hab'
    have hst := runOps_stream sink fuel ops w hC hinv hab w' hrun hab'
    have hfull := runOps_fullChunk sink fuel ops w hC hinv
    have hinv' := runOps_invariant sink fuel ops w hC hinv
    rw [hrun] at hfull hinv'
    simp only [Outcome.writer] at hfull hinv'
    exact ⟨hst, flush_count_of_stream w.chunk_size w w' _ hfull hst hinv.1
      (by rw [hinv'.1.1, hinv'.2]) hinv.2.1
      (by rw [← hinv'.2]; exact hinv'.1.2.2.1 hab')⟩
  · intro hflow hfuel h10
    obtain ⟨w', hrun, hflow', _⟩ := runOps_appends w.chunk_size hC fuel h10 ops hfuel w hflow
    exact ⟨w', hrun, hflow'.2.2.1⟩

/-- Claim C22 at a fresh writer of chunk size 3, over a sink that always continues, for the
seven bytes `abcdefg` and the number `123`: the ten bytes give three writes, `abc`, `def`
and `g12`, and leave the position at 1. -/
theorem C22_appends_flush_full_chunks_witness :
    ∃ w', runOps continuingSink 20
          [WriterOp.addString "abcdefg".toList, WriterOp.addNumber 123]
          (OutputStreamWriter.new 3) = Outcome.done w' ∧
      w'.aborted = false ∧
      w'.stream = "abcdefg123".toList ∧
      (writesOf w'.events).length = 3 ∧ w'.chunk_pos = 1 := by
  have T := C22_appends_flush_full_chunks continuingSink 20
    [WriterOp.addString "abcdefg".toList, WriterOp.addNumber 123]
    (OutputStreamWriter.new 3) (by decide) (invariant_new 3 (by decide))
  obtain ⟨w', hrun, hab⟩ := T.2.2.1 (flowing_new 3 (by decide)) (by decide) (by decide)
  obtain ⟨h1, h2, h3⟩ := T.2.1 rfl w' hrun hab
  exact ⟨w', hrun, hab, h1.trans (by decide), h2.trans (by decide), h3.trans (by decide)⟩

end V8
